import Mathlib

/-!
# bookpipeline: the in-worker job drivers, the fan-in check and the analyse aggregator

A shallow embedding of `internal/pipeline/pipeline.go`, of `UploadImages` of
`internal/pipeline/put.go` and of `Graph` of `graph.go`.

* Go strings are lists of characters (`Str`); an `error` is its message.
* The cloud adapter (`Pipeliner`) and the operating system (`Host`) are records of state
  transformers over an arbitrary state `σ`; every call made by the modelled code is also
  appended to a log of `Call`s, so that "is enqueued", "is deleted" and their order can be
  stated.
* The goroutines of a job (downloader, transform, uploader, heartbeat) are each a function
  of the contents of their input channel.  What the `select` of a driver receives is the
  result of an `Engine`, over which the driver theorems are universally quantified.
* Where blocking matters, the same goroutines are state machines over their channel
  operations (`Job`, `fire`, `Beat`, `heartbeatStep`), run under every schedule.
-/

namespace Bookpipeline

/-- A Go string, as the list of its characters. -/
abbrev Str := List Char

/-- A Go `error`, represented by its message. -/
abbrev Err := Str

/-! ## The `strings` and `path/filepath` functions used by the pipeline -/

/-- Go `strings.HasSuffix`. -/
def HasSuffix (s suffix : Str) : Bool :=
  suffix.length ≤ s.length && s.drop (s.length - suffix.length) == suffix

/-- Go `strings.TrimSuffix`: `s` without the trailing `suffix`, or `s` itself. -/
def TrimSuffix (s suffix : Str) : Str :=
  if HasSuffix s suffix then s.take (s.length - suffix.length) else s

/-- Go `strings.HasPrefix`. -/
def HasPrefix (s pfx : Str) : Bool :=
  pfx.isPrefixOf s

/-- Go `strings.Split(s, sep)` for a separator of one character. -/
def Split : Str → Char → List Str
  | [], _ => [[]]
  | c :: cs, sep =>
    if c = sep then [] :: Split cs sep
    else
      match Split cs sep with
      | [] => [[c]]
      | h :: t => (c :: h) :: t

/-- Go `strings.Join`. -/
def Join (elems : List Str) (sep : Str) : Str :=
  sep.intercalate elems

/-- Go `strings.Replace(s, old, new, 1)`: only the first occurrence of `old` is replaced. -/
def Replace1 (s old new : Str) : Str :=
  if old.isPrefixOf s then new ++ s.drop old.length
  else
    match s with
    | [] => []
    | c :: cs => c :: Replace1 cs old new

/-- Go `strings.Index`: the position of the first occurrence of `sub`, or `-1`. -/
def Index (s sub : Str) : Int :=
  if sub.isPrefixOf s then 0
  else
    match s with
    | [] => -1
    | _ :: cs =>
      let i := Index cs sub
      if i < 0 then -1 else i + 1

/-- Go slice expression `s[lo:hi]` on a string; `none` is the run-time panic
"slice bounds out of range". -/
def slice (s : Str) (lo hi : Int) : Option Str :=
  if 0 ≤ lo ∧ lo ≤ hi ∧ hi ≤ (s.length : Int) then
    some ((s.drop lo.toNat).take (hi.toNat - lo.toNat))
  else none

/-- The path without its trailing slashes (first loop of `filepath.Base`). -/
def stripTrailingSlashes (path : Str) : Str :=
  (path.reverse.dropWhile (fun c => c == '/')).reverse

/-- The text after the last slash (second loop of `filepath.Base`). -/
def lastElement (path : Str) : Str :=
  (path.reverse.takeWhile (fun c => c != '/')).reverse

/-- Go `filepath.Base` with `/` as the separator. -/
def Base (path : Str) : Str :=
  if path = [] then ['.']
  else
    let p := lastElement (stripTrailingSlashes path)
    if p = [] then ['/'] else p

/-- One step of `filepath.Clean` on the stack of kept elements (innermost first):
empty and `.` elements are dropped, `..` removes the last kept element when there is one
that is not itself a leading `..`, and is kept only in a path that is not rooted. -/
def cleanStep (rooted : Bool) (stack : List Str) (elem : Str) : List Str :=
  if elem = [] ∨ elem = ['.'] then stack
  else if elem = ['.', '.'] then
    match stack with
    | [] => if rooted then [] else [elem]
    | top :: rest => if top = ['.', '.'] then elem :: top :: rest else rest
  else elem :: stack

/-- Go `filepath.Clean` with `/` as the separator. -/
def Clean (path : Str) : Str :=
  if path = [] then ['.']
  else
    let rooted := path.head? == some '/'
    let kept := ((Split path '/').foldl (cleanStep rooted) []).reverse
    let body := Join kept ['/']
    if rooted then '/' :: body
    else if body = [] then ['.'] else body

/-- Go `filepath.Join`: the elements from the first non-empty one on, joined by `/` and
cleaned; the empty string when all are empty. -/
def filepathJoin : List Str → Str
  | [] => []
  | e :: es => if e = [] then filepathJoin es else Clean (Join (e :: es) ['/'])

/-- Go `filepath.Dir` with `/` as the separator: the cleaned text up to the last slash. -/
def Dir (path : Str) : Str :=
  Clean (path.take (path.length - (lastElement path).length))

/-! ## Regular expressions without repetition, anchored at the end of the text -/

/-- One position of a regular expression: the characters it admits. -/
inductive Atom where
  /-- A literal character. -/
  | lit (c : Char)
  /-- The class `[0-9]`. -/
  | digit
  /-- An unescaped `.`: any character but a newline. -/
  | anyChar
  deriving DecidableEq, Repr

/-- Whether a character is admitted at a position. -/
def Atom.accepts : Atom → Char → Bool
  | .lit c, d => d == c
  | .digit, d => decide ('0'.toNat ≤ d.toNat ∧ d.toNat ≤ '9'.toNat)
  | .anyChar, d => d != '\n'

/-- The whole text is matched by the sequence of positions. -/
def matchHere : List Atom → Str → Bool
  | [], [] => true
  | [], _ :: _ => false
  | _ :: _, [] => false
  | a :: as, c :: cs => a.accepts c && matchHere as cs

/-- Go `regexp.MatchString` for a pattern `pat$`: some suffix of the text is matched by
`pat` (the search is not anchored at the start; `$` is the end of the text). -/
def MatchString (pat : List Atom) : Str → Bool
  | [] => matchHere pat []
  | c :: cs => matchHere pat (c :: cs) || MatchString pat cs

/-- The pattern compiled in `allOCRed`: `_bin[0-9].[0-9].png$`, both dots unescaped. -/
def preprocessedPattern : List Atom :=
  [.lit '_', .lit 'b', .lit 'i', .lit 'n', .digit, .anyChar, .digit, .anyChar,
   .lit 'p', .lit 'n', .lit 'g']

/-- The pattern of the data model of the specification: `_bin[0-9]\.[0-9]\.png$`, with
literal dots. -/
def specVariantPattern : List Atom :=
  [.lit '_', .lit 'b', .lit 'i', .lit 'n', .digit, .lit '.', .digit, .lit '.',
   .lit 'p', .lit 'n', .lit 'g']

/-! ## The cloud adapter, the host and the call log -/

/-- Go `bookpipeline.Qmsg`. -/
structure Qmsg where
  /-- The message id; non-empty only for a rotated message. -/
  Id : Str
  /-- The receipt handle used to delete the message. -/
  Handle : Str
  /-- The message body. -/
  Body : Str
  deriving DecidableEq, Repr

/-- Go interface `Pipeliner` (with the embedded `Clouder`): every method is a transformer
of the adapter state `σ` that also returns the method's `error` (`none` is `nil`). -/
structure Pipeliner (σ : Type) where
  /-- Go `ListObjects(bucket, prefix)`: the names and the error. -/
  ListObjects : Str → Str → σ → (List Str × Option Err) × σ
  /-- Go `Download(bucket, key, fn)`. -/
  Download : Str → Str → Str → σ → Option Err × σ
  /-- Go `Upload(bucket, key, path)`. -/
  Upload : Str → Str → Str → σ → Option Err × σ
  /-- Go `AddToQueue(url, msg)`. -/
  AddToQueue : Str → Str → σ → Option Err × σ
  /-- Go `DelFromQueue(url, handle)`. -/
  DelFromQueue : Str → Str → σ → Option Err × σ
  /-- Go `PreQueueId()`. -/
  PreQueueId : Str
  /-- Go `WipeQueueId()`. -/
  WipeQueueId : Str
  /-- Go `OCRPageQueueId()`. -/
  OCRPageQueueId : Str
  /-- Go `AnalyseQueueId()`. -/
  AnalyseQueueId : Str
  /-- Go `WIPStorageId()`. -/
  WIPStorageId : Str

/-- Go `mailSettings`. -/
structure mailSettings where
  /-- SMTP server. -/
  server : Str
  /-- SMTP port. -/
  port : Str
  /-- SMTP user. -/
  user : Str
  /-- SMTP password. -/
  pass : Str
  /-- Sender (`from`). -/
  sender : Str
  /-- Recipient (`to`). -/
  rcpt : Str
  deriving DecidableEq, Repr

/-- The operating-system and library calls made by the pipeline, over the same state. -/
structure Host (σ : Type) where
  /-- Go `os.TempDir()`. -/
  TempDir : Str
  /-- Go `os.MkdirAll(d, 0755)`. -/
  MkdirAll : Str → σ → Option Err × σ
  /-- Go `os.Remove(path)`. -/
  Remove : Str → σ → Option Err × σ
  /-- Go `os.RemoveAll(d)`. -/
  RemoveAll : Str → σ → Option Err × σ
  /-- Go `os.Create(fn)`. -/
  Create : Str → σ → Option Err × σ
  /-- Go `fmt.Fprintf(f, ...)` on the file created as `fn`, with the formatted text. -/
  Fprintf : Str → Str → σ → Option Err × σ
  /-- Running `tesseract -l training path name ...`: the error text (error, stdout and
  stderr as formatted by `Ocr`) when the command fails. -/
  tesseract : Str → Str → Str → σ → Option Err × σ
  /-- Go `preproc.WipeFile(path, outpath, ...)`. -/
  WipeFile : Str → Str → σ → Option Err × σ
  /-- Go `GetMailSettings()`. -/
  GetMailSettings : σ → Except Err mailSettings
  /-- Go `getLogs()`: the captured output and the error of `journalctl`. -/
  getLogs : σ → Str × Option Err
  /-- Go `smtp.SendMail(host, auth, sender, to, msg)` with the text of the mail. -/
  SendMail : mailSettings → Str → σ → Option Err × σ

/-- The uploader goroutine started by a driver. -/
inductive Uploader where
  /-- Go `go up(upc, done, conn, bookname, errc, logger)`. -/
  | up (bookname : Str)
  /-- Go `go upAndQueue(upc, done, toQueue, conn, bookname, training, errc, logger)`. -/
  | upAndQueue (toQueue bookname training : Str)
  deriving DecidableEq, Repr

/-- What a goroutine leaves for the `select` of the driver: an error on `errc`, or `done`. -/
inductive Sel where
  /-- Go `errc <- err`. -/
  | errc (e : Err)
  /-- Go `done <- true`. -/
  | done
  deriving DecidableEq, Repr

/-- A call made by the modelled code; `ok` records that the call returned `nil`.  The
receipt of a value by the `select` of a driver is logged as well. -/
inductive Call where
  /-- Go `conn.ListObjects`. -/
  | listObjects (bucket pfx : Str) (ok : Bool)
  /-- Go `conn.Download`. -/
  | download (bucket key fn : Str) (ok : Bool)
  /-- Go `conn.Upload`. -/
  | upload (bucket key path : Str) (ok : Bool)
  /-- Go `conn.AddToQueue`. -/
  | addToQueue (url msg : Str) (ok : Bool)
  /-- Go `conn.DelFromQueue`. -/
  | delFromQueue (url handle : Str) (ok : Bool)
  /-- Go `os.MkdirAll`. -/
  | mkdirAll (d : Str) (ok : Bool)
  /-- Go `os.Remove`. -/
  | remove (path : Str) (ok : Bool)
  /-- Go `os.RemoveAll`. -/
  | removeAll (d : Str) (ok : Bool)
  /-- Go `os.Create`. -/
  | create (fn : Str) (ok : Bool)
  /-- Go `fmt.Fprintf` to the file `fn`. -/
  | write (fn text : Str) (ok : Bool)
  /-- The OCR command. -/
  | tesseract (training path name : Str) (ok : Bool)
  /-- Go `preproc.WipeFile`. -/
  | wipeFile (path outpath : Str) (ok : Bool)
  /-- Go `smtp.SendMail`. -/
  | sendMail (rcpt : Str) (ok : Bool)
  /-- The `select` on `errc` and `done` received `s`. -/
  | selected (s : Sel)
  /-- The uploader goroutine was started (`go up(...)` or `go upAndQueue(...)`). -/
  | started (u : Uploader)
  deriving DecidableEq, Repr

/-- The state of the outside world together with the calls made so far, oldest first. -/
structure Run (σ : Type) where
  /-- State of the adapter and of the host. -/
  st : σ
  /-- The calls made so far. -/
  calls : List Call

/-- Performs a call that returns only an error and logs it. -/
def Run.step {σ : Type} (r : Run σ) (f : σ → Option Err × σ) (c : Bool → Call) :
    Option Err × Run σ :=
  let res := f r.st
  (res.1, ⟨res.2, r.calls ++ [c res.1.isNone]⟩)

/-- The `(url, msg)` of the `AddToQueue` calls of a log, in order. -/
def addCalls : List Call → List (Str × Str)
  | [] => []
  | .addToQueue url msg _ :: cs => (url, msg) :: addCalls cs
  | _ :: cs => addCalls cs

/-- The messages enqueued: `(url, msg)` of the `AddToQueue` calls that returned `nil`. -/
def enqueued : List Call → List (Str × Str)
  | [] => []
  | .addToQueue url msg true :: cs => (url, msg) :: enqueued cs
  | _ :: cs => enqueued cs

/-- The `(url, handle)` of the `DelFromQueue` calls of a log, in order. -/
def delCalls : List Call → List (Str × Str)
  | [] => []
  | .delFromQueue url handle _ :: cs => (url, handle) :: delCalls cs
  | _ :: cs => delCalls cs

/-- The `(key, path)` of the `Upload` calls of a log that returned `nil`, in order. -/
def uploaded : List Call → List (Str × Str)
  | [] => []
  | .upload _ key path true :: cs => (key, path) :: uploaded cs
  | _ :: cs => uploaded cs

/-- The queue protocol of a log: the receipt by `select` and the `AddToQueue` and
`DelFromQueue` calls, in order. -/
def protocol : List Call → List Call
  | [] => []
  | .selected s :: cs => .selected s :: protocol cs
  | .addToQueue url msg ok :: cs => .addToQueue url msg ok :: protocol cs
  | .delFromQueue url handle ok :: cs => .delFromQueue url handle ok :: protocol cs
  | _ :: cs => protocol cs

/-- Whether a logged call returned `nil` (the receipt by `select` and the start of a
goroutine are not calls and count as such). -/
def Call.ok : Call → Bool
  | .listObjects _ _ ok => ok
  | .download _ _ _ ok => ok
  | .upload _ _ _ ok => ok
  | .addToQueue _ _ ok => ok
  | .delFromQueue _ _ ok => ok
  | .mkdirAll _ ok => ok
  | .remove _ ok => ok
  | .removeAll _ ok => ok
  | .create _ ok => ok
  | .write _ _ ok => ok
  | .tesseract _ _ _ ok => ok
  | .wipeFile _ _ ok => ok
  | .sendMail _ ok => ok
  | .selected _ => true
  | .started _ => true

/-! ## `allOCRed` -/

/-- The body of the outer loop of `allOCRed` over the remaining names `todo`, with the
whole listing `objs` for the inner search and the flag `atleastone`; the value is what
`allOCRed` returns. -/
def allOCRedLoop (bookname : Str) (objs : List Str) : List Str → Bool → Bool
  | [], atleastone => atleastone
  | png :: todo, atleastone =>
    if MatchString preprocessedPattern png then
      let b := TrimSuffix (Base png) ['.', 'p', 'n', 'g']
      let hocrname := bookname ++ ['/'] ++ b ++ ['.', 'h', 'o', 'c', 'r']
      let found := objs.any (fun hocr => hocr == hocrname)
      if found == false then false
      else allOCRedLoop bookname objs todo true
    else allOCRedLoop bookname objs todo atleastone

/-- Go `allOCRed` once the listing has been obtained. -/
def allOCRedOf (bookname : Str) (listing : List Str × Option Err) : Bool :=
  match listing.2 with
  | some _ => false
  | none => allOCRedLoop bookname listing.1 listing.1 false

/-- Go `allOCRed(bookname, conn)`. -/
def allOCRed {σ : Type} (conn : Pipeliner σ) (bookname : Str) (r : Run σ) : Bool × Run σ :=
  let res := conn.ListObjects conn.WIPStorageId bookname r.st
  (allOCRedOf bookname res.1,
   ⟨res.2, r.calls ++ [.listObjects conn.WIPStorageId bookname res.1.2.isNone]⟩)

/-- The specification's sibling key of a variant key: the final `.png` replaced by
`.hocr`. -/
def siblingKey (p : Str) : Str :=
  TrimSuffix p ['.', 'p', 'n', 'g'] ++ ['.', 'h', 'o', 'c', 'r']

/-- The specification's fan-in predicate on a listing: the set of keys matching
`_bin[0-9]\.[0-9]\.png$` is non-empty and every such key has its sibling in the listing. -/
def specAllOCRed (objs : List Str) : Bool :=
  objs.any (fun p => MatchString specVariantPattern p) &&
  objs.all (fun p => !MatchString specVariantPattern p || objs.contains (siblingKey p))

/-- A key of the form `<book>/<file>` with a non-empty file name without `/`. -/
def IsBookKey (bookname key : Str) : Prop :=
  ∃ file : Str, file ≠ [] ∧ '/' ∉ file ∧ key = bookname ++ ['/'] ++ file

/-! ## The goroutines of a job -/

/-- A transform stage `func(chan string, chan string, chan error, *log.Logger)`: from the
paths received on its input channel to the paths sent on `up`, with the error sent on
`errc` when it stops early (and then does not close `up`). -/
abbrev Transform (σ : Type) := List Str → Run σ → (List Str × Option Err) × Run σ

/-- Go `download`: the keys received on `dl` are fetched into `dir` one by one; the local
paths sent on `process` and the error sent on `errc` are returned. -/
def download {σ : Type} (conn : Pipeliner σ) (dir : Str) :
    List Str → Run σ → (List Str × Option Err) × Run σ
  | [], r => (([], none), r)
  | key :: dl, r =>
    let fn := filepathJoin [dir, Base key]
    match r.step (conn.Download conn.WIPStorageId key fn) (.download conn.WIPStorageId key fn) with
    | (some err, r1) => (([], some err), r1)
    | (none, r1) =>
      let rest := download conn dir dl r1
      ((fn :: rest.1.1, rest.1.2), rest.2)

/-- Go `up`: every path received on `c` is uploaded as `bookname/<basename>` and removed
locally; the first error is sent on `errc`, and `done` is signalled when `c` is exhausted. -/
def up {σ : Type} (conn : Pipeliner σ) (host : Host σ) (bookname : Str) :
    List Str → Run σ → Sel × Run σ
  | [], r => (.done, r)
  | path :: c, r =>
    let name := Base path
    let key := bookname ++ ['/'] ++ name
    match r.step (conn.Upload conn.WIPStorageId key path) (.upload conn.WIPStorageId key path) with
    | (some err, r1) => (.errc err, r1)
    | (none, r1) =>
      match r1.step (host.Remove path) (.remove path) with
      | (some err, r2) => (.errc err, r2)
      | (none, r2) => up conn host bookname c r2

/-- Go `upAndQueue`: as `up`, and after each upload and removal the message
`key + " " + training` is added to `toQueue`. -/
def upAndQueue {σ : Type} (conn : Pipeliner σ) (host : Host σ) (toQueue bookname training : Str) :
    List Str → Run σ → Sel × Run σ
  | [], r => (.done, r)
  | path :: c, r =>
    let name := Base path
    let key := bookname ++ ['/'] ++ name
    match r.step (conn.Upload conn.WIPStorageId key path) (.upload conn.WIPStorageId key path) with
    | (some err, r1) => (.errc err, r1)
    | (none, r1) =>
      match r1.step (host.Remove path) (.remove path) with
      | (some err, r2) => (.errc err, r2)
      | (none, r2) =>
        match r2.step (conn.AddToQueue toQueue (key ++ [' '] ++ training))
            (.addToQueue toQueue (key ++ [' '] ++ training)) with
        | (some err, r3) => (.errc err, r3)
        | (none, r3) => upAndQueue conn host toQueue bookname training c r3

/-- The calls of an iteration of `upAndQueue` for `path` in which nothing fails. -/
def stepCalls {σ : Type} (conn : Pipeliner σ) (toQueue bookname training path : Str) :
    List Call :=
  [.upload conn.WIPStorageId (bookname ++ ['/'] ++ Base path) path true,
   .remove path true,
   .addToQueue toQueue (bookname ++ ['/'] ++ Base path ++ [' '] ++ training) true]

/-- The calls of an iteration of `upAndQueue` for `path` that ends with a failed call: the
upload, the removal of the local file, or the enqueueing. -/
def failedStepCalls {σ : Type} (conn : Pipeliner σ) (toQueue bookname training path : Str) :
    List (List Call) :=
  [[.upload conn.WIPStorageId (bookname ++ ['/'] ++ Base path) path false],
   [.upload conn.WIPStorageId (bookname ++ ['/'] ++ Base path) path true,
    .remove path false],
   [.upload conn.WIPStorageId (bookname ++ ['/'] ++ Base path) path true,
    .remove path true,
    .addToQueue toQueue (bookname ++ ['/'] ++ Base path ++ [' '] ++ training) false]]

/-- Go `Ocr(training)`: for each path, the OCR command is run with output base
`strings.Replace(path, ".png", "", 1)` and that base with `.hocr` appended is sent on `up`. -/
def Ocr {σ : Type} (host : Host σ) (training : Str) : Transform σ
  | [], r => (([], none), r)
  | path :: toocr, r =>
    let name := Replace1 path ['.', 'p', 'n', 'g'] []
    match r.step (host.tesseract training path name) (.tesseract training path name) with
    | (some err, r1) =>
      (([], some ("Error ocring ".toList ++ path ++ " with training ".toList ++ training
        ++ ": ".toList ++ err)), r1)
    | (none, r1) =>
      let rest := Ocr host training toocr r1
      (((name ++ ['.', 'h', 'o', 'c', 'r']) :: rest.1.1, rest.1.2), rest.2)

/-- Runs the uploader goroutine on the contents of `upc`. -/
def Uploader.run {σ : Type} (conn : Pipeliner σ) (host : Host σ) :
    Uploader → List Str → Run σ → Sel × Run σ
  | .up bookname => Bookpipeline.up conn host bookname
  | .upAndQueue toQueue bookname training =>
    Bookpipeline.upAndQueue conn host toQueue bookname training

/-- What a driver observes of the running job: what its `select` receives from `errc` or
`done`, what the later non-blocking receive on `msgc` yields (a rotated message sent by the
heartbeat, if any), and the state of the outside world. -/
structure EngineOut (σ : Type) where
  /-- The value received by `select`. -/
  sel : Sel
  /-- The message received from `msgc`, if one is ready. -/
  msgc : Option Qmsg
  /-- The state left by the goroutines. -/
  st : σ

/-- The concurrent part of a job: the goroutines `heartbeat`, `download`, `process` and the
uploader, fed with `keys` on `dl`, run from a state until the driver's `select` receives.
The interleaving of the goroutines is not fixed by the program; a driver is modelled for an
arbitrary engine. -/
abbrev Engine (σ : Type) :=
  Uploader → Transform σ → List Str → Str → Qmsg → Str → σ → EngineOut σ

/-- The engine in which the stages run one after the other and no heartbeat tick occurs:
the run of a job on a single key whose stages all succeed.  The `select` receives the first
error in stage order, and `done` when there is none. -/
def seqEngine {σ : Type} (conn : Pipeliner σ) (host : Host σ) : Engine σ :=
  fun uploader process keys dir _msg _fromQueue st =>
    let d := download conn dir keys ⟨st, []⟩
    let p := process d.1.1 d.2
    let u := uploader.run conn host p.1.1 p.2
    let sel : Sel :=
      match d.1.2, p.1.2 with
      | some e, _ => .errc e
      | none, some e => .errc e
      | none, none => u.1
    ⟨sel, none, u.2.st⟩

/-! ## The drivers -/

/-- The end of both drivers (after `t.Stop()`): the handle of a rotated message is adopted
when one is ready on `msgc`, the message is deleted from `fromQueue`, and the scratch
directory is removed. -/
def deleteAndCleanup {σ : Type} (conn : Pipeliner σ) (host : Host σ) (msg : Qmsg)
    (msgc : Option Qmsg) (fromQueue d : Str) (r : Run σ) : Option Err × Run σ :=
  let msg := match msgc with
    | some m => m
    | none => msg
  match r.step (conn.DelFromQueue fromQueue msg.Handle) (.delFromQueue fromQueue msg.Handle) with
  | (some err, r1) =>
    (some ("Error deleting message from queue: ".toList ++ err),
      (r1.step (host.RemoveAll d) (.removeAll d)).2)
  | (none, r1) =>
    match r1.step (host.RemoveAll d) (.removeAll d) with
    | (some err, r2) =>
      (some ("Failed to remove directory ".toList ++ d ++ ": ".toList ++ err), r2)
    | (none, r2) => (none, r2)

/-- Go `OcrPage`. -/
def OcrPage {σ : Type} (conn : Pipeliner σ) (host : Host σ) (engine : Engine σ) (msg : Qmsg)
    (process : Transform σ) (fromQueue toQueue : Str) (r : Run σ) : Option Err × Run σ :=
  let msgparts := Split msg.Body ' '
  let bookname := Dir (msgparts.headD [])
  let process := if 1 < msgparts.length ∧ msgparts.getD 1 [] ≠ [] then
      Ocr host (msgparts.getD 1 []) else process
  let d := filepathJoin [host.TempDir, bookname]
  match r.step (host.MkdirAll d) (.mkdirAll d) with
  | (some err, r1) =>
    (some ("Failed to create directory ".toList ++ d ++ ": ".toList ++ err), r1)
  | (none, r1) =>
    let out := engine (.up bookname) process [msgparts.headD []] d msg fromQueue r1.st
    let r2 : Run σ := ⟨out.st, r1.calls ++ [.started (.up bookname), .selected out.sel]⟩
    match out.sel with
    | .errc err => (some err, (r2.step (host.RemoveAll d) (.removeAll d)).2)
    | .done =>
      let ocred := allOCRed conn bookname r2
      if ocred.1 = true ∧ toQueue ≠ [] then
        match ocred.2.step (conn.AddToQueue toQueue bookname) (.addToQueue toQueue bookname) with
        | (some err, r4) =>
          (some ("Error adding to queue ".toList ++ bookname ++ ": ".toList ++ err),
            (r4.step (host.RemoveAll d) (.removeAll d)).2)
        | (none, r4) => deleteAndCleanup conn host msg out.msgc fromQueue d r4
      else deleteAndCleanup conn host msg out.msgc fromQueue d ocred.2

/-- The book name `OcrPage` takes from a message: the directory of the first field of the
body. -/
def ocrPageBook (msg : Qmsg) : Str :=
  Dir ((Split msg.Body ' ').headD [])

/-- The book name `ProcessBook` takes from a message: the first field of the body. -/
def processBookName (msg : Qmsg) : Str :=
  (Split msg.Body ' ').headD []

/-- The training `ProcessBook` takes from a message: the second field of the body, if any. -/
def processBookTraining (msg : Qmsg) : Str :=
  if 1 < (Split msg.Body ' ').length then (Split msg.Body ' ').getD 1 [] else []

/-- The result of the job that `OcrPage` starts once the scratch directory exists. -/
def ocrPageJob {σ : Type} (host : Host σ) (engine : Engine σ) (msg : Qmsg)
    (process : Transform σ) (fromQueue : Str) (st : σ) : EngineOut σ :=
  let msgparts := Split msg.Body ' '
  let bookname := Dir (msgparts.headD [])
  let process := if 1 < msgparts.length ∧ msgparts.getD 1 [] ≠ [] then
      Ocr host (msgparts.getD 1 []) else process
  let d := filepathJoin [host.TempDir, bookname]
  engine (.up bookname) process [msgparts.headD []] d msg fromQueue (host.MkdirAll d st).2

/-- The uploader chosen by `ProcessBook`. -/
def uploaderFor {σ : Type} (conn : Pipeliner σ) (toQueue bookname training : Str) : Uploader :=
  if toQueue = conn.OCRPageQueueId then .upAndQueue toQueue bookname training
  else .up bookname

/-- The text of the mail sent by `ProcessBook` for a failed preprocess or wipe job. -/
def failMail (ms : mailSettings) (bookname : Str) (err : Err) (logs : Str) : Str :=
  "To: ".toList ++ ms.rcpt ++ "\r\nFrom: ".toList ++ ms.sender
    ++ "\r\nSubject: [bookpipeline] Error in wipeonly / preprocessing queue with ".toList
    ++ bookname ++ "\r\n\r\n Fail message: ".toList ++ err ++ "\r\nFull log:\r\n".toList
    ++ logs ++ "\r\n".toList

/-- The error branch of the `select` of `ProcessBook`, after the scratch directory has
been removed: for the preprocess and wipe queues the message is deleted (the result of the
deletion is only logged) and a mail is sent when mail settings with a server exist. -/
def poisonCleanup {σ : Type} (conn : Pipeliner σ) (host : Host σ) (msg : Qmsg)
    (bookname fromQueue : Str) (err : Err) (r : Run σ) : Run σ :=
  if fromQueue = conn.PreQueueId ∨ fromQueue = conn.WipeQueueId then
    let r1 := (r.step (conn.DelFromQueue fromQueue msg.Handle)
      (.delFromQueue fromQueue msg.Handle)).2
    match host.GetMailSettings r1.st with
    | .error _ => r1
    | .ok ms =>
      if ms.server ≠ [] then
        let got := host.getLogs r1.st
        let logs := match got.2 with
          | some _ => []
          | none => got.1
        (r1.step (host.SendMail ms (failMail ms bookname err logs)) (.sendMail ms.rcpt)).2
      else r1
  else r

/-- Go `ProcessBook`; `matchRe` is `match.MatchString`. -/
def ProcessBook {σ : Type} (conn : Pipeliner σ) (host : Host σ) (engine : Engine σ) (msg : Qmsg)
    (process : Transform σ) (matchRe : Str → Bool) (fromQueue toQueue : Str) (r : Run σ) :
    Option Err × Run σ :=
  let msgparts := Split msg.Body ' '
  let bookname := msgparts.headD []
  let training := if 1 < msgparts.length then msgparts.getD 1 [] else []
  let d := filepathJoin [host.TempDir, bookname]
  match r.step (host.MkdirAll d) (.mkdirAll d) with
  | (some err, r1) =>
    (some ("Failed to create directory ".toList ++ d ++ ": ".toList ++ err), r1)
  | (none, r1) =>
    let listed := conn.ListObjects conn.WIPStorageId bookname r1.st
    let r2 : Run σ :=
      ⟨listed.2, r1.calls ++ [.started (uploaderFor conn toQueue bookname training),
        .listObjects conn.WIPStorageId bookname listed.1.2.isNone]⟩
    match listed.1.2 with
    | some err =>
      (some ("Failed to get list of files for book ".toList ++ bookname ++ ": ".toList ++ err),
        (r2.step (host.RemoveAll d) (.removeAll d)).2)
    | none =>
      let todl := listed.1.1.filter matchRe
      let out := engine (uploaderFor conn toQueue bookname training) process todl d msg
        fromQueue r2.st
      let r3 : Run σ := ⟨out.st, r2.calls ++ [.selected out.sel]⟩
      match out.sel with
      | .errc err =>
        let r4 := (r3.step (host.RemoveAll d) (.removeAll d)).2
        (some err, poisonCleanup conn host msg bookname fromQueue err r4)
      | .done =>
        if toQueue ≠ [] ∧ toQueue ≠ conn.OCRPageQueueId then
          match r3.step (conn.AddToQueue toQueue bookname) (.addToQueue toQueue bookname) with
          | (some err, r4) =>
            (some ("Error adding to queue ".toList ++ bookname ++ ": ".toList ++ err),
              (r4.step (host.RemoveAll d) (.removeAll d)).2)
          | (none, r4) => deleteAndCleanup conn host msg out.msgc fromQueue d r4
        else deleteAndCleanup conn host msg out.msgc fromQueue d r3

/-! ## An in-memory adapter and host -/

/-- The state of the in-memory adapter and host. -/
structure Mem where
  /-- The keys of the objects in the work-in-progress bucket. -/
  objects : List Str
  /-- The messages added to the queues, `(url, body)`, oldest first. -/
  queue : List (Str × Str)
  /-- The messages deleted, `(url, handle)`. -/
  deleted : List (Str × Str)
  /-- The paths of the local files. -/
  files : List Str
  deriving DecidableEq, Repr

/-- Modelled from the spec: the cloud adapter, whose implementations are not among the
sources (section 6: `ListObjects(bucket, prefix)` lists the keys by prefix, `Download` and
`Upload` copy an object from and to a local path, `AddToQueue` and `DelFromQueue` add and
delete a message).  A download fails for a key that is not in the bucket and an upload for
a path that is not a local file; the queue operations always succeed. -/
def memConn : Pipeliner Mem where
  ListObjects := fun _ pfx m => ((m.objects.filter (fun k => HasPrefix k pfx), none), m)
  Download := fun _ key fn m =>
    if key ∈ m.objects then (none, ⟨m.objects, m.queue, m.deleted, m.files ++ [fn]⟩)
    else (some "no such key".toList, m)
  Upload := fun _ key path m =>
    if path ∈ m.files then
      (none, ⟨if key ∈ m.objects then m.objects else m.objects ++ [key], m.queue, m.deleted,
        m.files⟩)
    else (some "no such file".toList, m)
  AddToQueue := fun url msg m => (none, ⟨m.objects, m.queue ++ [(url, msg)], m.deleted, m.files⟩)
  DelFromQueue := fun url handle m =>
    (none, ⟨m.objects, m.queue, m.deleted ++ [(url, handle)], m.files⟩)
  PreQueueId := "preprocess".toList
  WipeQueueId := "wipeonly".toList
  OCRPageQueueId := "ocrpage".toList
  AnalyseQueueId := "analyse".toList
  WIPStorageId := "inprogress".toList

/-- A host on the same state whose calls succeed: the OCR command writes `name.hocr` for an
existing input file, removing a file deletes it, there are no mail settings. -/
def memHost : Host Mem where
  TempDir := "/tmp".toList
  MkdirAll := fun _ m => (none, m)
  Remove := fun path m =>
    if path ∈ m.files then (none, ⟨m.objects, m.queue, m.deleted, m.files.filter (fun f => f ≠ path)⟩)
    else (some "no such file".toList, m)
  RemoveAll := fun d m =>
    (none, ⟨m.objects, m.queue, m.deleted, m.files.filter (fun f => !HasPrefix f (d ++ ['/']))⟩)
  Create := fun fn m => (none, ⟨m.objects, m.queue, m.deleted, m.files ++ [fn]⟩)
  Fprintf := fun _ _ m => (none, m)
  tesseract := fun _ path name m =>
    if path ∈ m.files then
      (none, ⟨m.objects, m.queue, m.deleted, m.files ++ [name ++ ['.', 'h', 'o', 'c', 'r']]⟩)
    else (some "cannot read input file".toList, m)
  WipeFile := fun path outpath m =>
    if path ∈ m.files then (none, ⟨m.objects, m.queue, m.deleted, m.files ++ [outpath]⟩)
    else (some "cannot read input file".toList, m)
  GetMailSettings := fun _ => .error "Error reading mailsettings".toList
  getLogs := fun _ => ([], none)
  SendMail := fun _ _ m => (none, m)

/-! ## The analyse aggregator: confidences, best variant per page, manifests -/

/-- Go `bookpipeline.Conf`; a finite `float64` confidence is the rational it denotes. -/
structure Conf where
  /-- Path of the hOCR file. -/
  Path : Str
  /-- The code of the variant, as `_bin0.2.hocr`. -/
  Code : Str
  /-- The average word confidence. -/
  Conf : ℚ
  deriving DecidableEq, Repr

/-- The result of `hocr.GetAvgConf(path)`. -/
inductive AvgConf where
  /-- The average confidence of the words of the file. -/
  | ok (avg : ℚ)
  /-- The error `No words found`. -/
  | noWords
  /-- Any other error. -/
  | failed (err : Err)
  deriving DecidableEq, Repr

/-- How a goroutine stops before the end of its work. -/
inductive Stop where
  /-- An error sent on `errc`. -/
  | errc (e : Err)
  /-- A run-time panic. -/
  | panic
  deriving DecidableEq, Repr

/-- Go `confs[name] = append(confs[name], &c)` on the map `confs`, kept as an association
list with one entry per key. -/
def mapAppend : List (Str × List Conf) → Str → Conf → List (Str × List Conf)
  | [], name, c => [(name, [c])]
  | (k, v) :: rest, name, c =>
    if k = name then (k, v ++ [c]) :: rest else (k, v) :: mapAppend rest name c

/-- Go `bestconfs[base] = c` on the map `bestconfs`, kept as an association list with one
entry per key. -/
def mapSet : List (Str × Conf) → Str → Conf → List (Str × Conf)
  | [], base, c => [(base, c)]
  | (k, v) :: rest, base, c =>
    if k = base then (k, c) :: rest else (k, v) :: mapSet rest base c

/-- The first loop of `Analyse` (lines 220-243): the confidence of each path received is
recorded under the page base, the text of the basename before `_bin`. -/
def readConfs (GetAvgConf : Str → AvgConf) :
    List Str → List (Str × List Conf) → Except Stop (List (Str × List Conf))
  | [], confs => .ok confs
  | path :: toanalyse, confs =>
    match GetAvgConf path with
    | .noWords => readConfs GetAvgConf toanalyse confs
    | .failed err =>
      .error (.errc ("Error retreiving confidence for ".toList ++ path ++ ": ".toList ++ err))
    | .ok avg =>
      let base := Base path
      let codestart := Index base ['_', 'b', 'i', 'n']
      match slice base 0 codestart, slice base codestart base.length with
      | some name, some code => readConfs GetAvgConf toanalyse (mapAppend confs name ⟨path, code, avg⟩)
      | _, _ => .error .panic

/-- The value of `savedir` after the first loop: the directory of the first path. -/
def savedirOf : List Str → Str
  | [] => []
  | path :: _ => Dir path

/-- A rational rounded to the nearest integer, halves to the even one. -/
def roundHalfEven (q : ℚ) : Int :=
  let f := ⌊q⌋
  let d := q - f
  if d < 1 / 2 then f
  else if 1 / 2 < d then f + 1
  else if f % 2 = 0 then f else f + 1

/-- The verb `%02.f`: no decimals, padded with a zero to two characters. -/
def fmtConf (q : ℚ) : Str :=
  let s := (toString (roundHalfEven q)).toList
  if s.length < 2 then '0' :: s else s

/-- The inner loop of lines 257-267 for one page base: `best` and `bestconfs[base]` follow
every variant whose confidence is greater than `best`, and a line is written to the `conf`
file for every variant. -/
def saveConfsPage {σ : Type} (host : Host σ) (fn base : Str) :
    List Conf → ℚ → List (Str × Conf) → Run σ → Except Err (List (Str × Conf)) × Run σ
  | [], _, bestconfs, r => (.ok bestconfs, r)
  | c :: conf, best, bestconfs, r =>
    let upd : ℚ × List (Str × Conf) :=
      if c.Conf > best then (c.Conf, mapSet bestconfs base c) else (best, bestconfs)
    let line := c.Path ++ ['\t'] ++ fmtConf c.Conf ++ ['\n']
    match r.step (host.Fprintf fn line) (.write fn line) with
    | (some err, r1) => (.error ("Error writing confidences file: ".toList ++ err), r1)
    | (none, r1) => saveConfsPage host fn base conf upd.1 upd.2 r1

/-- The loop of lines 255-268 over the entries of `confs`, in the order in which the map is
ranged over; `var best float64` starts every page at zero. -/
def saveConfs {σ : Type} (host : Host σ) (fn : Str) :
    List (Str × List Conf) → List (Str × Conf) → Run σ →
      Except Err (List (Str × Conf)) × Run σ
  | [], bestconfs, r => (.ok bestconfs, r)
  | (base, conf) :: rest, bestconfs, r =>
    match saveConfsPage host fn base conf 0 bestconfs r with
    | (.error err, r1) => (.error err, r1)
    | (.ok bestconfs1, r1) => saveConfs host fn rest bestconfs1 r1

/-- The loop of lines 279-281: one line per entry of `bestconfs`, the basename of its path;
the result of the write is not checked. -/
def saveBest {σ : Type} (host : Host σ) (fn : Str) : List (Str × Conf) → Run σ → Run σ
  | [], r => r
  | (_, conf) :: rest, r =>
    let line := Base conf.Path ++ ['\n']
    saveBest host fn rest (r.step (host.Fprintf fn line) (.write fn line)).2

/-- The result of the first part of `Analyse`. -/
structure Manifests (σ : Type) where
  /-- The paths sent on `up`. -/
  emitted : List Str
  /-- How the goroutine stopped, if it did. -/
  stop : Option Stop
  /-- The map `bestconfs`. -/
  bestconfs : List (Str × Conf)
  /-- The state and the calls. -/
  run : Run σ

/-- Lines 216-282 of `Analyse`: the confidences are read, the `conf` file is written and
sent on `up`, the best variant of every page is selected, and the `best` file is written
and sent on `up`.  The order in which `range` visits the entries of a map is not fixed by
the language: `rangeConfs` and `rangeBest` give the order of the two loops over maps. -/
def analyseManifests {σ : Type} (host : Host σ) (GetAvgConf : Str → AvgConf)
    (rangeConfs : List (Str × List Conf) → List (Str × List Conf))
    (rangeBest : List (Str × Conf) → List (Str × Conf))
    (toanalyse : List Str) (r : Run σ) : Manifests σ :=
  match readConfs GetAvgConf toanalyse [] with
  | .error stop => ⟨[], some stop, [], r⟩
  | .ok confs =>
    let savedir := savedirOf toanalyse
    let fn := filepathJoin [savedir, "conf".toList]
    match r.step (host.Create fn) (.create fn) with
    | (some err, r1) =>
      ⟨[], some (.errc ("Error creating file ".toList ++ fn ++ ": ".toList ++ err)), [], r1⟩
    | (none, r1) =>
      match saveConfs host fn (rangeConfs confs) [] r1 with
      | (.error err, r2) => ⟨[], some (.errc err), [], r2⟩
      | (.ok bestconfs, r2) =>
        let fnbest := filepathJoin [savedir, "best".toList]
        match r2.step (host.Create fnbest) (.create fnbest) with
        | (some err, r3) =>
          ⟨[fn], some (.errc ("Error creating file ".toList ++ fnbest ++ ": ".toList ++ err)),
            bestconfs, r3⟩
        | (none, r3) =>
          ⟨[fn, fnbest], none, bestconfs, saveBest host fnbest (rangeBest bestconfs) r3⟩

/-- The lines written to the file `fn` according to a log, in order. -/
def linesWritten (fn : Str) : List Call → List Str
  | [] => []
  | .write f text _ :: cs => if f = fn then text :: linesWritten fn cs else linesWritten fn cs
  | _ :: cs => linesWritten fn cs

/-! ## The parts of an ocr-page message -/

/-- The key `OcrPage` feeds to the downloader: the first field of the message body
(`msgparts[0]`). -/
def ocrPageKey (msg : Qmsg) : Str :=
  (Split msg.Body ' ').headD []

/-- The training for which `OcrPage` replaces the transform by `Ocr`: the second field of
the message body when there is one and it is not empty. -/
def ocrPageTraining (msg : Qmsg) : Option Str :=
  if 1 < (Split msg.Body ' ').length ∧ (Split msg.Body ' ').getD 1 [] ≠ [] then
    some ((Split msg.Body ' ').getD 1 [])
  else none

/-! ## The wipe transform -/

/-- Go `Wipe`: for each path, `strings.Split(path, ".")` without its last element is joined
with the empty string, `_bin0.0.png` is appended, the wipe routine writes that file and its
path is sent on `up`. -/
def Wipe {σ : Type} (host : Host σ) : Transform σ
  | [], r => (([], none), r)
  | path :: towipe, r =>
    let s := Split path '.'
    let base := Join (s.take (s.length - 1)) []
    let outpath := base ++ "_bin0.0.png".toList
    match r.step (host.WipeFile path outpath) (.wipeFile path outpath) with
    | (some err, r1) => (([], some err), r1)
    | (none, r1) =>
      let rest := Wipe host towipe r1
      ((outpath :: rest.1.1, rest.1.2), rest.2)

/-! ## The confidence graph -/

/-- Go `const maxticks`. -/
def maxticks : Nat := 20

/-- Go `const goodCutoff`. -/
def goodCutoff : ℚ := 70

/-- Go `const mediumCutoff`. -/
def mediumCutoff : ℚ := 65

/-- Go `const badCutoff`. -/
def badCutoff : ℚ := 60

/-- Go `GraphConf`; finite `float64` values are the rationals they denote. -/
structure GraphConf where
  /-- The page number parsed from the file name. -/
  Pgnum : ℚ
  /-- The confidence of the page. -/
  Conf : ℚ
  deriving DecidableEq, Repr

/-- The chart handed to the renderer (`chart.Chart`), reduced to its data. -/
structure Chart where
  /-- The title. -/
  Title : Str
  /-- The x-axis ticks: value and label. -/
  Ticks : List (ℚ × Str)
  /-- The x values of all series. -/
  XValues : List ℚ
  /-- The y values of the main series. -/
  YValues : List ℚ
  /-- The y values of the line at the low percentile. -/
  MinValues : List ℚ
  /-- The y values of the line at the high percentile. -/
  MaxValues : List ℚ
  /-- The y values of the three cut-off lines: good, medium, bad. -/
  Cutoffs : List (List ℚ)
  /-- The annotations: label, x and y. -/
  Annotations : List (Str × ℚ × ℚ)
  deriving DecidableEq, Repr

/-- What the graph routine needs from its libraries: `strconv.ParseFloat(s, 64)` (`none` is
an error), the two calls of `sort.Slice` (which is not stable: any sorted rearrangement),
and `graph.Render(chart.PNG, w)`. -/
structure GraphLib where
  /-- Go `strconv.ParseFloat(s, 64)`. -/
  ParseFloat : Str → Option ℚ
  /-- Go `sort.Slice` by `Pgnum`. -/
  sortByPgnum : List GraphConf → List GraphConf
  /-- Go `sort.Slice` by `Conf`. -/
  sortByConf : List GraphConf → List GraphConf
  /-- Go `graph.Render(chart.PNG, w)`. -/
  Render : Chart → Option Err

/-- How a call of the graph routine ends. -/
inductive GraphResult where
  /-- A run-time panic (slice bounds or index out of range). -/
  | panic
  /-- The routine returned this `error` (`none` is `nil`). -/
  | returned (err : Option Err)
  deriving DecidableEq, Repr

/-- The end of the name used as page number in `Graph`: the position of the first `_`, or of
the first `.` when there is no `_` (and `-1` when there is neither). -/
def graphNumend (name : Str) : Int :=
  if Index name ['_'] = -1 then Index name ['.'] else Index name ['_']

/-- One iteration of the first loop of `Graph` (lines 48-63): `none` is the panic of the
slice `name[0:numend]`, `some none` an entry skipped because its prefix is no number, and
`some (some c)` the point contributed. -/
def graphPoint (ParseFloat : Str → Option ℚ) (conf : Conf) : Option (Option GraphConf) :=
  let name := Base conf.Path
  match slice name 0 (graphNumend name) with
  | none => none
  | some text =>
    match ParseFloat text with
    | none => some none
    | some pgnum => some (some ⟨pgnum, conf.Conf⟩)

/-- The first loop of `Graph` over the entries of the map, in the order in which they are
ranged over: the points collected, or `none` when an iteration panics. -/
def graphPoints (ParseFloat : Str → Option ℚ) : List Conf → Option (List GraphConf)
  | [] => some []
  | conf :: confs =>
    match graphPoint ParseFloat conf with
    | none => none
    | some p =>
      match graphPoints ParseFloat confs with
      | none => none
      | some rest => some (p.toList ++ rest)

/-- The verb `%.0f`. -/
def fmtPgnum (q : ℚ) : Str :=
  (toString (roundHalfEven q)).toList

/-- The ticks built by the second loop of `Graph` (lines 70-82): the point at the 1-based
position `i` gets a tick when `tickevery % i == 0`; `i` is the counter before the loop body
runs. -/
def graphTicks (tickevery : Nat) : List GraphConf → Nat → List (ℚ × Str)
  | [], _ => []
  | c :: cs, i =>
    if tickevery % (i + 1) = 0 then (c.Pgnum, fmtPgnum c.Pgnum) :: graphTicks tickevery cs (i + 1)
    else graphTicks tickevery cs (i + 1)

/-- The annotations built by the second loop of `Graph`: one for each point whose confidence
is below `goodCutoff`. -/
def graphAnnotations (graphconf : List GraphConf) : List (Str × ℚ × ℚ) :=
  (graphconf.filter (fun c => c.Conf < goodCutoff)).map
    (fun c => (fmtPgnum c.Pgnum, c.Pgnum, c.Conf))

/-- Go `createLine`, reduced to its y values. -/
def createLine (xvalues : List ℚ) (y : ℚ) : List ℚ :=
  xvalues.map (fun _ => y)

/-- The chart built by `Graph` from the entries of the map; `none` is a panic. -/
def graphChart (lib : GraphLib) (confs : List (Str × Conf)) (bookname : Str) : Option Chart :=
  match graphPoints lib.ParseFloat (confs.map Prod.snd) with
  | none => none
  | some points =>
    let graphconf := lib.sortByPgnum points
    let tickevery := graphconf.length / maxticks
    let xvalues := graphconf.map (fun c => c.Pgnum)
    let yvalues := graphconf.map (fun c => c.Conf)
    let byconf := lib.sortByConf graphconf
    match byconf.get? (byconf.length / 10), byconf.get? ((byconf.length / 10) * 9) with
    | some low, some high =>
      some ⟨bookname, graphTicks tickevery graphconf 0, xvalues, yvalues,
        byconf.map (fun _ => low.Conf), byconf.map (fun _ => high.Conf),
        [createLine xvalues goodCutoff, createLine xvalues mediumCutoff,
          createLine xvalues badCutoff],
        graphAnnotations graphconf⟩
    | _, _ => none

/-- Go `Graph(confs, bookname, w)`. -/
def Graph (lib : GraphLib) (confs : List (Str × Conf)) (bookname : Str) : GraphResult :=
  match graphChart lib confs bookname with
  | none => .panic
  | some chart => .returned (lib.Render chart)

/-- The value of `strconv.ParseFloat` on a non-empty string of decimal digits; every other
string is refused (Go also accepts signs, fractions, exponents, hexadecimal floats and the
names of infinity and NaN, which do not occur in the evaluations below). -/
def parseDigits (s : Str) : Option ℚ :=
  if s ≠ [] ∧ s.all Char.isDigit = true then
    some ((s.foldl (fun n c => 10 * n + (c.toNat - '0'.toNat)) 0 : Nat) : ℚ)
  else none

/-- Insertion of a point into a list sorted by `le`. -/
def insertPoint (le : GraphConf → GraphConf → Bool) (c : GraphConf) :
    List GraphConf → List GraphConf
  | [] => [c]
  | d :: ds => if le c d then c :: d :: ds else d :: insertPoint le c ds

/-- A sort by insertion, one of the results `sort.Slice` may give. -/
def sortPoints (le : GraphConf → GraphConf → Bool) : List GraphConf → List GraphConf
  | [] => []
  | c :: cs => insertPoint le c (sortPoints le cs)

/-- The graph library with decimal page numbers, sorting by insertion and a renderer that
succeeds. -/
def plainGraphLib : GraphLib :=
  ⟨parseDigits, sortPoints (fun a b => decide (a.Pgnum ≤ b.Pgnum)),
    sortPoints (fun a b => decide (a.Conf ≤ b.Conf)), fun _ => none⟩

/-! ## The end of `Analyse`: the graph -/

/-- The result of the last part of `Analyse`. -/
structure GraphStep (σ : Type) where
  /-- The paths sent on `up`. -/
  emitted : List Str
  /-- How the goroutine stopped, if it did before `close(up)`. -/
  stop : Option Stop
  /-- The state and the calls. -/
  run : Run σ

/-- Lines 399-415 of `Analyse`: `graph.png` is created in `savedir`, the graph routine is
called (`g` is how that call ends), an error other than `Not enough valid confidences` is
sent on `errc`, and otherwise the file is sent on `up` before `up` is closed. -/
def analyseGraph {σ : Type} (host : Host σ) (savedir : Str) (g : GraphResult) (r : Run σ) :
    GraphStep σ :=
  let fn := filepathJoin [savedir, "graph.png".toList]
  match r.step (host.Create fn) (.create fn) with
  | (some err, r1) =>
    ⟨[], some (.errc ("Error creating file ".toList ++ fn ++ ": ".toList ++ err)), r1⟩
  | (none, r1) =>
    match g with
    | .panic => ⟨[], some .panic, r1⟩
    | .returned err =>
      match err with
      | none => ⟨[fn], none, r1⟩
      | some e =>
        if e ≠ "Not enough valid confidences".toList then
          ⟨[], some (.errc ("Error rendering graph: ".toList ++ e)), r1⟩
        else ⟨[fn], none, r1⟩

/-! ## What the first loop of `Analyse` records -/

/-- The page base and the variant that the first loop of `Analyse` records for a path whose
confidence was obtained (lines 235-242); `none` for a path that is skipped or on which the
loop stops. -/
def recordOf (GetAvgConf : Str → AvgConf) (path : Str) : Option (Str × Conf) :=
  match GetAvgConf path with
  | .ok avg =>
    let base := Base path
    let codestart := Index base ['_', 'b', 'i', 'n']
    match slice base 0 codestart, slice base codestart base.length with
    | some name, some code => some (name, ⟨path, code, avg⟩)
    | _, _ => none
  | _ => none

/-- The variants recorded under the page base `b` for the paths received, in the order of
their arrival. -/
def arrivalsOf (GetAvgConf : Str → AvgConf) (b : Str) (toanalyse : List Str) : List Conf :=
  toanalyse.filterMap (fun path =>
    match recordOf GetAvgConf path with
    | some e => if e.1 = b then some e.2 else none
    | none => none)

/-! ## The filter of the analyse stage -/

/-- The pattern compiled in `processbook` for the analyse stage: `.hocr$`, with the dot
unescaped. -/
def ocredPattern : List Atom :=
  [.anyChar, .lit 'h', .lit 'o', .lit 'c', .lit 'r']

/-! ## The upload of the images of a book -/

/-- Go `filepath.Ext`: the text from the last dot of the last element of the path on, and
the empty string when that element has no dot. -/
def Ext (path : Str) : Str :=
  if '.' ∈ lastElement path then
    '.' :: ((lastElement path).reverse.takeWhile (fun c => c != '.')).reverse
  else []

/-- The verb `%04d` for a number that is not negative: its decimal digits, padded with
zeros to four characters. -/
def fmt04d (n : Nat) : Str :=
  List.replicate (4 - (Nat.toDigits 10 n).length) '0' ++ Nat.toDigits 10 n

/-- An entry of a directory (`os.FileInfo`): its name and whether it is a directory. -/
structure FileInfo where
  /-- Go `Name()`. -/
  Name : Str
  /-- Go `IsDir()`. -/
  IsDir : Bool
  deriving DecidableEq, Repr

/-- The loop of `UploadImages` over the entries of the directory, with the counter
`filenum`: a directory is passed over, every other entry `<base><suffix>` is uploaded under
the key `bookname/<base>_<filenum as %04d><suffix>` and the counter is advanced. -/
def uploadImagesLoop {σ : Type} (conn : Pipeliner σ) (dir bookname : Str) :
    List FileInfo → Nat → Run σ → Option Err × Run σ
  | [], _, r => (none, r)
  | file :: files, filenum, r =>
    if file.IsDir then uploadImagesLoop conn dir bookname files filenum r
    else
      let origname := file.Name
      let origsuffix := Ext origname
      let origbase := TrimSuffix origname origsuffix
      let origpath := filepathJoin [dir, origname]
      let newname := origbase ++ ['_'] ++ fmt04d filenum ++ origsuffix
      match r.step (conn.Upload conn.WIPStorageId (filepathJoin [bookname, newname]) origpath)
          (.upload conn.WIPStorageId (filepathJoin [bookname, newname]) origpath) with
      | (some err, r1) =>
        (some ("Failed to upload ".toList ++ origpath ++ ": ".toList ++ err), r1)
      | (none, r1) => uploadImagesLoop conn dir bookname files (filenum + 1) r1

/-- Go `UploadImages(dir, bookname, conn)`; `ReadDir` is `ioutil.ReadDir`, which lists the
entries of the directory sorted by name, and whose error is not returned by the code. -/
def UploadImages {σ : Type} (conn : Pipeliner σ) (ReadDir : Str → σ → List FileInfo × Option Err)
    (dir bookname : Str) (r : Run σ) : Option Err × Run σ :=
  uploadImagesLoop conn dir bookname (ReadDir dir r.st).1 0 r

/-- Go `fileWalk.Walk` for a path without error: the path sent on the channel, if any.
Nothing is sent for a path whose basename starts with `.`, nor for a directory. -/
def walkSends (path : Str) (isDir : Bool) : Option Str :=
  if HasPrefix (Base path) ['.'] then none
  else if !isDir then some path
  else none

/-! ## The PDFs of `Analyse` -/

/-- Go `strings.SplitN(s, sep, 2)` for a non-empty separator: the text before and the text
after the first occurrence of `sep`, or `s` alone when `sep` does not occur. -/
def SplitN2 (s sep : Str) : List Str :=
  if Index s sep < 0 then [s]
  else [s.take (Index s sep).toNat, s.drop ((Index s sep).toNat + sep.length)]

/-- Go `pageimg`. -/
structure pageimg where
  /-- The basename of the hOCR file. -/
  hocr : Str
  /-- The name of the image. -/
  img : Str
  deriving DecidableEq, Repr

/-- The loop of lines 312-326 of `Analyse`: for every selected hOCR path, the binarised
image is the basename with `.hocr` replaced by `.png`, and the colour image is the text
before the first `_bin` (the whole name without `.hocr` when there is no `_bin`) followed by
`.jpg`.  The value is `(binimgs, colourimgs)`. -/
def pageImgs : List Str → List pageimg × List pageimg
  | [] => ([], [])
  | pg :: pgs =>
    let base := Base pg
    let nosuffix := TrimSuffix base ['.', 'h', 'o', 'c', 'r']
    let p := SplitN2 base ['_', 'b', 'i', 'n']
    let fn := if 1 < p.length then p.headD [] ++ ['.', 'j', 'p', 'g']
      else nosuffix ++ ['.', 'j', 'p', 'g']
    (⟨base, nosuffix ++ ['.', 'p', 'n', 'g']⟩ :: (pageImgs pgs).1, ⟨base, fn⟩ :: (pageImgs pgs).2)

/-- The order of Go strings: by bytes, which for valid text is the order by code points. -/
def strLe : Str → Str → Bool
  | [], _ => true
  | _ :: _, [] => false
  | a :: as, b :: bs => a.toNat < b.toNat || (a == b && strLe as bs)

/-- Insertion of a string into a sorted list. -/
def insertStr (s : Str) : List Str → List Str
  | [] => [s]
  | t :: ts => if strLe s t then s :: t :: ts else t :: insertStr s ts

/-- Go `sort.Strings`. -/
def sortStrings : List Str → List Str
  | [] => []
  | s :: ss => insertStr s (sortStrings ss)

/-- The library calls of the second half of `Analyse`: `filepath.Rel` and the methods of
`bookpipeline.Fpdf`.  The first argument of a method says which of the two documents it is
called on: `true` for `binarisedpdf`, `false` for `colourpdf`. -/
structure PdfLib (σ : Type) where
  /-- Go `filepath.Rel(basepath, targpath)`. -/
  Rel : Str → Str → Except Err Str
  /-- Go `Setup()`. -/
  Setup : Bool → σ → Option Err × σ
  /-- Go `AddPage(imgpath, hocrpath, true)`. -/
  AddPage : Bool → Str → Str → σ → Option Err × σ
  /-- Go `Save(path)`. -/
  Save : Bool → Str → σ → Option Err × σ

/-- Performs a library call that is not logged. -/
def Run.quiet {σ : Type} (r : Run σ) (f : σ → Option Err × σ) : Option Err × Run σ :=
  ((f r.st).1, ⟨(f r.st).2, r.calls⟩)

/-- The end of an iteration of both page loops of `Analyse` once the image `imgfn` of the
page has been downloaded: the page is added to the document and the image is removed. -/
def addPdfPage {σ : Type} (host : Host σ) (pdf : PdfLib σ) (binarised : Bool)
    (savedir imgfn : Str) (pg : pageimg) (r : Run σ) : Option Err × Run σ :=
  match r.quiet (pdf.AddPage binarised (filepathJoin [savedir, imgfn])
      (filepathJoin [savedir, pg.hocr])) with
  | (some err, r1) =>
    (some ("Failed to add page ".toList ++ pg.img ++ " to PDF: ".toList ++ err), r1)
  | (none, r1) =>
    r1.step (host.Remove (filepathJoin [savedir, imgfn])) (.remove (filepathJoin [savedir, imgfn]))

/-- The loop of lines 328-346 of `Analyse` over `binimgs`, with the flag `binhascontent`;
a page whose download fails is skipped. -/
def binPages {σ : Type} (conn : Pipeliner σ) (host : Host σ) (pdf : PdfLib σ)
    (bookname savedir : Str) : List pageimg → Bool → Run σ → Except Err Bool × Run σ
  | [], binhascontent, r => (.ok binhascontent, r)
  | pg :: binimgs, binhascontent, r =>
    match r.step (conn.Download conn.WIPStorageId (bookname ++ ['/'] ++ pg.img)
        (filepathJoin [savedir, pg.img]))
        (.download conn.WIPStorageId (bookname ++ ['/'] ++ pg.img)
          (filepathJoin [savedir, pg.img])) with
    | (some _, r1) => binPages conn host pdf bookname savedir binimgs binhascontent r1
    | (none, r1) =>
      match addPdfPage host pdf true savedir pg.img pg r1 with
      | (some err, r2) => (.error err, r2)
      | (none, r2) => binPages conn host pdf bookname savedir binimgs true r2

/-- The loop of lines 363-388 of `Analyse` over `colourimgs`, with the flag
`colourhascontent`: when the download of the image fails, the name with its first `.jpg`
replaced by `.png` is tried, and a page for which that fails too is skipped. -/
def colourPages {σ : Type} (conn : Pipeliner σ) (host : Host σ) (pdf : PdfLib σ)
    (bookname savedir : Str) : List pageimg → Bool → Run σ → Except Err Bool × Run σ
  | [], colourhascontent, r => (.ok colourhascontent, r)
  | pg :: colourimgs, colourhascontent, r =>
    match r.step (conn.Download conn.WIPStorageId (bookname ++ ['/'] ++ pg.img)
        (filepathJoin [savedir, pg.img]))
        (.download conn.WIPStorageId (bookname ++ ['/'] ++ pg.img)
          (filepathJoin [savedir, pg.img])) with
    | (none, r1) =>
      match addPdfPage host pdf false savedir pg.img pg r1 with
      | (some err, r2) => (.error err, r2)
      | (none, r2) => colourPages conn host pdf bookname savedir colourimgs true r2
    | (some _, r1) =>
      let colourfn := Replace1 pg.img ['.', 'j', 'p', 'g'] ['.', 'p', 'n', 'g']
      match r1.step (conn.Download conn.WIPStorageId (bookname ++ ['/'] ++ colourfn)
          (filepathJoin [savedir, colourfn]))
          (.download conn.WIPStorageId (bookname ++ ['/'] ++ colourfn)
            (filepathJoin [savedir, colourfn])) with
      | (some _, r2) => colourPages conn host pdf bookname savedir colourimgs colourhascontent r2
      | (none, r2) =>
        match addPdfPage host pdf false savedir colourfn pg r2 with
        | (some err, r3) => (.error err, r3)
        | (none, r3) => colourPages conn host pdf bookname savedir colourimgs true r3

/-- Lines 363-397 of `Analyse`: the colour pages are fetched, and the colour PDF is saved
and sent on `up` when it has a page; `emitted` holds the paths sent on `up` before. -/
def analyseColour {σ : Type} (conn : Pipeliner σ) (host : Host σ) (pdf : PdfLib σ)
    (bookname savedir : Str) (colourimgs : List pageimg) (emitted : List Str) (r : Run σ) :
    GraphStep σ :=
  match colourPages conn host pdf bookname savedir colourimgs false r with
  | (.error err, r1) => ⟨emitted, some (.errc err), r1⟩
  | (.ok colourhascontent, r1) =>
    if colourhascontent then
      match r1.quiet (pdf.Save false
          (filepathJoin [savedir, bookname ++ ".colour.pdf".toList])) with
      | (some err, r2) =>
        ⟨emitted, some (.errc ("Failed to save colour pdf: ".toList ++ err)), r2⟩
      | (none, r2) =>
        ⟨emitted ++ [filepathJoin [savedir, bookname ++ ".colour.pdf".toList]], none, r2⟩
    else ⟨emitted, none, r1⟩

/-- Lines 284-397 of `Analyse`: the selected paths are sorted, the book name is the scratch
directory relative to the temporary directory, the binarised pages are fetched, the
binarised PDF is saved, sent on `up` and uploaded when it has a page (the error of that
upload is dropped), and the colour PDF follows.  The order in which `range` visits
`bestconfs` is `rangeBest`. -/
def analysePdfs {σ : Type} (conn : Pipeliner σ) (host : Host σ) (pdf : PdfLib σ)
    (rangeBest : List (Str × Conf) → List (Str × Conf)) (savedir : Str)
    (bestconfs : List (Str × Conf)) (r : Run σ) : GraphStep σ :=
  let pgs := sortStrings ((rangeBest bestconfs).map (fun e => e.2.Path))
  match pdf.Rel host.TempDir savedir with
  | .error err =>
    ⟨[], some (.errc ("Failed to do filepath.Rel of ".toList ++ host.TempDir ++ " to ".toList
      ++ savedir ++ ": ".toList ++ err)), r⟩
  | .ok bookname =>
    match r.quiet (pdf.Setup false) with
    | (some err, r1) => ⟨[], some (.errc ("Failed to set up PDF: ".toList ++ err)), r1⟩
    | (none, r1) =>
      match r1.quiet (pdf.Setup true) with
      | (some err, r2) => ⟨[], some (.errc ("Failed to set up PDF: ".toList ++ err)), r2⟩
      | (none, r2) =>
        match binPages conn host pdf bookname savedir (pageImgs pgs).1 false r2 with
        | (.error err, r3) => ⟨[], some (.errc err), r3⟩
        | (.ok binhascontent, r3) =>
          if binhascontent then
            match r3.quiet (pdf.Save true
                (filepathJoin [savedir, bookname ++ ".binarised.pdf".toList])) with
            | (some err, r4) =>
              ⟨[], some (.errc ("Failed to save binarised pdf: ".toList ++ err)), r4⟩
            | (none, r4) =>
              analyseColour conn host pdf bookname savedir (pageImgs pgs).2
                [filepathJoin [savedir, bookname ++ ".binarised.pdf".toList]]
                (r4.step (conn.Upload conn.WIPStorageId
                    (bookname ++ ['/'] ++ bookname ++ ".binarised.pdf".toList)
                    (filepathJoin [savedir, bookname ++ ".binarised.pdf".toList]))
                  (.upload conn.WIPStorageId
                    (bookname ++ ['/'] ++ bookname ++ ".binarised.pdf".toList)
                    (filepathJoin [savedir, bookname ++ ".binarised.pdf".toList]))).2
          else analyseColour conn host pdf bookname savedir (pageImgs pgs).2 [] r3

/-- A PDF library on the in-memory state: a path below the base path is made relative by
dropping the base and the slash, pages are added to a document from existing image files,
and saving a document creates the file. -/
def memPdf : PdfLib Mem where
  Rel := fun basepath targpath =>
    if HasPrefix targpath (basepath ++ ['/']) then .ok (targpath.drop (basepath.length + 1))
    else .error "cannot make the path relative".toList
  Setup := fun _ m => (none, m)
  AddPage := fun _ imgpath _ m =>
    if imgpath ∈ m.files then (none, m) else (some "cannot read image".toList, m)
  Save := fun _ path m => (none, ⟨m.objects, m.queue, m.deleted, m.files ++ [path]⟩)

/-- The keys of the `Download` calls of a log with their success, in order. -/
def downloads : List Call → List (Str × Bool)
  | [] => []
  | .download _ key _ ok :: cs => (key, ok) :: downloads cs
  | _ :: cs => downloads cs

/-! ## The heartbeat -/

/-- Go `const HeartbeatSeconds`. -/
def HeartbeatSeconds : Nat := 60

/-- The channel operation at which the goroutine `heartbeat` stands. -/
inductive Beat where
  /-- At `for range t.C`, with the value of `currentmsg`. -/
  | ticking (currentmsg : Qmsg)
  /-- At `for range msgc {}`: a receive from `msgc`, after `currentmsg = m`. -/
  | draining (m : Qmsg)
  /-- At `msgc <- m`. -/
  | sending (m : Qmsg)
  /-- After `os.Exit(1)`. -/
  | exited
  deriving DecidableEq, Repr

/-- What can complete a channel operation of the heartbeat. -/
inductive BeatEvent where
  /-- The ticker delivers a value on `t.C`. -/
  | tick
  /-- Another goroutine sends a message on `msgc`. -/
  | msgcValue (m : Qmsg)
  /-- Another goroutine has closed `msgc`. -/
  | msgcClosed
  /-- Another goroutine receives from `msgc`. -/
  | msgcTaken
  deriving DecidableEq, Repr

/-- Go `heartbeat`, one channel operation at a time.  `QueueHeartbeat` is the method of the
adapter.  An event that does not complete the operation at which the goroutine stands
leaves it there. -/
def heartbeatStep {σ : Type} (QueueHeartbeat : Qmsg → Str → Nat → σ → Except Err Qmsg × σ)
    (queue : Str) : BeatEvent → Beat → σ → Beat × σ
  | .tick, .ticking currentmsg, st =>
    match QueueHeartbeat currentmsg queue (HeartbeatSeconds * 2) st with
    | (.error _, st1) => (.exited, st1)
    | (.ok m, st1) => if m.Id ≠ [] then (.draining m, st1) else (.ticking currentmsg, st1)
  | .msgcValue _, .draining m, st => (.draining m, st)
  | .msgcClosed, .draining m, st => (.sending m, st)
  | .msgcTaken, .sending m, st => (.ticking m, st)
  | _, beat, st => (beat, st)

/-- The heartbeat over a sequence of events. -/
def heartbeatRun {σ : Type} (QueueHeartbeat : Qmsg → Str → Nat → σ → Except Err Qmsg × σ)
    (queue : Str) : List BeatEvent → Beat → σ → Beat × σ
  | [], beat, st => (beat, st)
  | e :: es, beat, st =>
    heartbeatRun QueueHeartbeat queue es (heartbeatStep QueueHeartbeat queue e beat st).1
      (heartbeatStep QueueHeartbeat queue e beat st).2

/-- The `select` with `default` on `msgc` at the end of both drivers: a message is received
exactly when the heartbeat stands at `msgc <- m`. -/
def selectMsgc : Beat → Option Qmsg
  | .sending m => some m
  | _ => none

/-- The engine in which the stages run one after the other and the ticker then delivers
`ticks` values before the driver comes to its `select` on `msgc`.  The drivers only receive
from `msgc`: they never send on it and never close it. -/
def beatEngine {σ : Type} (conn : Pipeliner σ) (host : Host σ)
    (QueueHeartbeat : Qmsg → Str → Nat → σ → Except Err Qmsg × σ) (ticks : Nat) : Engine σ :=
  fun uploader process keys dir msg fromQueue st =>
    ⟨(seqEngine conn host uploader process keys dir msg fromQueue st).sel,
      selectMsgc (heartbeatRun QueueHeartbeat fromQueue (List.replicate ticks .tick)
        (.ticking msg) (seqEngine conn host uploader process keys dir msg fromQueue st).st).1,
      (heartbeatRun QueueHeartbeat fromQueue (List.replicate ticks .tick)
        (.ticking msg) (seqEngine conn host uploader process keys dir msg fromQueue st).st).2⟩

/-! ## The goroutines of a job, one channel operation at a time

The channels `dl`, `process`, `up`, `errc` and `done` of a job are unbuffered: a send
completes together with a receive of another goroutine, and a receive from a closed channel
completes at once.  A goroutine is described by the channel operation at which it stands;
the calls it makes between two channel operations are made when the first one completes. -/

/-- The channel operation at which the goroutine `download` stands. -/
inductive DownloadAt where
  /-- At `for key := range dl`. -/
  | recvKey
  /-- At `process <- fn`. -/
  | sendFn (fn : Str)
  /-- At `for range dl {}`, after a failed download. -/
  | drain (err : Err)
  /-- At `errc <- err`, after `close(process)`. -/
  | sendErr (err : Err)
  /-- The function has returned. -/
  | returned
  deriving DecidableEq, Repr

/-- The channel operation at which a transform that works path by path (`Wipe`, `Ocr`)
stands. -/
inductive TransformAt where
  /-- At `for path := range toocr`. -/
  | recvPath
  /-- At `up <- out`. -/
  | sendOut (out : Str)
  /-- At `for range toocr {}`, after a failed path. -/
  | drain (err : Err)
  /-- At `errc <- err`. -/
  | sendErr (err : Err)
  /-- The function has returned. -/
  | returned
  deriving DecidableEq, Repr

/-- The channel operation at which the uploader (`up`, `upAndQueue`) stands. -/
inductive UploadAt where
  /-- At `for path := range c`. -/
  | recvPath
  /-- At `for range c {}`, after a failed call. -/
  | drain (err : Err)
  /-- At `errc <- err`. -/
  | sendErr (err : Err)
  /-- At `done <- true`. -/
  | sendDone
  /-- The function has returned. -/
  | returned
  deriving DecidableEq, Repr

/-- The channel operation at which the driver stands, from the feeding of `dl` on. -/
inductive DriverAt where
  /-- At `dl <- a` for the first of the keys left, or at `close(dl)` when none is left. -/
  | sendKey (todl : List Str)
  /-- At the `select` on `errc` and `done`. -/
  | selecting
  /-- After the `select`, with what it received. -/
  | received (s : Sel)
  deriving DecidableEq, Repr

/-- The work of a path-by-path transform on one path: the path it sends on `up`, or the
error it sends on `errc`. -/
abbrev ItemWork (σ : Type) := Str → Run σ → Except Err Str × Run σ

/-- The body of the loop of `Ocr(training)` for one path. -/
def ocrItem {σ : Type} (host : Host σ) (training : Str) : ItemWork σ :=
  fun path r =>
    match r.step (host.tesseract training path (Replace1 path ['.', 'p', 'n', 'g'] []))
        (.tesseract training path (Replace1 path ['.', 'p', 'n', 'g'] [])) with
    | (some err, r1) =>
      (.error ("Error ocring ".toList ++ path ++ " with training ".toList ++ training
        ++ ": ".toList ++ err), r1)
    | (none, r1) => (.ok (Replace1 path ['.', 'p', 'n', 'g'] [] ++ ['.', 'h', 'o', 'c', 'r']), r1)

/-- The body of the loop of `up` for one path: the error of the upload or of the removal. -/
def upItem {σ : Type} (conn : Pipeliner σ) (host : Host σ) (bookname : Str) (path : Str)
    (r : Run σ) : Option Err × Run σ :=
  match r.step (conn.Upload conn.WIPStorageId (bookname ++ ['/'] ++ Base path) path)
      (.upload conn.WIPStorageId (bookname ++ ['/'] ++ Base path) path) with
  | (some err, r1) => (some err, r1)
  | (none, r1) => r1.step (host.Remove path) (.remove path)

/-- A job: where the driver and the three goroutines stand, which channels have been closed,
and the outside world. -/
structure Job (σ : Type) where
  /-- The driver. -/
  driver : DriverAt
  /-- The goroutine `download`. -/
  downloader : DownloadAt
  /-- The transform. -/
  transform : TransformAt
  /-- The uploader. -/
  uploader : UploadAt
  /-- Whether `dl` has been closed (by the driver). -/
  dlClosed : Bool
  /-- Whether `process` has been closed (by `download`). -/
  processClosed : Bool
  /-- Whether `up` has been closed (by the transform). -/
  upClosed : Bool
  /-- The outside world and the calls made. -/
  run : Run σ

/-- A step of a job: a send meeting a receive, a receive finding its channel closed, or the
closing of `dl`. -/
inductive JobEvent where
  /-- The `dl <- a` of the driver meets a receive of `download`. -/
  | keySent
  /-- The driver closes `dl`. -/
  | dlClose
  /-- A receive of `download` finds `dl` closed. -/
  | dlEnded
  /-- The `process <- fn` of `download` meets a receive of the transform. -/
  | fnSent
  /-- A receive of the transform finds `process` closed. -/
  | processEnded
  /-- The `up <- out` of the transform meets a receive of the uploader. -/
  | outSent
  /-- A receive of the uploader finds `up` closed. -/
  | upEnded
  /-- The `select` of the driver receives the error of `download`. -/
  | errFromDownload
  /-- The `select` of the driver receives the error of the transform. -/
  | errFromTransform
  /-- The `select` of the driver receives the error of the uploader. -/
  | errFromUploader
  /-- The `select` of the driver receives `done`. -/
  | doneFromUploader
  deriving DecidableEq, Repr

/-- The job after an event, or `none` when the event cannot happen in the job.  `dir` is the
scratch directory, `work` the transform and `upload` the body of the loop of the uploader. -/
def fire {σ : Type} (conn : Pipeliner σ) (dir : Str) (work : ItemWork σ)
    (upload : Str → Run σ → Option Err × Run σ) : JobEvent → Job σ → Option (Job σ)
  | .keySent, j =>
    match j.driver, j.downloader with
    | .sendKey (key :: todl), .recvKey =>
      match j.run.step (conn.Download conn.WIPStorageId key (filepathJoin [dir, Base key]))
          (.download conn.WIPStorageId key (filepathJoin [dir, Base key])) with
      | (some err, r1) =>
        some ⟨.sendKey todl, .drain err, j.transform, j.uploader, j.dlClosed, j.processClosed,
          j.upClosed, r1⟩
      | (none, r1) =>
        some ⟨.sendKey todl, .sendFn (filepathJoin [dir, Base key]), j.transform, j.uploader,
          j.dlClosed, j.processClosed, j.upClosed, r1⟩
    | .sendKey (_ :: todl), .drain err =>
      some ⟨.sendKey todl, .drain err, j.transform, j.uploader, j.dlClosed, j.processClosed,
        j.upClosed, j.run⟩
    | _, _ => none
  | .dlClose, j =>
    match j.driver with
    | .sendKey [] =>
      some ⟨.selecting, j.downloader, j.transform, j.uploader, true, j.processClosed,
        j.upClosed, j.run⟩
    | _ => none
  | .dlEnded, j =>
    if j.dlClosed then
      match j.downloader with
      | .recvKey =>
        some ⟨j.driver, .returned, j.transform, j.uploader, j.dlClosed, true, j.upClosed, j.run⟩
      | .drain err =>
        some ⟨j.driver, .sendErr err, j.transform, j.uploader, j.dlClosed, true, j.upClosed,
          j.run⟩
      | _ => none
    else none
  | .fnSent, j =>
    match j.downloader, j.transform with
    | .sendFn fn, .recvPath =>
      match work fn j.run with
      | (.error err, r1) =>
        some ⟨j.driver, .recvKey, .drain err, j.uploader, j.dlClosed, j.processClosed,
          j.upClosed, r1⟩
      | (.ok out, r1) =>
        some ⟨j.driver, .recvKey, .sendOut out, j.uploader, j.dlClosed, j.processClosed,
          j.upClosed, r1⟩
    | .sendFn _, .drain err =>
      some ⟨j.driver, .recvKey, .drain err, j.uploader, j.dlClosed, j.processClosed,
        j.upClosed, j.run⟩
    | _, _ => none
  | .processEnded, j =>
    if j.processClosed then
      match j.transform with
      | .recvPath =>
        some ⟨j.driver, j.downloader, .returned, j.uploader, j.dlClosed, j.processClosed, true,
          j.run⟩
      | .drain err =>
        some ⟨j.driver, j.downloader, .sendErr err, j.uploader, j.dlClosed, j.processClosed,
          j.upClosed, j.run⟩
      | _ => none
    else none
  | .outSent, j =>
    match j.transform, j.uploader with
    | .sendOut out, .recvPath =>
      match upload out j.run with
      | (some err, r1) =>
        some ⟨j.driver, j.downloader, .recvPath, .drain err, j.dlClosed, j.processClosed,
          j.upClosed, r1⟩
      | (none, r1) =>
        some ⟨j.driver, j.downloader, .recvPath, .recvPath, j.dlClosed, j.processClosed,
          j.upClosed, r1⟩
    | .sendOut _, .drain err =>
      some ⟨j.driver, j.downloader, .recvPath, .drain err, j.dlClosed, j.processClosed,
        j.upClosed, j.run⟩
    | _, _ => none
  | .upEnded, j =>
    if j.upClosed then
      match j.uploader with
      | .recvPath =>
        some ⟨j.driver, j.downloader, j.transform, .sendDone, j.dlClosed, j.processClosed,
          j.upClosed, j.run⟩
      | .drain err =>
        some ⟨j.driver, j.downloader, j.transform, .sendErr err, j.dlClosed, j.processClosed,
          j.upClosed, j.run⟩
      | _ => none
    else none
  | .errFromDownload, j =>
    match j.driver, j.downloader with
    | .selecting, .sendErr err =>
      some ⟨.received (.errc err), .returned, j.transform, j.uploader, j.dlClosed,
        j.processClosed, j.upClosed, j.run⟩
    | _, _ => none
  | .errFromTransform, j =>
    match j.driver, j.transform with
    | .selecting, .sendErr err =>
      some ⟨.received (.errc err), j.downloader, .returned, j.uploader, j.dlClosed,
        j.processClosed, j.upClosed, j.run⟩
    | _, _ => none
  | .errFromUploader, j =>
    match j.driver, j.uploader with
    | .selecting, .sendErr err =>
      some ⟨.received (.errc err), j.downloader, j.transform, .returned, j.dlClosed,
        j.processClosed, j.upClosed, j.run⟩
    | _, _ => none
  | .doneFromUploader, j =>
    match j.driver, j.uploader with
    | .selecting, .sendDone =>
      some ⟨.received .done, j.downloader, j.transform, .returned, j.dlClosed, j.processClosed,
        j.upClosed, j.run⟩
    | _, _ => none

/-- All events. -/
def allEvents : List JobEvent :=
  [.keySent, .dlClose, .dlEnded, .fnSent, .processEnded, .outSent, .upEnded,
   .errFromDownload, .errFromTransform, .errFromUploader, .doneFromUploader]

/-- The jobs that one step can lead to. -/
def successors {σ : Type} (conn : Pipeliner σ) (dir : Str) (work : ItemWork σ)
    (upload : Str → Run σ → Option Err × Run σ) (j : Job σ) : List (Job σ) :=
  allEvents.filterMap (fun e => fire conn dir work upload e j)

/-- One of the three goroutines of a job. -/
inductive Goroutine where
  /-- Go `download`. -/
  | download
  /-- The transform. -/
  | transform
  /-- The uploader. -/
  | uploader
  deriving DecidableEq, Repr

/-- The goroutines that have not returned. -/
def Job.pending {σ : Type} (j : Job σ) : List Goroutine :=
  (if j.downloader = .returned then [] else [.download]) ++
  (if j.transform = .returned then [] else [.transform]) ++
  (if j.uploader = .returned then [] else [.uploader])

/-- What `select` received in a job (`none`: the driver has not come past it). -/
def Job.selected {σ : Type} (j : Job σ) : Option Sel :=
  match j.driver with
  | .received s => some s
  | _ => none

/-- The ends of a job under every schedule: for each way of ordering the steps, what the
`select` of the driver received and which goroutines have not returned when no step is
possible any more, so that those goroutines are blocked for ever.  The value is `none` when
some schedule is longer than `fuel` steps. -/
def jobEnds {σ : Type} (conn : Pipeliner σ) (dir : Str) (work : ItemWork σ)
    (upload : Str → Run σ → Option Err × Run σ) :
    Nat → Job σ → Option (List (Option Sel × List Goroutine))
  | 0, j =>
    if (successors conn dir work upload j).isEmpty then some [(j.selected, j.pending)] else none
  | fuel + 1, j =>
    if (successors conn dir work upload j).isEmpty then some [(j.selected, j.pending)]
    else
      (successors conn dir work upload j).foldr
        (fun j1 acc =>
          match jobEnds conn dir work upload fuel j1, acc with
          | some ends, some others => some (ends ++ others)
          | _, _ => none)
        (some [])

/-- The job of a driver that is about to feed the keys `todl` to `dl`, with the three
goroutines started. -/
def startJob {σ : Type} (todl : List Str) (r : Run σ) : Job σ :=
  ⟨.sendKey todl, .recvKey, .recvPath, .recvPath, false, false, false, r⟩

/-- The in-memory host with an OCR command that fails. -/
def failingOcrHost : Host Mem where
  TempDir := memHost.TempDir
  MkdirAll := memHost.MkdirAll
  Remove := memHost.Remove
  RemoveAll := memHost.RemoveAll
  Create := memHost.Create
  Fprintf := memHost.Fprintf
  tesseract := fun _ _ _ m => (some "exit status 1".toList, m)
  WipeFile := memHost.WipeFile
  GetMailSettings := memHost.GetMailSettings
  getLogs := memHost.getLogs
  SendMail := memHost.SendMail

/-- The job after a sequence of events, or `none` when one of them cannot happen. -/
def fireAll {σ : Type} (conn : Pipeliner σ) (dir : Str) (work : ItemWork σ)
    (upload : Str → Run σ → Option Err × Run σ) : List JobEvent → Job σ → Option (Job σ)
  | [], j => some j
  | e :: es, j =>
    match fire conn dir work upload e j with
    | none => none
    | some j1 => fireAll conn dir work upload es j1

/-- The transform has stopped on an error: it stands in its drain loop, at `errc <- err`, or
has returned, and `up` has not been closed. -/
def Job.transformFailed {σ : Type} (j : Job σ) : Bool :=
  !j.upClosed &&
  (match j.transform with
    | .drain _ => true
    | .sendErr _ => true
    | .returned => true
    | _ => false)

/-- The uploader stands in one of its two loops over `up`. -/
def Job.uploaderReceiving {σ : Type} (j : Job σ) : Bool :=
  match j.uploader with
  | .recvPath => true
  | .drain _ => true
  | _ => false

/-! ## The effect of the uploaders on the adapter -/

/-- The state after the three calls of one iteration of `upAndQueue` for `path`, made one
after the other from the state `st`: the upload under `bookname/<basename>`, the removal of
the local file, and the enqueueing of `bookname/<basename> training` on `toQueue`. -/
def pageCalls {σ : Type} (conn : Pipeliner σ) (host : Host σ) (toQueue bookname training : Str)
    (st : σ) (path : Str) : σ :=
  (conn.AddToQueue toQueue (bookname ++ ['/'] ++ Base path ++ [' '] ++ training)
    (host.Remove path
      (conn.Upload conn.WIPStorageId (bookname ++ ['/'] ++ Base path) path st).2).2).2

/-- Whether the three calls of one iteration of `upAndQueue` for `path`, made one after the
other from the state `st`, all return `nil`. -/
def pageOk {σ : Type} (conn : Pipeliner σ) (host : Host σ) (toQueue bookname training : Str)
    (st : σ) (path : Str) : Bool :=
  (conn.Upload conn.WIPStorageId (bookname ++ ['/'] ++ Base path) path st).1.isNone &&
  (host.Remove path
    (conn.Upload conn.WIPStorageId (bookname ++ ['/'] ++ Base path) path st).2).1.isNone &&
  (conn.AddToQueue toQueue (bookname ++ ['/'] ++ Base path ++ [' '] ++ training)
    (host.Remove path
      (conn.Upload conn.WIPStorageId (bookname ++ ['/'] ++ Base path) path st).2).2).1.isNone

/-- Whether every upload, removal and enqueueing succeeds when the paths are handled one
after the other from the state `st`. -/
def pagesOk {σ : Type} (conn : Pipeliner σ) (host : Host σ) (toQueue bookname training : Str) :
    List Str → σ → Bool
  | [], _ => true
  | path :: c, st =>
    pageOk conn host toQueue bookname training st path &&
      pagesOk conn host toQueue bookname training c
        (pageCalls conn host toQueue bookname training st path)

/-- The error and the state left by the first failing call of an iteration of `upAndQueue`
for `path` from the state `st`; `none` when the three calls succeed. -/
def pageFailure {σ : Type} (conn : Pipeliner σ) (host : Host σ) (toQueue bookname training : Str)
    (st : σ) (path : Str) : Option (Err × σ) :=
  match conn.Upload conn.WIPStorageId (bookname ++ ['/'] ++ Base path) path st with
  | (some err, st1) => some (err, st1)
  | (none, st1) =>
    match host.Remove path st1 with
    | (some err, st2) => some (err, st2)
    | (none, st2) =>
      match conn.AddToQueue toQueue (bookname ++ ['/'] ++ Base path ++ [' '] ++ training) st2 with
      | (some err, st3) => some (err, st3)
      | (none, _) => none

/-! ## The filter of the wipe stage -/

/-- The pattern compiled in `processbook` for the wipe stage, `[0-9]{4,6}(.bin)?.png$`, as
a test of a key.  The search is not anchored at the start, so a suffix with five or six
digits holds one with four: the key is accepted exactly when a suffix of it is four digits,
optionally any character and `bin`, then any character and `png`. -/
def wipeMatch (key : Str) : Bool :=
  MatchString [.digit, .digit, .digit, .digit, .anyChar, .lit 'p', .lit 'n', .lit 'g'] key ||
  MatchString [.digit, .digit, .digit, .digit, .anyChar, .lit 'b', .lit 'i', .lit 'n',
    .anyChar, .lit 'p', .lit 'n', .lit 'g'] key

/-! ## The graph routine as the specification describes it -/

theorem hasSuffix_iff (s suffix : Str) : HasSuffix s suffix = true ↔ suffix <:+ s := by
  unfold HasSuffix
  constructor
  · intro h
    simp only [Bool.and_eq_true, decide_eq_true_eq, beq_iff_eq] at h
    rw [← h.2]
    exact List.drop_suffix _ _
  · rintro ⟨t, rfl⟩
    simp

theorem trimSuffix_append (t suffix : Str) : TrimSuffix (t ++ suffix) suffix = t := by
  unfold TrimSuffix
  rw [if_pos ((hasSuffix_iff _ _).2 ⟨t, rfl⟩)]
  simp

theorem trimSuffix_of_not_suffix (s suffix : Str) (h : ¬ suffix <:+ s) :
    TrimSuffix s suffix = s := by
  unfold TrimSuffix
  rw [if_neg (fun hs => h ((hasSuffix_iff _ _).1 hs))]

theorem suffix_of_suffix_slash (a f suf : Str) (hs : '/' ∉ suf)
    (h : suf <:+ a ++ '/' :: f) : suf <:+ f := by
  have hf : f <:+ a ++ '/' :: f := ⟨a ++ ['/'], by simp⟩
  by_cases hl : suf.length ≤ f.length
  · exact List.suffix_of_suffix_length_le h hf hl
  · exfalso
    have h2 : ('/' :: f) <:+ a ++ '/' :: f := List.suffix_append _ _
    have h3 : ('/' :: f) <:+ suf :=
      List.suffix_of_suffix_length_le h2 h (by simp; omega)
    exact hs (h3.subset (List.mem_cons_self _ _))

theorem base_book_key (bookname file : Str) (hne : file ≠ []) (hs : '/' ∉ file) :
    Base (bookname ++ ['/'] ++ file) = file := by
  have hrev : (bookname ++ ['/'] ++ file).reverse = file.reverse ++ '/' :: bookname.reverse := by
    simp
  have hne2 : file.reverse ≠ [] := by simpa using hne
  unfold Base stripTrailingSlashes lastElement
  rw [if_neg (by simp)]
  simp only [hrev]
  obtain ⟨c, cs, hc⟩ := List.exists_cons_of_ne_nil hne2
  have hcs : ∀ x ∈ c :: cs, x ≠ '/' := by
    intro x hx h
    rw [← hc] at hx
    exact hs (h ▸ (List.mem_reverse.1 hx))
  have hdrop : List.dropWhile (fun c => c == '/') (file.reverse ++ '/' :: bookname.reverse)
      = file.reverse ++ '/' :: bookname.reverse := by
    rw [hc]
    have : (c == '/') = false := by simpa using hcs c (List.mem_cons_self _ _)
    simp [List.dropWhile, this]
  rw [hdrop, List.reverse_reverse]
  have htake : List.takeWhile (fun c => c != '/') (file.reverse ++ '/' :: bookname.reverse)
      = file.reverse := by
    rw [List.takeWhile_append_of_pos]
    · simp [List.takeWhile]
    · intro x hx
      have : x ≠ '/' := fun h => hs (h ▸ (List.mem_reverse.1 hx))
      simpa using this
  simp only [hrev, htake, List.reverse_reverse]
  simp [hne]


/-! ## Lemmas on patterns -/

theorem matchString_iff (pat : List Atom) (s : Str) :
    MatchString pat s = true ↔ ∃ t, t <:+ s ∧ matchHere pat t = true := by
  induction s with
  | nil =>
    simp only [MatchString]
    constructor
    · intro h
      exact ⟨[], List.suffix_refl _, h⟩
    · rintro ⟨t, ht, hm⟩
      rw [List.suffix_nil.1 ht] at hm
      exact hm
  | cons c cs ih =>
    simp only [MatchString, Bool.or_eq_true, ih]
    constructor
    · rintro (h | ⟨t, ht, hm⟩)
      · exact ⟨c :: cs, List.suffix_refl _, h⟩
      · exact ⟨t, ht.trans (List.suffix_cons _ _), hm⟩
    · rintro ⟨t, ht, hm⟩
      rcases List.suffix_cons_iff.1 ht with h | h
      · left
        rw [← h]
        exact hm
      · exact Or.inr ⟨t, h, hm⟩

theorem matchHere_mono (p q : List Atom)
    (h : List.Forall₂ (fun a b => ∀ c, Atom.accepts a c = true → Atom.accepts b c = true) p q)
    (s : Str) : matchHere p s = true → matchHere q s = true := by
  induction h generalizing s with
  | nil => exact id
  | cons hab _ ih =>
    cases s with
    | nil => simp [matchHere]
    | cons c cs =>
      simp only [matchHere, Bool.and_eq_true]
      exact fun hm => ⟨hab c hm.1, ih cs hm.2⟩

theorem spec_pattern_le :
    List.Forall₂ (fun a b => ∀ c, Atom.accepts a c = true → Atom.accepts b c = true)
      specVariantPattern preprocessedPattern := by
  have hdot : ∀ c, Atom.accepts (.lit '.') c = true → Atom.accepts .anyChar c = true := by
    intro c h
    simp only [Atom.accepts, beq_iff_eq] at h
    subst h
    decide
  unfold specVariantPattern preprocessedPattern
  refine .cons (fun _ => id) (.cons (fun _ => id) (.cons (fun _ => id) (.cons (fun _ => id)
    (.cons (fun _ => id) (.cons hdot (.cons (fun _ => id) (.cons hdot
    (.cons (fun _ => id) (.cons (fun _ => id) (.cons (fun _ => id) .nil))))))))))

theorem matchString_spec_imp (s : Str) (h : MatchString specVariantPattern s = true) :
    MatchString preprocessedPattern s = true := by
  obtain ⟨t, ht, hm⟩ := (matchString_iff _ _).1 h
  exact (matchString_iff _ _).2 ⟨t, ht, matchHere_mono _ _ spec_pattern_le t hm⟩

theorem matchHere_spec_png (t : Str) (h : matchHere specVariantPattern t = true) :
    ['.', 'p', 'n', 'g'] <:+ t := by
  unfold specVariantPattern at h
  rcases t with _ | ⟨c1, _ | ⟨c2, _ | ⟨c3, _ | ⟨c4, _ | ⟨c5, _ | ⟨c6, _ | ⟨c7, _ | ⟨c8,
    _ | ⟨c9, _ | ⟨c10, _ | ⟨c11, _ | ⟨c12, t⟩⟩⟩⟩⟩⟩⟩⟩⟩⟩⟩⟩ <;>
    simp only [matchHere, Bool.and_eq_true, Bool.false_eq_true, and_false, false_and] at h
  simp only [Atom.accepts, beq_iff_eq] at h
  obtain ⟨-, -, -, -, -, -, -, h8, h9, h10, h11, -⟩ := h
  subst h8 h9 h10 h11
  exact ⟨[c1, c2, c3, c4, c5, c6, c7], rfl⟩

theorem matchString_spec_png (s : Str) (h : MatchString specVariantPattern s = true) :
    ['.', 'p', 'n', 'g'] <:+ s := by
  obtain ⟨t, ht, hm⟩ := (matchString_iff _ _).1 h
  exact (matchHere_spec_png t hm).trans ht

/-- What the loop of `allOCRed` computes: the flag is set on entry or some remaining name
matches the compiled pattern, and every remaining name that matches has its hOCR name in
the listing. -/
theorem allOCRedLoop_eq_true (bookname : Str) (objs todo : List Str) (a : Bool) :
    allOCRedLoop bookname objs todo a = true ↔
      (a = true ∨ ∃ p ∈ todo, MatchString preprocessedPattern p = true) ∧
      ∀ p ∈ todo, MatchString preprocessedPattern p = true →
        bookname ++ ['/'] ++ TrimSuffix (Base p) ['.', 'p', 'n', 'g'] ++ ['.', 'h', 'o', 'c', 'r']
          ∈ objs := by
  induction todo generalizing a with
  | nil => simp [allOCRedLoop]
  | cons png todo ih =>
    have hstep : allOCRedLoop bookname objs (png :: todo) a =
        if MatchString preprocessedPattern png = true then
          if objs.any (fun hocr => hocr == bookname ++ ['/'] ++
              TrimSuffix (Base png) ['.', 'p', 'n', 'g'] ++ ['.', 'h', 'o', 'c', 'r']) = true
          then allOCRedLoop bookname objs todo true else false
        else allOCRedLoop bookname objs todo a := by
      rw [allOCRedLoop]
      by_cases hm : MatchString preprocessedPattern png = true
      · rw [if_pos hm, if_pos hm]
        dsimp only
        cases objs.any (fun hocr => hocr == bookname ++ ['/'] ++
            TrimSuffix (Base png) ['.', 'p', 'n', 'g'] ++ ['.', 'h', 'o', 'c', 'r']) <;> rfl
      · rw [if_neg hm, if_neg hm]
    have hmem : objs.any (fun hocr => hocr == bookname ++ ['/'] ++
          TrimSuffix (Base png) ['.', 'p', 'n', 'g'] ++ ['.', 'h', 'o', 'c', 'r']) = true ↔
        (bookname ++ ['/'] ++ TrimSuffix (Base png) ['.', 'p', 'n', 'g']
          ++ ['.', 'h', 'o', 'c', 'r']) ∈ objs := by
      rw [List.any_eq_true]
      constructor
      · rintro ⟨x, hx, hxe⟩
        rw [beq_iff_eq] at hxe
        exact hxe ▸ hx
      · intro h
        exact ⟨_, h, beq_self_eq_true _⟩
    rw [hstep]
    by_cases hm : MatchString preprocessedPattern png = true
    · rw [if_pos hm]
      by_cases hf : (bookname ++ ['/'] ++ TrimSuffix (Base png) ['.', 'p', 'n', 'g']
          ++ ['.', 'h', 'o', 'c', 'r']) ∈ objs
      · rw [if_pos (hmem.2 hf), ih]
        constructor
        · rintro ⟨-, h2⟩
          refine ⟨Or.inr ⟨png, List.mem_cons_self _ _, hm⟩, ?_⟩
          intro p hp hpm
          rcases List.mem_cons.1 hp with rfl | hp
          · exact hf
          · exact h2 p hp hpm
        · rintro ⟨-, h2⟩
          exact ⟨Or.inl rfl, fun p hp hpm => h2 p (List.mem_cons_of_mem _ hp) hpm⟩
      · rw [if_neg (fun h => hf (hmem.1 h))]
        constructor
        · intro h
          exact absurd h (by simp)
        · rintro ⟨-, h2⟩
          exact absurd (h2 png (List.mem_cons_self _ _) hm) hf
    · rw [if_neg hm, ih]
      constructor
      · rintro ⟨h1, h2⟩
        refine ⟨?_, ?_⟩
        · rcases h1 with h1 | ⟨p, hp, hpm⟩
          · exact Or.inl h1
          · exact Or.inr ⟨p, List.mem_cons_of_mem _ hp, hpm⟩
        · intro p hp hpm
          rcases List.mem_cons.1 hp with rfl | hp
          · exact absurd hpm hm
          · exact h2 p hp hpm
      · rintro ⟨h1, h2⟩
        refine ⟨?_, fun p hp hpm => h2 p (List.mem_cons_of_mem _ hp) hpm⟩
        rcases h1 with h1 | ⟨p, hp, hpm⟩
        · exact Or.inl h1
        · rcases List.mem_cons.1 hp with rfl | hp
          · exact absurd hpm hm
          · exact Or.inr ⟨p, hp, hpm⟩

/-- For a key `<book>/<file>` that ends in `.png`, the hOCR name looked up by `allOCRed`
is the key with its final `.png` replaced by `.hocr`. -/
theorem hocrname_eq_siblingKey (bookname p : Str) (hk : IsBookKey bookname p)
    (hpng : ['.', 'p', 'n', 'g'] <:+ p) :
    bookname ++ ['/'] ++ TrimSuffix (Base p) ['.', 'p', 'n', 'g'] ++ ['.', 'h', 'o', 'c', 'r']
      = siblingKey p := by
  obtain ⟨file, hne, hs, rfl⟩ := hk
  rw [base_book_key bookname file hne hs]
  have hfile : ['.', 'p', 'n', 'g'] <:+ file :=
    suffix_of_suffix_slash bookname file _ (by decide) (by simpa using hpng)
  obtain ⟨t, rfl⟩ := hfile
  unfold siblingKey
  rw [trimSuffix_append]
  have : bookname ++ ['/'] ++ (t ++ ['.', 'p', 'n', 'g'])
      = (bookname ++ ['/'] ++ t) ++ ['.', 'p', 'n', 'g'] := by simp
  rw [this, trimSuffix_append]

/-! ## The fan-in check -/

/-- C1 (the code departs from the claim): the pattern compiled by `allOCRed` has unescaped
dots.  On the listing `b/p_bin0.1.png`, `b/p_bin0.1.hocr`, `b/q_bin0x1.png`, whose keys all
have the form `b/<file>`, the only key matching `_bin[0-9]\.[0-9]\.png$` has its sibling, so
the predicate of the claim holds, yet `allOCRed` returns false; on the listing
`b/q_bin0x1.png`, `b/q_bin0x1.hocr` no key matches, so the predicate of the claim fails, yet
`allOCRed` returns true. -/
theorem allOCRed_unescaped_dots :
    (∀ k ∈ [("b/p_bin0.1.png".toList), ("b/p_bin0.1.hocr".toList), ("b/q_bin0x1.png".toList)],
        IsBookKey ['b'] k) ∧
      specAllOCRed
        [("b/p_bin0.1.png".toList), ("b/p_bin0.1.hocr".toList), ("b/q_bin0x1.png".toList)] = true ∧
      (allOCRed memConn ['b']
        ⟨⟨[("b/p_bin0.1.png".toList), ("b/p_bin0.1.hocr".toList), ("b/q_bin0x1.png".toList)],
          [], [], []⟩, []⟩).1 = false ∧
      (∀ k ∈ [("b/q_bin0x1.png".toList), ("b/q_bin0x1.hocr".toList)], IsBookKey ['b'] k) ∧
      specAllOCRed [("b/q_bin0x1.png".toList), ("b/q_bin0x1.hocr".toList)] = false ∧
      (allOCRed memConn ['b']
        ⟨⟨[("b/q_bin0x1.png".toList), ("b/q_bin0x1.hocr".toList)], [], [], []⟩, []⟩).1 = true := by
  refine ⟨?_, by decide, by decide, ?_, by decide, by decide⟩
  · intro k hk
    simp only [List.mem_cons, List.mem_singleton, List.not_mem_nil, or_false] at hk
    rcases hk with rfl | rfl | rfl
    · exact ⟨("p_bin0.1.png".toList), by decide, by decide, by decide⟩
    · exact ⟨("p_bin0.1.hocr".toList), by decide, by decide, by decide⟩
    · exact ⟨("q_bin0x1.png".toList), by decide, by decide, by decide⟩
  · intro k hk
    simp only [List.mem_cons, List.mem_singleton, List.not_mem_nil, or_false] at hk
    rcases hk with rfl | rfl
    · exact ⟨("q_bin0x1.png".toList), by decide, by decide, by decide⟩
    · exact ⟨("q_bin0x1.hocr".toList), by decide, by decide, by decide⟩

/-- C10: when every key of the listing obtained by `allOCRed` has the form `<book>/<file>`
with no `/` in the file part (the file part may be empty, as in the directory marker
`<book>/`) and `allOCRed` returns true, every listed key matching `_bin[0-9]\.[0-9]\.png$`
has its sibling key (the final `.png` replaced by `.hocr`) in the listing. -/
theorem allOCRed_true_siblings {σ : Type} (conn : Pipeliner σ) (bookname : Str) (r : Run σ)
    (hkeys : ∀ k ∈ (conn.ListObjects conn.WIPStorageId bookname r.st).1.1,
      ∃ file : Str, '/' ∉ file ∧ k = bookname ++ ['/'] ++ file)
    (htrue : (allOCRed conn bookname r).1 = true) :
    ∀ p ∈ (conn.ListObjects conn.WIPStorageId bookname r.st).1.1,
      MatchString specVariantPattern p = true →
        siblingKey p ∈ (conn.ListObjects conn.WIPStorageId bookname r.st).1.1 := by
  intro p hp hm
  unfold allOCRed allOCRedOf at htrue
  simp only at htrue
  cases herr : (conn.ListObjects conn.WIPStorageId bookname r.st).1.2 with
  | some e => simp [herr] at htrue
  | none =>
    simp only [herr] at htrue
    have h := ((allOCRedLoop_eq_true bookname _ _ false).1 htrue).2 p hp
      (matchString_spec_imp p hm)
    have hpng := matchString_spec_png p hm
    obtain ⟨file, hs, hfile⟩ := hkeys p hp
    have hsuf : ['.', 'p', 'n', 'g'] <:+ file := by
      apply suffix_of_suffix_slash bookname file _ (by decide)
      rw [hfile] at hpng
      simpa using hpng
    have hne : file ≠ [] := by
      intro h0
      rw [h0] at hsuf
      simp at hsuf
    rw [hocrname_eq_siblingKey bookname p ⟨file, hne, hs, hfile⟩ hpng] at h
    exact h

/-- C10 at a concrete bucket: the directory marker `b/` and the book `b` with one variant
and its hOCR. -/
theorem allOCRed_true_siblings_witness :
    (allOCRed memConn ['b']
        ⟨⟨[("b/".toList), ("b/p_bin0.1.png".toList), ("b/p_bin0.1.hocr".toList)], [], [], []⟩,
          []⟩).1 = true ∧
      ∀ p ∈ (memConn.ListObjects memConn.WIPStorageId ['b']
          ⟨[("b/".toList), ("b/p_bin0.1.png".toList), ("b/p_bin0.1.hocr".toList)], [], [],
            []⟩).1.1,
        MatchString specVariantPattern p = true →
          siblingKey p ∈ (memConn.ListObjects memConn.WIPStorageId ['b']
            ⟨[("b/".toList), ("b/p_bin0.1.png".toList), ("b/p_bin0.1.hocr".toList)], [], [],
              []⟩).1.1 :=
  ⟨by decide,
   allOCRed_true_siblings memConn ['b']
    ⟨⟨[("b/".toList), ("b/p_bin0.1.png".toList), ("b/p_bin0.1.hocr".toList)], [], [], []⟩, []⟩
    (by
      intro k hk
      have hk2 : k = ("b/".toList) ∨ k = ("b/p_bin0.1.png".toList) ∨
          k = ("b/p_bin0.1.hocr".toList) := by
        revert hk
        have hl : (memConn.ListObjects memConn.WIPStorageId ['b']
            (⟨⟨[("b/".toList), ("b/p_bin0.1.png".toList), ("b/p_bin0.1.hocr".toList)], [], [],
              []⟩, []⟩ : Run Mem).st).1.1
            = [("b/".toList), ("b/p_bin0.1.png".toList), ("b/p_bin0.1.hocr".toList)] := by
          decide
        rw [hl]
        simp
      rcases hk2 with rfl | rfl | rfl
      · exact ⟨[], by decide, by decide⟩
      · exact ⟨("p_bin0.1.png".toList), by decide, by decide⟩
      · exact ⟨("p_bin0.1.hocr".toList), by decide, by decide⟩)
    (by decide)⟩

/-! ## The transition from the ocr-page queue to the analyse queue -/

/-- C2 (the code departs from the claim): the bucket of book `b` holds one binarized
variant, `b/a.png_bin0.1.png` (K = 1), and no hOCR.  `OcrPage` runs successfully on its
message with a non-empty `toQueue`: it returns no error and deletes the message.  `Ocr`
removed the first `.png` of the scratch path, so the hOCR is uploaded as
`b/a_bin0.1.png.hocr`, not as the sibling `b/a.png_bin0.1.hocr` that `allOCRed` looks for,
and no message is enqueued on the analyse queue.  (The same run for the variant
`b/a_bin0.1.png` uploads `b/a_bin0.1.hocr` and enqueues `b`.) -/
theorem ocrPage_png_in_stem :
    MatchString specVariantPattern ("b/a.png_bin0.1.png".toList) = true ∧
      (OcrPage memConn memHost (seqEngine memConn memHost)
        ⟨[], ("h1".toList), ("b/a.png_bin0.1.png eng".toList)⟩ (Ocr memHost ("eng".toList))
        memConn.OCRPageQueueId memConn.AnalyseQueueId
        ⟨⟨[("b/a.png_bin0.1.png".toList)], [], [], []⟩, []⟩).1 = none ∧
      (OcrPage memConn memHost (seqEngine memConn memHost)
        ⟨[], ("h1".toList), ("b/a.png_bin0.1.png eng".toList)⟩ (Ocr memHost ("eng".toList))
        memConn.OCRPageQueueId memConn.AnalyseQueueId
        ⟨⟨[("b/a.png_bin0.1.png".toList)], [], [], []⟩, []⟩).2.st =
        ⟨[("b/a.png_bin0.1.png".toList), ("b/a_bin0.1.png.hocr".toList)], [],
          [(memConn.OCRPageQueueId, ("h1".toList))], []⟩ ∧
      addCalls (OcrPage memConn memHost (seqEngine memConn memHost)
        ⟨[], ("h1".toList), ("b/a.png_bin0.1.png eng".toList)⟩ (Ocr memHost ("eng".toList))
        memConn.OCRPageQueueId memConn.AnalyseQueueId
        ⟨⟨[("b/a.png_bin0.1.png".toList)], [], [], []⟩, []⟩).2.calls = [] ∧
      (OcrPage memConn memHost (seqEngine memConn memHost)
        ⟨[], ("h1".toList), ("b/a_bin0.1.png eng".toList)⟩ (Ocr memHost ("eng".toList))
        memConn.OCRPageQueueId memConn.AnalyseQueueId
        ⟨⟨[("b/a_bin0.1.png".toList)], [], [], []⟩, []⟩).2.st =
        ⟨[("b/a_bin0.1.png".toList), ("b/a_bin0.1.hocr".toList)],
          [(memConn.AnalyseQueueId, ['b'])], [(memConn.OCRPageQueueId, ("h1".toList))], []⟩ := by
  refine ⟨by decide, by decide, by decide, by decide, by decide⟩

/-! ## The best variant of a page -/

/-- C3 (the code departs from the claim): one hOCR file with words, of confidence 0, is
given to `Analyse`.  The variant is recorded under the page base `p_0001`, both manifests
are written and emitted without error, but `var best float64` starts at 0 and the test is
`c.Conf > best`, so nothing is selected: `bestconfs` is empty and the `best` manifest has no
line for the page.  (With confidence 1 the manifest has the line of the variant.) -/
theorem analyse_zero_confidence :
    readConfs (fun _ => .ok 0) [("/tmp/b/p_0001_bin0.1.hocr".toList)] [] =
        .ok [(("p_0001".toList),
          [⟨("/tmp/b/p_0001_bin0.1.hocr".toList), ("_bin0.1.hocr".toList), 0⟩])] ∧
      (analyseManifests memHost (fun _ => .ok 0) id id [("/tmp/b/p_0001_bin0.1.hocr".toList)]
        ⟨⟨[], [], [], []⟩, []⟩).stop = none ∧
      (analyseManifests memHost (fun _ => .ok 0) id id [("/tmp/b/p_0001_bin0.1.hocr".toList)]
        ⟨⟨[], [], [], []⟩, []⟩).emitted = [("/tmp/b/conf".toList), ("/tmp/b/best".toList)] ∧
      (analyseManifests memHost (fun _ => .ok 0) id id [("/tmp/b/p_0001_bin0.1.hocr".toList)]
        ⟨⟨[], [], [], []⟩, []⟩).bestconfs = [] ∧
      linesWritten ("/tmp/b/best".toList)
        (analyseManifests memHost (fun _ => .ok 0) id id [("/tmp/b/p_0001_bin0.1.hocr".toList)]
          ⟨⟨[], [], [], []⟩, []⟩).run.calls = [] ∧
      linesWritten ("/tmp/b/best".toList)
        (analyseManifests memHost (fun _ => .ok 1) id id [("/tmp/b/p_0001_bin0.1.hocr".toList)]
          ⟨⟨[], [], [], []⟩, []⟩).run.calls = [("p_0001_bin0.1.hocr\n".toList)] := by
  refine ⟨by rfl, by decide, by decide, by decide, by decide, by decide⟩

theorem mem_mapSet (m : List (Str × Conf)) (base : Str) (c : Conf) (k : Str) (v : Conf)
    (h : (k, v) ∈ mapSet m base c) : (k, v) = (base, c) ∨ (k, v) ∈ m := by
  induction m with
  | nil =>
    simp only [mapSet, List.mem_singleton] at h
    exact Or.inl h
  | cons e rest ih =>
    obtain ⟨k', v'⟩ := e
    simp only [mapSet] at h
    by_cases hk : k' = base
    · rw [if_pos hk] at h
      rcases List.mem_cons.1 h with h | h
      · left
        rw [h, hk]
      · exact Or.inr (List.mem_cons_of_mem _ h)
    · rw [if_neg hk] at h
      rcases List.mem_cons.1 h with h | h
      · exact Or.inr (h ▸ List.mem_cons_self _ _)
      · rcases ih h with h | h
        · exact Or.inl h
        · exact Or.inr (List.mem_cons_of_mem _ h)

theorem mapSet_mapSet (m : List (Str × Conf)) (base : Str) (c c' : Conf) :
    mapSet (mapSet m base c) base c' = mapSet m base c' := by
  induction m with
  | nil => simp [mapSet]
  | cons e rest ih =>
    obtain ⟨k', v'⟩ := e
    by_cases hk : k' = base
    · simp [mapSet, hk]
    · simp [mapSet, hk, ih]

theorem mapAppend_keys (m : List (Str × List Conf)) (name : Str) (c : Conf) :
    (mapAppend m name c).map Prod.fst =
      if name ∈ m.map Prod.fst then m.map Prod.fst else m.map Prod.fst ++ [name] := by
  induction m with
  | nil => simp [mapAppend]
  | cons e rest ih =>
    obtain ⟨k, v⟩ := e
    by_cases hk : k = name
    · simp [mapAppend, hk]
    · have hk' : ¬ name = k := fun h => hk h.symm
      simp only [mapAppend, if_neg hk, List.map_cons, ih, List.mem_cons, hk', false_or]
      by_cases hm : name ∈ rest.map Prod.fst
      · simp only [List.mem_map] at hm
        simp [hm]
      · simp only [List.mem_map] at hm
        simp [hm]

theorem mapAppend_nodup (m : List (Str × List Conf)) (name : Str) (c : Conf)
    (h : (m.map Prod.fst).Nodup) : ((mapAppend m name c).map Prod.fst).Nodup := by
  rw [mapAppend_keys]
  by_cases hm : name ∈ m.map Prod.fst
  · rw [if_pos hm]
    exact h
  · rw [if_neg hm]
    exact List.Nodup.append h (List.nodup_singleton _) (by
      intro x hx hx'
      rw [List.mem_singleton] at hx'
      exact hm (hx' ▸ hx))

theorem readConfs_nodup (GetAvgConf : Str → AvgConf) (toanalyse : List Str)
    (confs out : List (Str × List Conf)) (h : (confs.map Prod.fst).Nodup)
    (hr : readConfs GetAvgConf toanalyse confs = .ok out) : (out.map Prod.fst).Nodup := by
  induction toanalyse generalizing confs with
  | nil =>
    simp only [readConfs, Except.ok.injEq] at hr
    exact hr ▸ h
  | cons path rest ih =>
    rw [readConfs] at hr
    split at hr
    · exact ih confs h hr
    · exact absurd hr (by simp)
    · simp only at hr
      split at hr
      · exact ih _ (mapAppend_nodup _ _ _ h) hr
      · exact absurd hr (by simp)

/-- The inner selection loop, when all its writes succeed: either no variant exceeds the
running `best`, or the entry of the page is the first variant of greatest confidence. -/
theorem saveConfsPage_ok {σ : Type} (host : Host σ) (fn base : Str) (conf : List Conf)
    (best : ℚ) (b b' : List (Str × Conf)) (r r' : Run σ)
    (h : saveConfsPage host fn base conf best b r = (.ok b', r')) :
    (b' = b ∧ ∀ v ∈ conf, v.Conf ≤ best) ∨
      ∃ c ∈ conf, b' = mapSet b base c ∧ best < c.Conf ∧ ∀ v ∈ conf, v.Conf ≤ c.Conf := by
  induction conf generalizing best b r with
  | nil =>
    simp only [saveConfsPage, Prod.mk.injEq, Except.ok.injEq] at h
    exact Or.inl ⟨h.1.symm, by simp⟩
  | cons c conf ih =>
    rw [saveConfsPage] at h
    split at h
    · exact absurd h (by simp)
    · by_cases hc : c.Conf > best
      · simp only [if_pos hc] at h
        right
        rcases ih _ _ _ h with ⟨hb, hall⟩ | ⟨c', hc', hb, hlt, hall⟩
        · refine ⟨c, List.mem_cons_self _ _, hb, hc, ?_⟩
          intro v hv
          rcases List.mem_cons.1 hv with rfl | hv
          · exact le_refl _
          · exact hall v hv
        · refine ⟨c', List.mem_cons_of_mem _ hc', ?_, lt_trans hc hlt, ?_⟩
          · rw [hb, mapSet_mapSet]
          · intro v hv
            rcases List.mem_cons.1 hv with rfl | hv
            · exact le_of_lt hlt
            · exact hall v hv
      · simp only [if_neg hc] at h
        have hle : c.Conf ≤ best := not_lt.1 hc
        rcases ih _ _ _ h with ⟨hb, hall⟩ | ⟨c', hc', hb, hlt, hall⟩
        · left
          refine ⟨hb, ?_⟩
          intro v hv
          rcases List.mem_cons.1 hv with rfl | hv
          · exact hle
          · exact hall v hv
        · right
          refine ⟨c', List.mem_cons_of_mem _ hc', hb, hlt, ?_⟩
          intro v hv
          rcases List.mem_cons.1 hv with rfl | hv
          · exact le_trans hle (le_of_lt hlt)
          · exact hall v hv

/-- The selection loop over the pages, when all its writes succeed: every entry of the
result was there before or is a variant of greatest confidence of a page visited. -/
theorem saveConfs_ok {σ : Type} (host : Host σ) (fn : Str) (entries : List (Str × List Conf))
    (b b' : List (Str × Conf)) (r r' : Run σ)
    (h : saveConfs host fn entries b r = (.ok b', r')) (k : Str) (c : Conf)
    (hk : (k, c) ∈ b') :
    (k, c) ∈ b ∨ ∃ vs, (k, vs) ∈ entries ∧ c ∈ vs ∧ ∀ v ∈ vs, v.Conf ≤ c.Conf := by
  induction entries generalizing b r with
  | nil =>
    simp only [saveConfs, Prod.mk.injEq, Except.ok.injEq] at h
    exact Or.inl (h.1 ▸ hk)
  | cons e rest ih =>
    obtain ⟨base, conf⟩ := e
    rw [saveConfs] at h
    split at h
    · exact absurd h (by simp)
    · rename_i b1 r1 hpage
      rcases ih _ _ h with hin | ⟨vs, hvs, hc, hall⟩
      · rcases saveConfsPage_ok host fn base conf 0 b b1 r r1 hpage with
          ⟨hb, -⟩ | ⟨c', hc', hb, -, hall⟩
        · exact Or.inl (hb ▸ hin)
        · rw [hb] at hin
          rcases mem_mapSet _ _ _ _ _ hin with heq | hin
          · right
            simp only [Prod.mk.injEq] at heq
            exact ⟨conf, heq.1 ▸ List.mem_cons_self _ _, heq.2 ▸ hc', heq.2 ▸ hall⟩
          · exact Or.inl hin
      · exact Or.inr ⟨vs, List.mem_cons_of_mem _ hvs, hc, hall⟩

theorem analyseManifests_bestconfs {σ : Type} (host : Host σ) (GetAvgConf : Str → AvgConf)
    (rangeConfs : List (Str × List Conf) → List (Str × List Conf))
    (rangeBest : List (Str × Conf) → List (Str × Conf)) (toanalyse : List Str) (r : Run σ)
    (k : Str) (c : Conf)
    (h : (k, c) ∈ (analyseManifests host GetAvgConf rangeConfs rangeBest toanalyse r).bestconfs) :
    ∃ confs fn r1 r2, readConfs GetAvgConf toanalyse [] = .ok confs ∧
      saveConfs host fn (rangeConfs confs) [] r1 =
        (.ok (analyseManifests host GetAvgConf rangeConfs rangeBest toanalyse r).bestconfs, r2) := by
  unfold analyseManifests at h ⊢
  split at h
  · exact absurd h (by simp)
  · rename_i confs hread
    dsimp only at h ⊢
    split at h
    · exact absurd h (by simp)
    · rename_i r1 hcreate
      split at h
      · exact absurd h (by simp)
      · rename_i bestconfs r2 hsave
        refine ⟨confs, filepathJoin [savedirOf toanalyse, "conf".toList], r1, r2, hread, ?_⟩
        split <;> exact hsave

/-- C4: every entry `(b, c)` of the BestSet left by the selection loop of `Analyse` is one
of the variants recorded under the page base `b` (the one list of variants the map `confs`
holds for `b`), and its confidence is at least that of every variant recorded under `b`;
this whatever the order in which the maps are ranged over. -/
theorem analyse_best_is_max {σ : Type} (host : Host σ) (GetAvgConf : Str → AvgConf)
    (rangeConfs : List (Str × List Conf) → List (Str × List Conf))
    (rangeBest : List (Str × Conf) → List (Str × Conf))
    (hrange : ∀ l, (rangeConfs l).Perm l) (toanalyse : List Str) (r : Run σ)
    (b : Str) (c : Conf)
    (h : (b, c) ∈ (analyseManifests host GetAvgConf rangeConfs rangeBest toanalyse r).bestconfs) :
    ∃ confs variants, readConfs GetAvgConf toanalyse [] = .ok confs ∧
      (b, variants) ∈ confs ∧ (∀ vs, (b, vs) ∈ confs → vs = variants) ∧
      c ∈ variants ∧ ∀ v ∈ variants, v.Conf ≤ c.Conf := by
  obtain ⟨confs, fn, r1, r2, hread, hsave⟩ :=
    analyseManifests_bestconfs host GetAvgConf rangeConfs rangeBest toanalyse r b c h
  rcases saveConfs_ok host fn _ _ _ r1 r2 hsave b c h with hnil | ⟨vs, hvs, hc, hall⟩
  · exact absurd hnil (by simp)
  · have hmem : (b, vs) ∈ confs := (hrange confs).mem_iff.1 hvs
    have hnodup : (confs.map Prod.fst).Nodup :=
      readConfs_nodup GetAvgConf toanalyse [] confs (by simp) hread
    refine ⟨confs, vs, hread, hmem, ?_, hc, hall⟩
    intro vs' hvs'
    have := List.inj_on_of_nodup_map hnodup hvs' hmem rfl
    exact (Prod.mk.inj this).2

/-- C4 at a concrete input: a page with the variants of confidence 55 and 81. -/
theorem analyse_best_is_max_witness :
    (("p_0002".toList), (⟨("/tmp/b/p_0002_bin0.2.hocr".toList), ("_bin0.2.hocr".toList), 81⟩ : Conf)) ∈
        (analyseManifests memHost
          (fun p => if p = ("/tmp/b/p_0002_bin0.2.hocr".toList) then .ok 81 else .ok 55) id id
          [("/tmp/b/p_0002_bin0.1.hocr".toList), ("/tmp/b/p_0002_bin0.2.hocr".toList)]
          ⟨⟨[], [], [], []⟩, []⟩).bestconfs ∧
      ∃ confs variants,
        readConfs (fun p => if p = ("/tmp/b/p_0002_bin0.2.hocr".toList) then .ok 81 else .ok 55)
          [("/tmp/b/p_0002_bin0.1.hocr".toList), ("/tmp/b/p_0002_bin0.2.hocr".toList)] []
            = .ok confs ∧
        (("p_0002".toList), variants) ∈ confs ∧
        (∀ vs, (("p_0002".toList), vs) ∈ confs → vs = variants) ∧
        (⟨("/tmp/b/p_0002_bin0.2.hocr".toList), ("_bin0.2.hocr".toList), 81⟩ : Conf) ∈ variants ∧
        ∀ v ∈ variants, v.Conf ≤ 81 :=
  ⟨by decide,
   analyse_best_is_max memHost
    (fun p => if p = ("/tmp/b/p_0002_bin0.2.hocr".toList) then .ok 81 else .ok 55) id id
    (fun l => List.Perm.refl l)
    [("/tmp/b/p_0002_bin0.1.hocr".toList), ("/tmp/b/p_0002_bin0.2.hocr".toList)]
    ⟨⟨[], [], [], []⟩, []⟩ ("p_0002".toList)
    ⟨("/tmp/b/p_0002_bin0.2.hocr".toList), ("_bin0.2.hocr".toList), 81⟩ (by decide)⟩

/-! ## The queue protocol of the drivers -/

theorem protocol_append (a b : List Call) : protocol (a ++ b) = protocol a ++ protocol b := by
  induction a with
  | nil => rfl
  | cons c cs ih => cases c <;> simp [protocol, ih]

theorem addCalls_append (a b : List Call) : addCalls (a ++ b) = addCalls a ++ addCalls b := by
  induction a with
  | nil => rfl
  | cons c cs ih => cases c <;> simp [addCalls, ih]

theorem delCalls_append (a b : List Call) : delCalls (a ++ b) = delCalls a ++ delCalls b := by
  induction a with
  | nil => rfl
  | cons c cs ih => cases c <;> simp [delCalls, ih]

theorem addCalls_protocol (a : List Call) : addCalls (protocol a) = addCalls a := by
  induction a with
  | nil => rfl
  | cons c cs ih => cases c <;> simp [addCalls, protocol, ih]

theorem delCalls_protocol (a : List Call) : delCalls (protocol a) = delCalls a := by
  induction a with
  | nil => rfl
  | cons c cs ih => cases c <;> simp [delCalls, protocol, ih]

theorem mem_of_mem_protocol (a : List Call) (c : Call) (h : c ∈ protocol a) : c ∈ a := by
  induction a with
  | nil => simp [protocol] at h
  | cons x xs ih =>
    cases x <;> simp only [protocol, List.mem_cons] at h ⊢ <;>
      first
        | exact Or.inr (ih h)
        | (rcases h with h | h
           · exact Or.inl h
           · exact Or.inr (ih h))

theorem selected_mem_protocol (a : List Call) (s : Sel) (h : Call.selected s ∈ a) :
    Call.selected s ∈ protocol a := by
  induction a with
  | nil => simp at h
  | cons x xs ih =>
    rcases List.mem_cons.1 h with h1 | h2
    · subst h1
      simp [protocol]
    · have h3 := ih h2
      cases x <;> simp [protocol, h3]

theorem step_fst {σ : Type} (r : Run σ) (f : σ → Option Err × σ) (c : Bool → Call) :
    (r.step f c).1 = (f r.st).1 := rfl

theorem step_calls {σ : Type} (r : Run σ) (f : σ → Option Err × σ) (c : Bool → Call) :
    (r.step f c).2.calls = r.calls ++ [c (f r.st).1.isNone] := rfl

theorem step_eq {σ : Type} {r r1 : Run σ} {f : σ → Option Err × σ} {c : Bool → Call}
    {e : Option Err} (h : r.step f c = (e, r1)) :
    r1.calls = r.calls ++ [c e.isNone] := by
  have h1 : (r.step f c).1 = e := by rw [h]
  have h2 : (r.step f c).2 = r1 := by rw [h]
  rw [← h2, ← h1]
  rfl

/-- The end of both drivers makes exactly one queue call, the deletion with the handle of
the rotated message when there is one, and returns no error only if the deletion and the
removal of the scratch directory succeeded. -/
theorem deleteAndCleanup_protocol {σ : Type} (conn : Pipeliner σ) (host : Host σ) (msg : Qmsg)
    (msgc : Option Qmsg) (fromQueue d : Str) (r : Run σ) :
    ∃ okD, protocol (deleteAndCleanup conn host msg msgc fromQueue d r).2.calls =
        protocol r.calls ++ [.delFromQueue fromQueue (msgc.getD msg).Handle okD] ∧
      ((deleteAndCleanup conn host msg msgc fromQueue d r).1 = none → okD = true) := by
  have hmsg : (match msgc with | some m => m | none => msg) = msgc.getD msg := by
    cases msgc <;> rfl
  unfold deleteAndCleanup
  simp only [hmsg]
  split
  · rename_i err r1 hdel
    refine ⟨false, ?_, by simp⟩
    simp [step_calls, step_eq hdel, protocol_append, protocol]
  · rename_i r1 hdel
    split
    · rename_i err r2 hrm
      refine ⟨true, ?_, by simp⟩
      simp [step_eq hrm, step_eq hdel, protocol_append, protocol]
    · rename_i r2 hrm
      refine ⟨true, ?_, by simp⟩
      simp [step_eq hrm, step_eq hdel, protocol_append, protocol]

theorem allOCRed_fst {σ : Type} (conn : Pipeliner σ) (bookname : Str) (r : Run σ) :
    (allOCRed conn bookname r).1 = (allOCRed conn bookname ⟨r.st, []⟩).1 := rfl

theorem allOCRed_calls {σ : Type} (conn : Pipeliner σ) (bookname : Str) (r : Run σ) :
    protocol (allOCRed conn bookname r).2.calls = protocol r.calls := by
  simp [allOCRed, protocol_append, protocol]

/-- The queue protocol of `OcrPage`, started with an empty log: nothing when the scratch
directory cannot be made; the receipt of an error alone; or the receipt of `done`, then
the enqueueing of the book name exactly when `allOCRed` holds and `toQueue` is not empty,
then the deletion unless the enqueueing failed. -/
theorem ocrPage_protocol {σ : Type} (conn : Pipeliner σ) (host : Host σ) (engine : Engine σ)
    (msg : Qmsg) (process : Transform σ) (fromQueue toQueue : Str) (st : σ) :
    ((host.MkdirAll (filepathJoin [host.TempDir, ocrPageBook msg]) st).1 ≠ none ∧
        protocol (OcrPage conn host engine msg process fromQueue toQueue ⟨st, []⟩).2.calls = [] ∧
        (OcrPage conn host engine msg process fromQueue toQueue ⟨st, []⟩).1 ≠ none) ∨
      ((host.MkdirAll (filepathJoin [host.TempDir, ocrPageBook msg]) st).1 = none ∧
        ((∃ e, (ocrPageJob host engine msg process fromQueue st).sel = .errc e ∧
            (OcrPage conn host engine msg process fromQueue toQueue ⟨st, []⟩).1 = some e ∧
            protocol (OcrPage conn host engine msg process fromQueue toQueue ⟨st, []⟩).2.calls
              = [.selected (.errc e)]) ∨
          ((ocrPageJob host engine msg process fromQueue st).sel = .done ∧
            ∃ okA okD,
              protocol (OcrPage conn host engine msg process fromQueue toQueue ⟨st, []⟩).2.calls
                = .selected .done ::
                  ((if (allOCRed conn (ocrPageBook msg)
                        ⟨(ocrPageJob host engine msg process fromQueue st).st, []⟩).1 = true
                      ∧ toQueue ≠ []
                    then [.addToQueue toQueue (ocrPageBook msg) okA] else []) ++
                   (if okA = true then
                      [.delFromQueue fromQueue
                        (((ocrPageJob host engine msg process fromQueue st).msgc).getD msg).Handle
                        okD]
                    else [])) ∧
              ((OcrPage conn host engine msg process fromQueue toQueue ⟨st, []⟩).1 = none →
                okA = true ∧ okD = true)))) := by
  unfold OcrPage
  simp only
  split
  · rename_i err r1 hmk
    left
    have h1 : (host.MkdirAll (filepathJoin [host.TempDir, ocrPageBook msg]) st).1 = some err :=
      congrArg Prod.fst hmk
    refine ⟨by rw [h1]; simp, ?_, by simp⟩
    simp [step_eq hmk, protocol]
  · rename_i r1 hmk
    right
    have h1 : (host.MkdirAll (filepathJoin [host.TempDir, ocrPageBook msg]) st).1 = none :=
      congrArg Prod.fst hmk
    have hst : r1.st = (host.MkdirAll (filepathJoin [host.TempDir, ocrPageBook msg]) st).2 :=
      (congrArg (fun x => x.2.st) hmk).symm
    have hcalls := step_eq hmk
    refine ⟨h1, ?_⟩
    have hjob : engine (.up (Dir ((Split msg.Body ' ').headD [])))
        (if 1 < (Split msg.Body ' ').length ∧ (Split msg.Body ' ').getD 1 [] ≠ [] then
          Ocr host ((Split msg.Body ' ').getD 1 []) else process)
        [(Split msg.Body ' ').headD []]
        (filepathJoin [host.TempDir, Dir ((Split msg.Body ' ').headD [])]) msg fromQueue r1.st
        = ocrPageJob host engine msg process fromQueue st := by
      rw [hst]
      rfl
    simp only [hjob]
    generalize ocrPageJob host engine msg process fromQueue st = out
    split
    · rename_i e hsel
      left
      refine ⟨e, hsel, rfl, ?_⟩
      simp [step_calls, hcalls, protocol_append, protocol, hsel]
    · rename_i hsel
      right
      refine ⟨hsel, ?_⟩
      have hoc : ∀ cs, (allOCRed conn (Dir ((Split msg.Body ' ').headD [])) ⟨out.st, cs⟩).1
          = (allOCRed conn (ocrPageBook msg) ⟨out.st, []⟩).1 := fun _ => rfl
      simp only [hoc]
      by_cases hcond : (allOCRed conn (ocrPageBook msg) ⟨out.st, []⟩).1 = true ∧ toQueue ≠ []
      · simp only [if_pos hcond]
        split
        · rename_i err r4 hadd
          refine ⟨false, true, ?_, by simp⟩
          simp [step_calls, step_eq hadd, allOCRed_calls, hcalls, protocol_append, protocol,
            ocrPageBook, hsel]
        · rename_i r4 hadd
          obtain ⟨okD, hp, hres⟩ := deleteAndCleanup_protocol conn host msg out.msgc fromQueue
            (filepathJoin [host.TempDir, Dir ((Split msg.Body ' ').headD [])]) r4
          refine ⟨true, okD, ?_, fun h => ⟨rfl, hres h⟩⟩
          rw [hp]
          simp [step_eq hadd, allOCRed_calls, hcalls, protocol_append, protocol, ocrPageBook, hsel]
      · simp only [if_neg hcond]
        obtain ⟨okD, hp, hres⟩ := deleteAndCleanup_protocol conn host msg out.msgc fromQueue
          (filepathJoin [host.TempDir, Dir ((Split msg.Body ' ').headD [])])
          (allOCRed conn (Dir ((Split msg.Body ' ').headD []))
            ⟨out.st, r1.calls ++ [.started (.up (Dir ((Split msg.Body ' ').headD []))),
              .selected out.sel]⟩).2
        refine ⟨true, okD, ?_, fun h => ⟨rfl, hres h⟩⟩
        rw [hp]
        simp [allOCRed_calls, hcalls, protocol_append, protocol, hsel]

theorem deleteAndCleanup_mem {σ : Type} (conn : Pipeliner σ) (host : Host σ) (msg : Qmsg)
    (msgc : Option Qmsg) (fromQueue d : Str) (r : Run σ) (c : Call) (h : c ∈ r.calls) :
    c ∈ (deleteAndCleanup conn host msg msgc fromQueue d r).2.calls := by
  unfold deleteAndCleanup
  simp only
  split
  · rename_i err r1 hdel
    simp [step_calls, step_eq hdel, h]
  · rename_i r1 hdel
    split
    · rename_i err r2 hrm
      simp [step_eq hrm, step_eq hdel, h]
    · rename_i r2 hrm
      simp [step_eq hrm, step_eq hdel, h]

theorem poisonCleanup_mem {σ : Type} (conn : Pipeliner σ) (host : Host σ) (msg : Qmsg)
    (bookname fromQueue : Str) (err : Err) (r : Run σ) (c : Call) (h : c ∈ r.calls) :
    c ∈ (poisonCleanup conn host msg bookname fromQueue err r).calls := by
  unfold poisonCleanup
  split
  · simp only
    split
    · simp [step_calls, h]
    · split
      · simp [step_calls, h]
      · simp [step_calls, h]
  · exact h

/-- The error branch of `ProcessBook` deletes the message exactly when it came from the
preprocess or the wipe queue, with the handle it was received with. -/
theorem poisonCleanup_protocol {σ : Type} (conn : Pipeliner σ) (host : Host σ) (msg : Qmsg)
    (bookname fromQueue : Str) (err : Err) (r : Run σ) :
    ∃ okD, protocol (poisonCleanup conn host msg bookname fromQueue err r).calls =
      protocol r.calls ++
        (if fromQueue = conn.PreQueueId ∨ fromQueue = conn.WipeQueueId then
          [.delFromQueue fromQueue msg.Handle okD] else []) := by
  unfold poisonCleanup
  by_cases hq : fromQueue = conn.PreQueueId ∨ fromQueue = conn.WipeQueueId
  · simp only [if_pos hq]
    refine ⟨(conn.DelFromQueue fromQueue msg.Handle r.st).1.isNone, ?_⟩
    split
    · simp [step_calls, protocol_append, protocol]
    · split
      · simp [step_calls, protocol_append, protocol]
      · simp [step_calls, protocol_append, protocol]
  · simp only [if_neg hq]
    exact ⟨true, by simp⟩

/-- The queue protocol of `ProcessBook`, started with an empty log: nothing when the
scratch directory cannot be made or the bucket cannot be listed; the receipt of an error,
followed by the deletion exactly for the preprocess and wipe queues; or the receipt of
`done`, then the enqueueing of the book name exactly when `toQueue` is neither empty nor
the ocr-page queue, then the deletion unless the enqueueing failed.  Whenever the `select`
is reached, the uploader started is the one given by `uploaderFor`. -/
theorem processBook_protocol {σ : Type} (conn : Pipeliner σ) (host : Host σ)
    (engine : Engine σ) (msg : Qmsg) (process : Transform σ) (matchRe : Str → Bool)
    (fromQueue toQueue : Str) (st : σ) :
    (protocol (ProcessBook conn host engine msg process matchRe fromQueue toQueue
          ⟨st, []⟩).2.calls = [] ∧
        (ProcessBook conn host engine msg process matchRe fromQueue toQueue ⟨st, []⟩).1 ≠ none) ∨
      (.started (uploaderFor conn toQueue (processBookName msg) (processBookTraining msg)) ∈
          (ProcessBook conn host engine msg process matchRe fromQueue toQueue ⟨st, []⟩).2.calls ∧
        ((∃ e okD,
            (ProcessBook conn host engine msg process matchRe fromQueue toQueue ⟨st, []⟩).1
              = some e ∧
            protocol (ProcessBook conn host engine msg process matchRe fromQueue toQueue
                ⟨st, []⟩).2.calls
              = .selected (.errc e) ::
                  (if fromQueue = conn.PreQueueId ∨ fromQueue = conn.WipeQueueId then
                    [.delFromQueue fromQueue msg.Handle okD] else [])) ∨
          (∃ m okA okD,
            protocol (ProcessBook conn host engine msg process matchRe fromQueue toQueue
                ⟨st, []⟩).2.calls
              = .selected .done ::
                  ((if toQueue ≠ [] ∧ toQueue ≠ conn.OCRPageQueueId then
                      [.addToQueue toQueue (processBookName msg) okA] else []) ++
                   (if okA = true then [.delFromQueue fromQueue (Option.getD m msg).Handle okD]
                    else [])) ∧
            ((ProcessBook conn host engine msg process matchRe fromQueue toQueue ⟨st, []⟩).1
                = none → okA = true ∧ okD = true)))) := by
  unfold ProcessBook
  simp only
  split
  · rename_i err r1 hmk
    left
    refine ⟨?_, by simp⟩
    simp [step_eq hmk, protocol]
  · rename_i r1 hmk
    have hcalls := step_eq hmk
    split
    · rename_i err hls
      left
      refine ⟨?_, by simp⟩
      simp [step_calls, hcalls, protocol_append, protocol]
    · rename_i hls
      right
      generalize engine _ _ _ _ _ _ _ = out
      split
      · rename_i e hsel
        refine ⟨?_, Or.inl ?_⟩
        · apply poisonCleanup_mem
          simp [step_calls, processBookName, processBookTraining]
        · obtain ⟨okD, hp⟩ := poisonCleanup_protocol conn host msg
            ((Split msg.Body ' ').headD []) fromQueue e
            ((⟨out.st, (r1.calls ++ [.started (uploaderFor conn toQueue
                ((Split msg.Body ' ').headD [])
                (if 1 < (Split msg.Body ' ').length then (Split msg.Body ' ').getD 1 [] else [])),
              .listObjects conn.WIPStorageId ((Split msg.Body ' ').headD [])
                (conn.ListObjects conn.WIPStorageId ((Split msg.Body ' ').headD [])
                  r1.st).1.2.isNone]) ++ [.selected out.sel]⟩ : Run σ).step
              (host.RemoveAll (filepathJoin [host.TempDir, (Split msg.Body ' ').headD []]))
              (.removeAll (filepathJoin [host.TempDir, (Split msg.Body ' ').headD []]))).2
          refine ⟨e, okD, rfl, ?_⟩
          rw [hp]
          simp [step_calls, hcalls, protocol_append, protocol, hsel]
      · rename_i hsel
        by_cases hcond : toQueue ≠ [] ∧ toQueue ≠ conn.OCRPageQueueId
        · simp only [if_pos hcond]
          split
          · rename_i err r4 hadd
            refine ⟨?_, Or.inr ⟨none, false, true, ?_, by simp⟩⟩
            · simp [step_calls, step_eq hadd, processBookName, processBookTraining]
            · simp [step_calls, step_eq hadd, hcalls, protocol_append, protocol,
                processBookName, hsel]
          · rename_i r4 hadd
            obtain ⟨okD, hp, hres⟩ := deleteAndCleanup_protocol conn host msg out.msgc fromQueue
              (filepathJoin [host.TempDir, (Split msg.Body ' ').headD []]) r4
            refine ⟨?_, Or.inr ⟨out.msgc, true, okD, ?_, fun h => ⟨rfl, hres h⟩⟩⟩
            · apply deleteAndCleanup_mem
              simp [step_eq hadd, processBookName, processBookTraining]
            · rw [hp]
              simp [step_eq hadd, hcalls, protocol_append, protocol, processBookName, hsel]
        · simp only [if_neg hcond]
          obtain ⟨okD, hp, hres⟩ := deleteAndCleanup_protocol conn host msg out.msgc fromQueue
            (filepathJoin [host.TempDir, (Split msg.Body ' ').headD []])
            ⟨out.st, (r1.calls ++ [.started (uploaderFor conn toQueue
                ((Split msg.Body ' ').headD [])
                (if 1 < (Split msg.Body ' ').length then (Split msg.Body ' ').getD 1 [] else [])),
              .listObjects conn.WIPStorageId ((Split msg.Body ' ').headD [])
                (conn.ListObjects conn.WIPStorageId ((Split msg.Body ' ').headD [])
                  r1.st).1.2.isNone]) ++ [.selected out.sel]⟩
          refine ⟨?_, Or.inr ⟨out.msgc, true, okD, ?_, fun h => ⟨rfl, hres h⟩⟩⟩
          · apply deleteAndCleanup_mem
            simp [processBookName, processBookTraining]
          · rw [hp]
            simp [hcalls, protocol_append, protocol, hsel]

/-! ## The upload-and-enqueue uploader -/

theorem enqueued_append (a b : List Call) : enqueued (a ++ b) = enqueued a ++ enqueued b := by
  induction a with
  | nil => rfl
  | cons c cs ih =>
    cases c with
    | addToQueue url msg ok => cases ok <;> simp [enqueued, ih]
    | _ => simp [enqueued, ih]

theorem uploaded_append (a b : List Call) : uploaded (a ++ b) = uploaded a ++ uploaded b := by
  induction a with
  | nil => rfl
  | cons c cs ih =>
    cases c with
    | upload bucket key path ok => cases ok <;> simp [uploaded, ih]
    | _ => simp [uploaded, ih]

/-- The log of `upAndQueue`: the complete iterations of all paths and `done`, or the
complete iterations of the paths before some path, a failing iteration for that path, and
its error. -/
theorem upAndQueue_trace {σ : Type} (conn : Pipeliner σ) (host : Host σ)
    (toQueue bookname training : Str) (c : List Str) (r : Run σ) :
    ((upAndQueue conn host toQueue bookname training c r).1 = .done ∧
        (upAndQueue conn host toQueue bookname training c r).2.calls =
          r.calls ++ c.flatMap (stepCalls conn toQueue bookname training)) ∨
      ∃ pre p post e bad, c = pre ++ p :: post ∧
        (upAndQueue conn host toQueue bookname training c r).1 = .errc e ∧
        bad ∈ failedStepCalls conn toQueue bookname training p ∧
        (upAndQueue conn host toQueue bookname training c r).2.calls =
          r.calls ++ pre.flatMap (stepCalls conn toQueue bookname training) ++ bad := by
  induction c generalizing r with
  | nil =>
    left
    simp [upAndQueue]
  | cons path c ih =>
    rw [upAndQueue]
    split
    · rename_i err r1 hup
      right
      refine ⟨[], path, c, err, _, rfl, rfl, List.mem_cons_self _ _, ?_⟩
      simp [step_eq hup]
    · rename_i r1 hup
      split
      · rename_i err r2 hrm
        right
        refine ⟨[], path, c, err, _, rfl, rfl,
          List.mem_cons_of_mem _ (List.mem_cons_self _ _), ?_⟩
        simp [step_eq hup, step_eq hrm]
      · rename_i r2 hrm
        split
        · rename_i err r3 hadd
          right
          refine ⟨[], path, c, err, _, rfl, rfl,
            List.mem_cons_of_mem _ (List.mem_cons_of_mem _ (List.mem_cons_self _ _)), ?_⟩
          simp [step_eq hup, step_eq hrm, step_eq hadd]
        · rename_i r3 hadd
          have hr3 : r3.calls = r.calls ++ stepCalls conn toQueue bookname training path := by
            simp [step_eq hup, step_eq hrm, step_eq hadd, stepCalls]
          rcases ih r3 with ⟨hd, hc⟩ | ⟨pre, p, post, e, bad, hcp, he, hbad, hc⟩
          · left
            refine ⟨hd, ?_⟩
            rw [hc, hr3]
            simp [List.flatMap_cons]
          · right
            refine ⟨path :: pre, p, post, e, bad, by rw [hcp]; rfl, he, hbad, ?_⟩
            rw [hc, hr3]
            simp [List.flatMap_cons]

theorem enqueued_stepCalls {σ : Type} (conn : Pipeliner σ) (toQueue bookname training : Str)
    (c : List Str) :
    enqueued (c.flatMap (stepCalls conn toQueue bookname training)) =
      c.map (fun p => (toQueue, bookname ++ ['/'] ++ Base p ++ [' '] ++ training)) := by
  induction c with
  | nil => rfl
  | cons p c ih =>
    rw [List.flatMap_cons, enqueued_append, ih]
    simp [stepCalls, enqueued]

theorem uploaded_stepCalls {σ : Type} (conn : Pipeliner σ) (toQueue bookname training : Str)
    (c : List Str) :
    uploaded (c.flatMap (stepCalls conn toQueue bookname training)) =
      c.map (fun p => (bookname ++ ['/'] ++ Base p, p)) := by
  induction c with
  | nil => rfl
  | cons p c ih =>
    rw [List.flatMap_cons, uploaded_append, ih]
    simp [stepCalls, uploaded]

theorem ok_stepCalls {σ : Type} (conn : Pipeliner σ) (toQueue bookname training : Str)
    (c : List Str) :
    (c.flatMap (stepCalls conn toQueue bookname training)).filter (fun x => !x.ok) = [] := by
  induction c with
  | nil => rfl
  | cons p c ih =>
    rw [List.flatMap_cons, List.filter_append, ih]
    simp [stepCalls, Call.ok]

/-- An iteration of `upAndQueue` whose three calls succeed. -/
theorem upAndQueue_cons_ok {σ : Type} (conn : Pipeliner σ) (host : Host σ)
    (toQueue bookname training : Str) (path : Str) (c : List Str) (r : Run σ)
    (h : pageOk conn host toQueue bookname training r.st path = true) :
    upAndQueue conn host toQueue bookname training (path :: c) r =
      upAndQueue conn host toQueue bookname training c
        ⟨pageCalls conn host toQueue bookname training r.st path,
          r.calls ++ stepCalls conn toQueue bookname training path⟩ := by
  simp only [pageOk, Bool.and_eq_true, Option.isNone_iff_eq_none] at h
  obtain ⟨⟨h1, h2⟩, h3⟩ := h
  rw [upAndQueue]
  simp only [Run.step, h1, h2, h3, pageCalls, stepCalls, Option.isNone_none]
  congr 2
  simp only [List.append_assoc, List.cons_append, List.nil_append]

/-- When every call succeeds, `upAndQueue` signals `done`, leaves the state reached by the
calls of all paths in order, and has logged the complete iterations. -/
theorem upAndQueue_ok {σ : Type} (conn : Pipeliner σ) (host : Host σ)
    (toQueue bookname training : Str) (c : List Str) (r : Run σ)
    (h : pagesOk conn host toQueue bookname training c r.st = true) :
    upAndQueue conn host toQueue bookname training c r =
      (.done, ⟨c.foldl (pageCalls conn host toQueue bookname training) r.st,
        r.calls ++ c.flatMap (stepCalls conn toQueue bookname training)⟩) := by
  induction c generalizing r with
  | nil => simp [upAndQueue]
  | cons path c ih =>
    simp only [pagesOk, Bool.and_eq_true] at h
    rw [upAndQueue_cons_ok conn host toQueue bookname training path c r h.1, ih _ h.2]
    simp [List.flatMap_cons]

/-- An iteration of `upAndQueue` in which a call fails: the error of the first failing call
is sent on `errc`, the state is the one left by that call, and nothing of the iteration is
enqueued. -/
theorem upAndQueue_cons_fail {σ : Type} (conn : Pipeliner σ) (host : Host σ)
    (toQueue bookname training : Str) (path : Str) (c : List Str) (r : Run σ) (e : Err) (st1 : σ)
    (h : pageFailure conn host toQueue bookname training r.st path = some (e, st1)) :
    (upAndQueue conn host toQueue bookname training (path :: c) r).1 = .errc e ∧
      (upAndQueue conn host toQueue bookname training (path :: c) r).2.st = st1 ∧
      ∃ bad, bad ∈ failedStepCalls conn toQueue bookname training path ∧
        (upAndQueue conn host toQueue bookname training (path :: c) r).2.calls = r.calls ++ bad := by
  rw [upAndQueue]
  unfold pageFailure at h
  simp only [Run.step]
  cases hu : conn.Upload conn.WIPStorageId (bookname ++ ['/'] ++ Base path) path r.st with
  | mk ue us =>
    rw [hu] at h
    cases ue with
    | some err =>
      simp only [Option.some.injEq, Prod.mk.injEq] at h
      obtain ⟨rfl, rfl⟩ := h
      exact ⟨rfl, rfl, _, List.mem_cons_self _ _, rfl⟩
    | none =>
      simp only at h ⊢
      cases hr : host.Remove path us with
      | mk re rs =>
        rw [hr] at h
        cases re with
        | some err =>
          simp only [Option.some.injEq, Prod.mk.injEq] at h
          obtain ⟨rfl, rfl⟩ := h
          refine ⟨rfl, rfl, _, List.mem_cons_of_mem _ (List.mem_cons_self _ _), ?_⟩
          simp
        | none =>
          simp only at h ⊢
          cases ha : conn.AddToQueue toQueue
              (bookname ++ ['/'] ++ Base path ++ [' '] ++ training) rs with
          | mk ae as =>
            rw [ha] at h
            cases ae with
            | some err =>
              simp only [Option.some.injEq, Prod.mk.injEq] at h
              obtain ⟨rfl, rfl⟩ := h
              refine ⟨rfl, rfl, _,
                List.mem_cons_of_mem _ (List.mem_cons_of_mem _ (List.mem_cons_self _ _)), ?_⟩
              simp
            | none => exact absurd h (by simp)

theorem enqueued_failedStepCalls {σ : Type} (conn : Pipeliner σ)
    (toQueue bookname training path : Str) (bad : List Call)
    (h : bad ∈ failedStepCalls conn toQueue bookname training path) : enqueued bad = [] := by
  simp only [failedStepCalls, List.mem_cons, List.mem_singleton, List.not_mem_nil,
    or_false] at h
  rcases h with rfl | rfl | rfl <;> simp [enqueued]

theorem addCalls_stepCalls {σ : Type} (conn : Pipeliner σ) (toQueue bookname training : Str)
    (c : List Str) :
    addCalls (c.flatMap (stepCalls conn toQueue bookname training)) =
      c.map (fun p => (toQueue, bookname ++ ['/'] ++ Base p ++ [' '] ++ training)) := by
  induction c with
  | nil => rfl
  | cons p c ih =>
    rw [List.flatMap_cons, addCalls_append, ih]
    simp [stepCalls, addCalls]

/-- The iterations of `upAndQueue` for paths whose calls all succeed, followed by more
paths. -/
theorem upAndQueue_append_ok {σ : Type} (conn : Pipeliner σ) (host : Host σ)
    (toQueue bookname training : Str) (pre rest : List Str) (r : Run σ)
    (h : pagesOk conn host toQueue bookname training pre r.st = true) :
    upAndQueue conn host toQueue bookname training (pre ++ rest) r =
      upAndQueue conn host toQueue bookname training rest
        ⟨pre.foldl (pageCalls conn host toQueue bookname training) r.st,
          r.calls ++ pre.flatMap (stepCalls conn toQueue bookname training)⟩ := by
  induction pre generalizing r with
  | nil => simp
  | cons path pre ih =>
    simp only [pagesOk, Bool.and_eq_true] at h
    rw [List.cons_append, upAndQueue_cons_ok conn host toQueue bookname training path _ r h.1,
      ih _ h.2]
    simp [List.flatMap_cons]

/-- C7: `upAndQueue` on the paths `c`, started from the state `st` with an empty log.  If
every upload, removal of the local file and enqueueing succeeds, `done` is signalled, the
adapter is left in the state reached by making, for each path in order, the upload under
`bookname/<basename>`, the removal and the enqueueing of `bookname/<basename> training` on
`toQueue`, and these are the calls made: one upload and one message per path, in the order
of the paths.  If `c = pre ++ p :: post`, every call for the paths of `pre` succeeds and a
call for `p` fails, the error of that call is sent on `errc`, the adapter is left in the
state in which the failing call left it after the calls for `pre`, and the messages
enqueued are exactly those of the paths of `pre`. -/
theorem upAndQueue_messages {σ : Type} (conn : Pipeliner σ) (host : Host σ)
    (toQueue bookname training : Str) (c : List Str) (st : σ) :
    (pagesOk conn host toQueue bookname training c st = true →
      (upAndQueue conn host toQueue bookname training c ⟨st, []⟩).1 = .done ∧
      (upAndQueue conn host toQueue bookname training c ⟨st, []⟩).2.st =
        c.foldl (fun s path =>
          (conn.AddToQueue toQueue (bookname ++ ['/'] ++ Base path ++ [' '] ++ training)
            (host.Remove path
              (conn.Upload conn.WIPStorageId (bookname ++ ['/'] ++ Base path) path s).2).2).2) st ∧
      uploaded (upAndQueue conn host toQueue bookname training c ⟨st, []⟩).2.calls =
        c.map (fun p => (bookname ++ ['/'] ++ Base p, p)) ∧
      enqueued (upAndQueue conn host toQueue bookname training c ⟨st, []⟩).2.calls =
        c.map (fun p => (toQueue, bookname ++ ['/'] ++ Base p ++ [' '] ++ training)) ∧
      addCalls (upAndQueue conn host toQueue bookname training c ⟨st, []⟩).2.calls =
        c.map (fun p => (toQueue, bookname ++ ['/'] ++ Base p ++ [' '] ++ training))) ∧
    (∀ pre p post e st1, c = pre ++ p :: post →
      pagesOk conn host toQueue bookname training pre st = true →
      pageFailure conn host toQueue bookname training
        (pre.foldl (pageCalls conn host toQueue bookname training) st) p = some (e, st1) →
      (upAndQueue conn host toQueue bookname training c ⟨st, []⟩).1 = .errc e ∧
      (upAndQueue conn host toQueue bookname training c ⟨st, []⟩).2.st = st1 ∧
      enqueued (upAndQueue conn host toQueue bookname training c ⟨st, []⟩).2.calls =
        pre.map (fun p => (toQueue, bookname ++ ['/'] ++ Base p ++ [' '] ++ training)) ∧
      ((upAndQueue conn host toQueue bookname training c ⟨st, []⟩).2.calls.filter
        (fun x => !x.ok)).length = 1) := by
  refine ⟨fun hok => ?_, fun pre p post e st1 hc hpre hfail => ?_⟩
  · rw [upAndQueue_ok conn host toQueue bookname training c ⟨st, []⟩ hok]
    refine ⟨rfl, rfl, ?_, ?_, ?_⟩
    · simp only [List.nil_append]
      exact uploaded_stepCalls conn toQueue bookname training c
    · simp only [List.nil_append]
      exact enqueued_stepCalls conn toQueue bookname training c
    · simp only [List.nil_append]
      exact addCalls_stepCalls conn toQueue bookname training c
  · rw [hc, upAndQueue_append_ok conn host toQueue bookname training pre (p :: post) ⟨st, []⟩ hpre]
    obtain ⟨h1, h2, bad, hbad, hcalls⟩ := upAndQueue_cons_fail conn host toQueue bookname
      training p post
      ⟨pre.foldl (pageCalls conn host toQueue bookname training) st,
        [] ++ pre.flatMap (stepCalls conn toQueue bookname training)⟩ e st1 hfail
    refine ⟨h1, h2, ?_, ?_⟩
    · rw [hcalls, enqueued_append, List.nil_append, enqueued_stepCalls,
        enqueued_failedStepCalls conn toQueue bookname training p bad hbad, List.append_nil]
    · rw [hcalls, List.nil_append, List.filter_append, ok_stepCalls]
      simp only [failedStepCalls, List.mem_cons, List.mem_singleton, List.not_mem_nil,
        or_false] at hbad
      rcases hbad with rfl | rfl | rfl <;> simp [Call.ok]

/-- C7 at a concrete run: two pages of book `b` are uploaded and enqueued on the ocr-page
queue; with the second file missing, only the message of the first page is enqueued. -/
theorem upAndQueue_messages_witness :
    (upAndQueue memConn memHost memConn.OCRPageQueueId ['b'] ("eng".toList)
        [("/tmp/b/p_bin0.1.png".toList), ("/tmp/b/q_bin0.1.png".toList)]
        ⟨⟨[], [], [], [("/tmp/b/p_bin0.1.png".toList), ("/tmp/b/q_bin0.1.png".toList)]⟩,
          []⟩).2.st =
      ⟨[("b/p_bin0.1.png".toList), ("b/q_bin0.1.png".toList)],
        [(memConn.OCRPageQueueId, ("b/p_bin0.1.png eng".toList)),
         (memConn.OCRPageQueueId, ("b/q_bin0.1.png eng".toList))], [], []⟩ ∧
    (upAndQueue memConn memHost memConn.OCRPageQueueId ['b'] ("eng".toList)
        [("/tmp/b/p_bin0.1.png".toList), ("/tmp/b/q_bin0.1.png".toList)]
        ⟨⟨[], [], [], [("/tmp/b/p_bin0.1.png".toList)]⟩, []⟩).1 =
      .errc ("no such file".toList) ∧
    (upAndQueue memConn memHost memConn.OCRPageQueueId ['b'] ("eng".toList)
        [("/tmp/b/p_bin0.1.png".toList), ("/tmp/b/q_bin0.1.png".toList)]
        ⟨⟨[], [], [], [("/tmp/b/p_bin0.1.png".toList)]⟩, []⟩).2.st =
      ⟨[("b/p_bin0.1.png".toList)],
        [(memConn.OCRPageQueueId, ("b/p_bin0.1.png eng".toList))], [], []⟩ :=
  ⟨((upAndQueue_messages memConn memHost memConn.OCRPageQueueId ['b'] ("eng".toList)
      [("/tmp/b/p_bin0.1.png".toList), ("/tmp/b/q_bin0.1.png".toList)]
      ⟨[], [], [], [("/tmp/b/p_bin0.1.png".toList), ("/tmp/b/q_bin0.1.png".toList)]⟩).1
        (by decide)).2.1.trans (by decide),
   ((upAndQueue_messages memConn memHost memConn.OCRPageQueueId ['b'] ("eng".toList)
      [("/tmp/b/p_bin0.1.png".toList), ("/tmp/b/q_bin0.1.png".toList)]
      ⟨[], [], [], [("/tmp/b/p_bin0.1.png".toList)]⟩).2
        [("/tmp/b/p_bin0.1.png".toList)] ("/tmp/b/q_bin0.1.png".toList) [] ("no such file".toList)
        ⟨[("b/p_bin0.1.png".toList)],
          [(memConn.OCRPageQueueId, ("b/p_bin0.1.png eng".toList))], [], []⟩
        rfl (by decide) (by decide)).1,
   ((upAndQueue_messages memConn memHost memConn.OCRPageQueueId ['b'] ("eng".toList)
      [("/tmp/b/p_bin0.1.png".toList), ("/tmp/b/q_bin0.1.png".toList)]
      ⟨[], [], [], [("/tmp/b/p_bin0.1.png".toList)]⟩).2
        [("/tmp/b/p_bin0.1.png".toList)] ("/tmp/b/q_bin0.1.png".toList) [] ("no such file".toList)
        ⟨[("b/p_bin0.1.png".toList)],
          [(memConn.OCRPageQueueId, ("b/p_bin0.1.png eng".toList))], [], []⟩
        rfl (by decide) (by decide)).2.1⟩

/-! ## The drivers and the source message -/

/-- The plain uploader never calls `AddToQueue`. -/
theorem up_addCalls {σ : Type} (conn : Pipeliner σ) (host : Host σ) (bookname : Str)
    (c : List Str) (r : Run σ) :
    addCalls (up conn host bookname c r).2.calls = addCalls r.calls := by
  induction c generalizing r with
  | nil => rfl
  | cons path c ih =>
    rw [up]
    split
    · rename_i err r1 hup
      simp [step_eq hup, addCalls_append, addCalls]
    · rename_i r1 hup
      split
      · rename_i err r2 hrm
        simp [step_eq hup, step_eq hrm, addCalls_append, addCalls]
      · rename_i r2 hrm
        rw [ih]
        simp [step_eq hup, step_eq hrm, addCalls_append, addCalls]

theorem selected_before_del (calls pre post rest : List Call) (s : Sel) (url handle : Str)
    (ok : Bool) (hp : protocol calls = .selected s :: rest)
    (hc : calls = pre ++ .delFromQueue url handle ok :: post) : .selected s ∈ pre := by
  rw [hc, protocol_append] at hp
  cases hpre : protocol pre with
  | nil =>
    rw [hpre] at hp
    simp [protocol] at hp
  | cons a t =>
    rw [hpre] at hp
    simp only [List.cons_append, List.cons.injEq] at hp
    apply mem_of_mem_protocol
    rw [hpre, hp.1]
    exact List.mem_cons_self _ _

/-- The end of both drivers, call by call: the deletion with the handle of the rotated
message when there is one, then the removal of the scratch directory, whatever the deletion
returned; no error is returned exactly when both calls succeed. -/
theorem deleteAndCleanup_run {σ : Type} (conn : Pipeliner σ) (host : Host σ) (msg : Qmsg)
    (msgc : Option Qmsg) (fromQueue d : Str) (r : Run σ) :
    (deleteAndCleanup conn host msg msgc fromQueue d r).2.st =
        (host.RemoveAll d (conn.DelFromQueue fromQueue (msgc.getD msg).Handle r.st).2).2 ∧
      (deleteAndCleanup conn host msg msgc fromQueue d r).2.calls =
        r.calls ++
          [.delFromQueue fromQueue (msgc.getD msg).Handle
              (conn.DelFromQueue fromQueue (msgc.getD msg).Handle r.st).1.isNone,
           .removeAll d
              (host.RemoveAll d
                (conn.DelFromQueue fromQueue (msgc.getD msg).Handle r.st).2).1.isNone] ∧
      ((deleteAndCleanup conn host msg msgc fromQueue d r).1 = none ↔
        (conn.DelFromQueue fromQueue (msgc.getD msg).Handle r.st).1 = none ∧
          (host.RemoveAll d
            (conn.DelFromQueue fromQueue (msgc.getD msg).Handle r.st).2).1 = none) := by
  unfold deleteAndCleanup
  cases msgc with
  | none =>
    simp only [Option.getD, Run.step]
    rcases hd : conn.DelFromQueue fromQueue msg.Handle r.st with ⟨de, ds⟩
    rcases hr : host.RemoveAll d ds with ⟨re, rs⟩
    cases de <;> cases re <;> simp [hr]
  | some m =>
    simp only [Option.getD, Run.step]
    rcases hd : conn.DelFromQueue fromQueue m.Handle r.st with ⟨de, ds⟩
    rcases hr : host.RemoveAll d ds with ⟨re, rs⟩
    cases de <;> cases re <;> simp [hr]

/-- The poison branch of `ProcessBook`, call by call, for the preprocess and the wipe
queue: the source message is deleted with the handle it was received with, and the only
call that may follow is the sending of the mail. -/
theorem poisonCleanup_run {σ : Type} (conn : Pipeliner σ) (host : Host σ) (msg : Qmsg)
    (bookname fromQueue : Str) (err : Err) (r : Run σ)
    (hq : fromQueue = conn.PreQueueId ∨ fromQueue = conn.WipeQueueId) :
    ((poisonCleanup conn host msg bookname fromQueue err r).st =
          (conn.DelFromQueue fromQueue msg.Handle r.st).2 ∨
        ∃ ms text, (poisonCleanup conn host msg bookname fromQueue err r).st =
          (host.SendMail ms text (conn.DelFromQueue fromQueue msg.Handle r.st).2).2) ∧
      protocol (poisonCleanup conn host msg bookname fromQueue err r).calls =
        protocol r.calls ++ [.delFromQueue fromQueue msg.Handle
          (conn.DelFromQueue fromQueue msg.Handle r.st).1.isNone] := by
  unfold poisonCleanup
  simp only [if_pos hq, Run.step]
  split
  · exact ⟨Or.inl rfl, by simp [protocol_append, protocol]⟩
  · split
    · exact ⟨Or.inr ⟨_, _, rfl⟩, by simp [protocol_append, protocol]⟩
    · exact ⟨Or.inl rfl, by simp [protocol_append, protocol]⟩

/-- Outside the preprocess and the wipe queue the poison branch of `ProcessBook` makes no
call. -/
theorem poisonCleanup_other {σ : Type} (conn : Pipeliner σ) (host : Host σ) (msg : Qmsg)
    (bookname fromQueue : Str) (err : Err) (r : Run σ)
    (hq : ¬ (fromQueue = conn.PreQueueId ∨ fromQueue = conn.WipeQueueId)) :
    poisonCleanup conn host msg bookname fromQueue err r = r := by
  unfold poisonCleanup
  rw [if_neg hq]

/-- C5: a `ProcessBook` job that could make its scratch directory and list the bucket, and
whose `select` receives the error `e` from the job started with the uploader of
`uploaderFor`.  `ProcessBook` returns `e` and the driver makes no `AddToQueue` call.  If
`fromQueue` is the preprocess queue or the wipe queue, the one queue call of the driver is
`DelFromQueue(fromQueue, msg.Handle)`, made on the state left by the removal of the scratch
directory, and the adapter is left in the state after that deletion (or after the mail that
may follow it).  For any other `fromQueue` there is no `DelFromQueue` call and the adapter
is left in the state after the removal of the scratch directory: the message is not
deleted. -/
theorem processBook_engine_error {σ : Type} (conn : Pipeliner σ) (host : Host σ)
    (engine : Engine σ) (msg : Qmsg) (process : Transform σ) (matchRe : Str → Bool)
    (fromQueue toQueue : Str) (st st1 st2 : σ) (objs : List Str) (out : EngineOut σ) (e : Err)
    (hmk : host.MkdirAll (filepathJoin [host.TempDir, processBookName msg]) st = (none, st1))
    (hls : conn.ListObjects conn.WIPStorageId (processBookName msg) st1 = ((objs, none), st2))
    (hjob : engine (uploaderFor conn toQueue (processBookName msg) (processBookTraining msg))
      process (objs.filter matchRe) (filepathJoin [host.TempDir, processBookName msg]) msg
      fromQueue st2 = out)
    (hsel : out.sel = .errc e) :
    (ProcessBook conn host engine msg process matchRe fromQueue toQueue ⟨st, []⟩).1 = some e ∧
      addCalls (ProcessBook conn host engine msg process matchRe fromQueue toQueue
        ⟨st, []⟩).2.calls = [] ∧
      ((fromQueue = conn.PreQueueId ∨ fromQueue = conn.WipeQueueId) →
        protocol (ProcessBook conn host engine msg process matchRe fromQueue toQueue
            ⟨st, []⟩).2.calls =
          [.selected (.errc e), .delFromQueue fromQueue msg.Handle
            (conn.DelFromQueue fromQueue msg.Handle
              (host.RemoveAll (filepathJoin [host.TempDir, processBookName msg])
                out.st).2).1.isNone] ∧
        ((ProcessBook conn host engine msg process matchRe fromQueue toQueue ⟨st, []⟩).2.st =
            (conn.DelFromQueue fromQueue msg.Handle
              (host.RemoveAll (filepathJoin [host.TempDir, processBookName msg]) out.st).2).2 ∨
          ∃ ms text,
            (ProcessBook conn host engine msg process matchRe fromQueue toQueue ⟨st, []⟩).2.st =
              (host.SendMail ms text
                (conn.DelFromQueue fromQueue msg.Handle
                  (host.RemoveAll (filepathJoin [host.TempDir, processBookName msg])
                    out.st).2).2).2)) ∧
      (¬ (fromQueue = conn.PreQueueId ∨ fromQueue = conn.WipeQueueId) →
        protocol (ProcessBook conn host engine msg process matchRe fromQueue toQueue
            ⟨st, []⟩).2.calls = [.selected (.errc e)] ∧
        (ProcessBook conn host engine msg process matchRe fromQueue toQueue ⟨st, []⟩).2.st =
          (host.RemoveAll (filepathJoin [host.TempDir, processBookName msg]) out.st).2) := by
  unfold processBookName processBookTraining at *
  have hrun : ProcessBook conn host engine msg process matchRe fromQueue toQueue ⟨st, []⟩ =
      (some e, poisonCleanup conn host msg ((Split msg.Body ' ').headD []) fromQueue e
        ((⟨out.st, [.mkdirAll (filepathJoin [host.TempDir, (Split msg.Body ' ').headD []]) true,
            .started (uploaderFor conn toQueue ((Split msg.Body ' ').headD [])
              (if 1 < (Split msg.Body ' ').length then (Split msg.Body ' ').getD 1 [] else [])),
            .listObjects conn.WIPStorageId ((Split msg.Body ' ').headD []) true,
            .selected (.errc e)]⟩ : Run σ).step
          (host.RemoveAll (filepathJoin [host.TempDir, (Split msg.Body ' ').headD []]))
          (.removeAll (filepathJoin [host.TempDir, (Split msg.Body ' ').headD []]))).2) := by
    unfold ProcessBook
    simp only [Run.step, hmk, hls, hjob, hsel, Option.isNone_none, List.nil_append,
      List.cons_append, List.append_assoc]
  rw [hrun]
  refine ⟨rfl, ?_, ?_, ?_⟩
  · rw [← addCalls_protocol]
    by_cases hq : fromQueue = conn.PreQueueId ∨ fromQueue = conn.WipeQueueId
    · rw [(poisonCleanup_run conn host msg _ fromQueue e _ hq).2]
      simp [Run.step, protocol, addCalls]
    · rw [poisonCleanup_other conn host msg _ fromQueue e _ hq]
      simp [Run.step, protocol, addCalls]
  · intro hq
    obtain ⟨hst, hp⟩ := poisonCleanup_run conn host msg ((Split msg.Body ' ').headD [])
      fromQueue e
      ((⟨out.st, [.mkdirAll (filepathJoin [host.TempDir, (Split msg.Body ' ').headD []]) true,
          .started (uploaderFor conn toQueue ((Split msg.Body ' ').headD [])
            (if 1 < (Split msg.Body ' ').length then (Split msg.Body ' ').getD 1 [] else [])),
          .listObjects conn.WIPStorageId ((Split msg.Body ' ').headD []) true,
          .selected (.errc e)]⟩ : Run σ).step
        (host.RemoveAll (filepathJoin [host.TempDir, (Split msg.Body ' ').headD []]))
        (.removeAll (filepathJoin [host.TempDir, (Split msg.Body ' ').headD []]))).2 hq
    refine ⟨?_, hst⟩
    rw [hp]
    simp [Run.step, protocol]
  · intro hq
    rw [poisonCleanup_other conn host msg _ fromQueue e _ hq]
    exact ⟨by simp [Run.step, protocol], rfl⟩

/-- C5 at two concrete jobs whose transform fails: a preprocess message, which is deleted,
and an analyse message, which is not. -/
theorem processBook_engine_error_witness :
    ((ProcessBook memConn memHost (seqEngine memConn memHost)
          ⟨[], ("h1".toList), ("b eng".toList)⟩ (fun _ r => (([], some ("boom".toList)), r))
          (fun _ => true) memConn.PreQueueId memConn.OCRPageQueueId
          ⟨⟨[("b/p_0001.jpg".toList)], [], [], []⟩, []⟩).1 = some ("boom".toList) ∧
      (ProcessBook memConn memHost (seqEngine memConn memHost)
          ⟨[], ("h1".toList), ("b eng".toList)⟩ (fun _ r => (([], some ("boom".toList)), r))
          (fun _ => true) memConn.PreQueueId memConn.OCRPageQueueId
          ⟨⟨[("b/p_0001.jpg".toList)], [], [], []⟩, []⟩).2.st =
        ⟨[("b/p_0001.jpg".toList)], [], [(memConn.PreQueueId, ("h1".toList))], []⟩) ∧
    ((ProcessBook memConn memHost (seqEngine memConn memHost)
          ⟨[], ("h1".toList), ("b".toList)⟩ (fun _ r => (([], some ("boom".toList)), r))
          (fun _ => true) memConn.AnalyseQueueId []
          ⟨⟨[("b/p_bin0.1.hocr".toList)], [], [], []⟩, []⟩).1 = some ("boom".toList) ∧
      (ProcessBook memConn memHost (seqEngine memConn memHost)
          ⟨[], ("h1".toList), ("b".toList)⟩ (fun _ r => (([], some ("boom".toList)), r))
          (fun _ => true) memConn.AnalyseQueueId []
          ⟨⟨[("b/p_bin0.1.hocr".toList)], [], [], []⟩, []⟩).2.st =
        ⟨[("b/p_bin0.1.hocr".toList)], [], [], []⟩) :=
  ⟨⟨(processBook_engine_error memConn memHost (seqEngine memConn memHost)
      ⟨[], ("h1".toList), ("b eng".toList)⟩ (fun _ r => (([], some ("boom".toList)), r))
      (fun _ => true) memConn.PreQueueId memConn.OCRPageQueueId
      ⟨[("b/p_0001.jpg".toList)], [], [], []⟩ ⟨[("b/p_0001.jpg".toList)], [], [], []⟩
      ⟨[("b/p_0001.jpg".toList)], [], [], []⟩ [("b/p_0001.jpg".toList)] _ ("boom".toList)
      rfl (by decide) rfl (by decide)).1, by decide⟩,
   ⟨(processBook_engine_error memConn memHost (seqEngine memConn memHost)
      ⟨[], ("h1".toList), ("b".toList)⟩ (fun _ r => (([], some ("boom".toList)), r))
      (fun _ => true) memConn.AnalyseQueueId []
      ⟨[("b/p_bin0.1.hocr".toList)], [], [], []⟩ ⟨[("b/p_bin0.1.hocr".toList)], [], [], []⟩
      ⟨[("b/p_bin0.1.hocr".toList)], [], [], []⟩ [("b/p_bin0.1.hocr".toList)] _ ("boom".toList)
      rfl (by decide) rfl (by decide)).1,
    ((processBook_engine_error memConn memHost (seqEngine memConn memHost)
      ⟨[], ("h1".toList), ("b".toList)⟩ (fun _ r => (([], some ("boom".toList)), r))
      (fun _ => true) memConn.AnalyseQueueId []
      ⟨[("b/p_bin0.1.hocr".toList)], [], [], []⟩ ⟨[("b/p_bin0.1.hocr".toList)], [], [], []⟩
      ⟨[("b/p_bin0.1.hocr".toList)], [], [], []⟩ [("b/p_bin0.1.hocr".toList)] _ ("boom".toList)
      rfl (by decide) rfl (by decide)).2.2.2 (by decide)).2.trans (by decide)⟩⟩

/-- C6, as stated, fails: in this `ProcessBook` job from the preprocess queue the `select`
receives an error from `errc`, never `done`, and `DelFromQueue` is invoked on the source
message all the same. -/
theorem delFromQueue_after_error :
    .selected (.errc ("boom".toList)) ∈
        (ProcessBook memConn memHost (seqEngine memConn memHost)
          ⟨[], ("h1".toList), ("b eng".toList)⟩ (fun _ r => (([], some ("boom".toList)), r))
          (fun _ => true) memConn.PreQueueId memConn.OCRPageQueueId
          ⟨⟨[("b/p_0001.jpg".toList)], [], [], []⟩, []⟩).2.calls ∧
      .selected .done ∉
        (ProcessBook memConn memHost (seqEngine memConn memHost)
          ⟨[], ("h1".toList), ("b eng".toList)⟩ (fun _ r => (([], some ("boom".toList)), r))
          (fun _ => true) memConn.PreQueueId memConn.OCRPageQueueId
          ⟨⟨[("b/p_0001.jpg".toList)], [], [], []⟩, []⟩).2.calls ∧
      delCalls (ProcessBook memConn memHost (seqEngine memConn memHost)
          ⟨[], ("h1".toList), ("b eng".toList)⟩ (fun _ r => (([], some ("boom".toList)), r))
          (fun _ => true) memConn.PreQueueId memConn.OCRPageQueueId
          ⟨⟨[("b/p_0001.jpg".toList)], [], [], []⟩, []⟩).2.calls =
        [(memConn.PreQueueId, ("h1".toList))] := by
  refine ⟨by decide, by decide, by decide⟩

/-- C6, amended: in every run of `ProcessBook` and of `OcrPage`, `DelFromQueue` is invoked
at most once.  In `OcrPage` every invocation comes after the `select` received `done`, and
there is none when it received an error.  In `ProcessBook` every invocation comes after the
`select` received `done`, or after it received an error when `fromQueue` is the preprocess
queue or the wipe queue. -/
theorem delFromQueue_at_most_once {σ : Type} (conn : Pipeliner σ) (host : Host σ)
    (engine : Engine σ) (msg : Qmsg) (process : Transform σ) (matchRe : Str → Bool)
    (fromQueue toQueue : Str) (st : σ) :
    ((delCalls (OcrPage conn host engine msg process fromQueue toQueue ⟨st, []⟩).2.calls).length
        ≤ 1 ∧
      (∀ pre url handle ok post,
        (OcrPage conn host engine msg process fromQueue toQueue ⟨st, []⟩).2.calls =
          pre ++ .delFromQueue url handle ok :: post → .selected .done ∈ pre) ∧
      (∀ e, .selected (.errc e) ∈
          (OcrPage conn host engine msg process fromQueue toQueue ⟨st, []⟩).2.calls →
        delCalls (OcrPage conn host engine msg process fromQueue toQueue ⟨st, []⟩).2.calls
          = [])) ∧
    ((delCalls (ProcessBook conn host engine msg process matchRe fromQueue toQueue
        ⟨st, []⟩).2.calls).length ≤ 1 ∧
      (∀ pre url handle ok post,
        (ProcessBook conn host engine msg process matchRe fromQueue toQueue ⟨st, []⟩).2.calls =
          pre ++ .delFromQueue url handle ok :: post →
        .selected .done ∈ pre ∨
          ((fromQueue = conn.PreQueueId ∨ fromQueue = conn.WipeQueueId) ∧
            ∃ e, .selected (.errc e) ∈ pre))) := by
  refine ⟨?_, ?_⟩
  · rcases ocrPage_protocol conn host engine msg process fromQueue toQueue st with
      ⟨-, hp, -⟩ | ⟨-, ⟨e', -, -, hp⟩ | ⟨-, okA, okD, hp, -⟩⟩
    · refine ⟨?_, ?_, ?_⟩
      · rw [← delCalls_protocol, hp]
        simp [delCalls]
      · intro pre url handle ok post hc
        have := congrArg protocol hc
        rw [hp, protocol_append] at this
        simp [protocol] at this
      · intro e _
        rw [← delCalls_protocol, hp]
        rfl
    · refine ⟨?_, ?_, ?_⟩
      · rw [← delCalls_protocol, hp]
        simp [delCalls]
      · intro pre url handle ok post hc
        have hpre := selected_before_del _ _ _ _ _ _ _ _ hp hc
        exfalso
        have h3 := congrArg protocol hc
        rw [hp, protocol_append] at h3
        have h4 := congrArg List.length h3
        have h5 := List.length_pos_of_mem (selected_mem_protocol _ _ hpre)
        simp [protocol] at h4
        omega
      · intro e _
        rw [← delCalls_protocol, hp]
        rfl
    · refine ⟨?_, ?_, ?_⟩
      · rw [← delCalls_protocol, hp]
        by_cases h1 : (allOCRed conn (ocrPageBook msg)
            ⟨(ocrPageJob host engine msg process fromQueue st).st, []⟩).1 = true ∧ toQueue ≠ [] <;>
          cases okA <;> simp [h1, delCalls]
      · intro pre url handle ok post hc
        exact selected_before_del _ _ _ _ _ _ _ _ hp hc
      · intro e he
        have hsel := selected_mem_protocol _ _ he
        rw [hp] at hsel
        exfalso
        by_cases h1 : (allOCRed conn (ocrPageBook msg)
            ⟨(ocrPageJob host engine msg process fromQueue st).st, []⟩).1 = true ∧ toQueue ≠ [] <;>
          cases okA <;> simp [h1] at hsel
  · rcases processBook_protocol conn host engine msg process matchRe fromQueue toQueue st with
      ⟨hp, -⟩ | ⟨-, ⟨e', okD, -, hp⟩ | ⟨m, okA, okD, hp, -⟩⟩
    · refine ⟨?_, ?_⟩
      · rw [← delCalls_protocol, hp]
        simp [delCalls]
      · intro pre url handle ok post hc
        have := congrArg protocol hc
        rw [hp, protocol_append] at this
        simp [protocol] at this
    · refine ⟨?_, ?_⟩
      · rw [← delCalls_protocol, hp]
        by_cases hq : fromQueue = conn.PreQueueId ∨ fromQueue = conn.WipeQueueId <;>
          simp [hq, delCalls]
      · intro pre url handle ok post hc
        right
        have hpre := selected_before_del _ _ _ _ _ _ _ _ hp hc
        refine ⟨?_, e', hpre⟩
        by_contra hq
        have h3 := congrArg protocol hc
        rw [hp, protocol_append, if_neg hq] at h3
        have h4 := congrArg List.length h3
        have h5 := List.length_pos_of_mem (selected_mem_protocol _ _ hpre)
        simp [protocol] at h4
        omega
    · refine ⟨?_, ?_⟩
      · rw [← delCalls_protocol, hp]
        by_cases h1 : toQueue ≠ [] ∧ toQueue ≠ conn.OCRPageQueueId <;>
          cases okA <;> simp [h1, delCalls]
      · intro pre url handle ok post hc
        exact Or.inl (selected_before_del _ _ _ _ _ _ _ _ hp hc)

/-- C8: an `OcrPage` job that could make its scratch directory; `out` is the result of the
job, started with the plain uploader on the page key, `(objs, lerr)` the listing obtained by
`allOCRed` on the state left by the job, and `(aerr, st3)` the result of enqueueing the book
name on `toQueue` after that.  When the `select` receives `done` and `allOCRed` holds and
`toQueue` is not empty, the book name (the directory of the page key) is enqueued once on
`toQueue`; if that succeeds the ocr-page message is deleted after it, and if it fails the
message is not deleted.  When the `select` receives `done` and `allOCRed` does not hold or
`toQueue` is empty, nothing is enqueued and the message is deleted.  When the `select`
receives an error `e`, nothing is enqueued, the message is not deleted and `e` is returned.
In every case the adapter is left in the state reached by exactly these calls and the
removal of the scratch directory. -/
theorem ocrPage_after_job {σ : Type} (conn : Pipeliner σ) (host : Host σ) (engine : Engine σ)
    (msg : Qmsg) (process : Transform σ) (fromQueue toQueue : Str) (st st1 st2 st3 : σ)
    (out : EngineOut σ) (objs : List Str) (lerr aerr : Option Err)
    (hmk : host.MkdirAll (filepathJoin [host.TempDir, ocrPageBook msg]) st = (none, st1))
    (hjob : engine (.up (ocrPageBook msg))
      (match ocrPageTraining msg with
        | some training => Ocr host training
        | none => process)
      [ocrPageKey msg] (filepathJoin [host.TempDir, ocrPageBook msg]) msg fromQueue st1 = out)
    (hls : conn.ListObjects conn.WIPStorageId (ocrPageBook msg) out.st = ((objs, lerr), st2))
    (hadd : conn.AddToQueue toQueue (ocrPageBook msg) st2 = (aerr, st3)) :
    (out.sel = .done → allOCRedOf (ocrPageBook msg) (objs, lerr) = true ∧ toQueue ≠ [] →
      aerr = none →
      protocol (OcrPage conn host engine msg process fromQueue toQueue ⟨st, []⟩).2.calls =
        [.selected .done, .addToQueue toQueue (ocrPageBook msg) true,
          .delFromQueue fromQueue (out.msgc.getD msg).Handle
            (conn.DelFromQueue fromQueue (out.msgc.getD msg).Handle st3).1.isNone] ∧
      (OcrPage conn host engine msg process fromQueue toQueue ⟨st, []⟩).2.st =
        (host.RemoveAll (filepathJoin [host.TempDir, ocrPageBook msg])
          (conn.DelFromQueue fromQueue (out.msgc.getD msg).Handle st3).2).2 ∧
      ((OcrPage conn host engine msg process fromQueue toQueue ⟨st, []⟩).1 = none ↔
        (conn.DelFromQueue fromQueue (out.msgc.getD msg).Handle st3).1 = none ∧
          (host.RemoveAll (filepathJoin [host.TempDir, ocrPageBook msg])
            (conn.DelFromQueue fromQueue (out.msgc.getD msg).Handle st3).2).1 = none)) ∧
    (out.sel = .done → allOCRedOf (ocrPageBook msg) (objs, lerr) = true ∧ toQueue ≠ [] →
      ∀ err, aerr = some err →
      (OcrPage conn host engine msg process fromQueue toQueue ⟨st, []⟩).1 =
        some ("Error adding to queue ".toList ++ ocrPageBook msg ++ ": ".toList ++ err) ∧
      protocol (OcrPage conn host engine msg process fromQueue toQueue ⟨st, []⟩).2.calls =
        [.selected .done, .addToQueue toQueue (ocrPageBook msg) false] ∧
      (OcrPage conn host engine msg process fromQueue toQueue ⟨st, []⟩).2.st =
        (host.RemoveAll (filepathJoin [host.TempDir, ocrPageBook msg]) st3).2) ∧
    (out.sel = .done → ¬ (allOCRedOf (ocrPageBook msg) (objs, lerr) = true ∧ toQueue ≠ []) →
      protocol (OcrPage conn host engine msg process fromQueue toQueue ⟨st, []⟩).2.calls =
        [.selected .done,
          .delFromQueue fromQueue (out.msgc.getD msg).Handle
            (conn.DelFromQueue fromQueue (out.msgc.getD msg).Handle st2).1.isNone] ∧
      (OcrPage conn host engine msg process fromQueue toQueue ⟨st, []⟩).2.st =
        (host.RemoveAll (filepathJoin [host.TempDir, ocrPageBook msg])
          (conn.DelFromQueue fromQueue (out.msgc.getD msg).Handle st2).2).2 ∧
      ((OcrPage conn host engine msg process fromQueue toQueue ⟨st, []⟩).1 = none ↔
        (conn.DelFromQueue fromQueue (out.msgc.getD msg).Handle st2).1 = none ∧
          (host.RemoveAll (filepathJoin [host.TempDir, ocrPageBook msg])
            (conn.DelFromQueue fromQueue (out.msgc.getD msg).Handle st2).2).1 = none)) ∧
    (∀ e, out.sel = .errc e →
      (OcrPage conn host engine msg process fromQueue toQueue ⟨st, []⟩).1 = some e ∧
      protocol (OcrPage conn host engine msg process fromQueue toQueue ⟨st, []⟩).2.calls =
        [.selected (.errc e)] ∧
      (OcrPage conn host engine msg process fromQueue toQueue ⟨st, []⟩).2.st =
        (host.RemoveAll (filepathJoin [host.TempDir, ocrPageBook msg]) out.st).2) := by
  have hP : (match ocrPageTraining msg with
        | some training => Ocr host training
        | none => process) =
      (if 1 < (Split msg.Body ' ').length ∧ (Split msg.Body ' ').getD 1 [] ≠ [] then
        Ocr host ((Split msg.Body ' ').getD 1 []) else process) := by
    unfold ocrPageTraining
    by_cases hc : 1 < (Split msg.Body ' ').length ∧ (Split msg.Body ' ').getD 1 [] ≠ []
    · rw [if_pos hc, if_pos hc]
    · rw [if_neg hc, if_neg hc]
  rw [hP] at hjob
  unfold ocrPageBook ocrPageKey at *
  have hoc : ∀ cs, allOCRed conn (Dir ((Split msg.Body ' ').headD [])) ⟨out.st, cs⟩ =
      (allOCRedOf (Dir ((Split msg.Body ' ').headD [])) (objs, lerr),
        ⟨st2, cs ++ [.listObjects conn.WIPStorageId (Dir ((Split msg.Body ' ').headD []))
          lerr.isNone]⟩) := by
    intro cs
    unfold allOCRed
    simp only [hls]
  refine ⟨?_, ?_, ?_, ?_⟩
  · intro hsel hcond ha
    subst ha
    unfold OcrPage
    simp only [Run.step, hmk, hjob, hsel, hoc, if_pos hcond, hadd]
    obtain ⟨h1, h2, h3⟩ := deleteAndCleanup_run conn host msg out.msgc fromQueue
      (filepathJoin [host.TempDir, Dir ((Split msg.Body ' ').headD [])])
      ⟨st3, [] ++ [.mkdirAll (filepathJoin [host.TempDir, Dir ((Split msg.Body ' ').headD [])])
          (none : Option Err).isNone] ++
        [.started (.up (Dir ((Split msg.Body ' ').headD []))), .selected .done] ++
        [.listObjects conn.WIPStorageId (Dir ((Split msg.Body ' ').headD [])) lerr.isNone] ++
        [.addToQueue toQueue (Dir ((Split msg.Body ' ').headD [])) (none : Option Err).isNone]⟩
    refine ⟨?_, h1, h3⟩
    rw [h2]
    simp [protocol_append, protocol]
  · intro hsel hcond err ha
    subst ha
    unfold OcrPage
    simp only [Run.step, hmk, hjob, hsel, hoc, if_pos hcond, hadd]
    simp [protocol_append, protocol]
  · intro hsel hcond
    unfold OcrPage
    simp only [Run.step, hmk, hjob, hsel, hoc, if_neg hcond]
    obtain ⟨h1, h2, h3⟩ := deleteAndCleanup_run conn host msg out.msgc fromQueue
      (filepathJoin [host.TempDir, Dir ((Split msg.Body ' ').headD [])])
      ⟨st2, [] ++ [.mkdirAll (filepathJoin [host.TempDir, Dir ((Split msg.Body ' ').headD [])])
          (none : Option Err).isNone] ++
        [.started (.up (Dir ((Split msg.Body ' ').headD []))), .selected .done] ++
        [.listObjects conn.WIPStorageId (Dir ((Split msg.Body ' ').headD [])) lerr.isNone]⟩
    refine ⟨?_, h1, h3⟩
    rw [h2]
    simp [protocol_append, protocol]
  · intro e hsel
    unfold OcrPage
    simp only [Run.step, hmk, hjob, hsel]
    simp [protocol_append, protocol]

/-- C8 at two concrete jobs: the last page of book `b` is OCRed, the book is enqueued on the
analyse queue and the ocr-page message is deleted; a page of a book with another page still
to do is OCRed, nothing is enqueued and the ocr-page message is deleted. -/
theorem ocrPage_after_job_witness :
    (OcrPage memConn memHost (seqEngine memConn memHost)
        ⟨[], ("h1".toList), ("b/p_bin0.1.png eng".toList)⟩ (Ocr memHost ("eng".toList))
        memConn.OCRPageQueueId memConn.AnalyseQueueId
        ⟨⟨[("b/p_bin0.1.png".toList)], [], [], []⟩, []⟩).2.st =
      ⟨[("b/p_bin0.1.png".toList), ("b/p_bin0.1.hocr".toList)],
        [(memConn.AnalyseQueueId, ['b'])], [(memConn.OCRPageQueueId, ("h1".toList))], []⟩ ∧
    (OcrPage memConn memHost (seqEngine memConn memHost)
        ⟨[], ("h1".toList), ("b/p_bin0.1.png eng".toList)⟩ (Ocr memHost ("eng".toList))
        memConn.OCRPageQueueId memConn.AnalyseQueueId
        ⟨⟨[("b/p_bin0.1.png".toList), ("b/q_bin0.1.png".toList)], [], [], []⟩, []⟩).2.st =
      ⟨[("b/p_bin0.1.png".toList), ("b/q_bin0.1.png".toList), ("b/p_bin0.1.hocr".toList)],
        [], [(memConn.OCRPageQueueId, ("h1".toList))], []⟩ :=
  ⟨((ocrPage_after_job memConn memHost (seqEngine memConn memHost)
      ⟨[], ("h1".toList), ("b/p_bin0.1.png eng".toList)⟩ (Ocr memHost ("eng".toList))
      memConn.OCRPageQueueId memConn.AnalyseQueueId
      ⟨[("b/p_bin0.1.png".toList)], [], [], []⟩ ⟨[("b/p_bin0.1.png".toList)], [], [], []⟩
      ⟨[("b/p_bin0.1.png".toList), ("b/p_bin0.1.hocr".toList)], [], [],
        [("/tmp/b/p_bin0.1.png".toList)]⟩
      ⟨[("b/p_bin0.1.png".toList), ("b/p_bin0.1.hocr".toList)],
        [(memConn.AnalyseQueueId, ['b'])], [], [("/tmp/b/p_bin0.1.png".toList)]⟩
      _ [("b/p_bin0.1.png".toList), ("b/p_bin0.1.hocr".toList)] none none
      rfl rfl (by decide) (by decide)).1 (by decide) (by decide) rfl).2.1.trans (by decide),
   ((ocrPage_after_job memConn memHost (seqEngine memConn memHost)
      ⟨[], ("h1".toList), ("b/p_bin0.1.png eng".toList)⟩ (Ocr memHost ("eng".toList))
      memConn.OCRPageQueueId memConn.AnalyseQueueId
      ⟨[("b/p_bin0.1.png".toList), ("b/q_bin0.1.png".toList)], [], [], []⟩
      ⟨[("b/p_bin0.1.png".toList), ("b/q_bin0.1.png".toList)], [], [], []⟩
      ⟨[("b/p_bin0.1.png".toList), ("b/q_bin0.1.png".toList), ("b/p_bin0.1.hocr".toList)], [],
        [], [("/tmp/b/p_bin0.1.png".toList)]⟩
      ⟨[("b/p_bin0.1.png".toList), ("b/q_bin0.1.png".toList), ("b/p_bin0.1.hocr".toList)],
        [(memConn.AnalyseQueueId, ['b'])], [], [("/tmp/b/p_bin0.1.png".toList)]⟩
      _ [("b/p_bin0.1.png".toList), ("b/q_bin0.1.png".toList), ("b/p_bin0.1.hocr".toList)]
      none none
      rfl rfl (by decide) (by decide)).2.2.1 (by decide) (by decide)).2.1.trans (by decide)⟩

/-- The plain uploader does not depend on the queue methods of the adapter: it gives the
same result and state with any adapter that has the same `Upload` and the same bucket. -/
theorem up_only_uploads {σ : Type} (conn conn2 : Pipeliner σ) (host : Host σ) (bookname : Str)
    (hup : conn2.Upload = conn.Upload) (hid : conn2.WIPStorageId = conn.WIPStorageId)
    (c : List Str) (r : Run σ) :
    up conn2 host bookname c r = up conn host bookname c r := by
  induction c generalizing r with
  | nil => rfl
  | cons path c ih =>
    rw [up, up]
    simp only [Run.step, hup, hid, ih]

/-- C9: a `ProcessBook` job that could make its scratch directory and list the bucket, and
whose `select` receives `done` from the job `out`, started with the uploader of
`uploaderFor`; `(aerr, st3)` is the result of enqueueing the book name on `toQueue` on the
state left by the job.  If `toQueue` is the ocr-page queue, the uploader of the job is
`upAndQueue` and the driver makes no `AddToQueue` call; if `toQueue` is empty it makes none
either; in both cases the source message is deleted on the state left by the job.  For every
other `toQueue` the uploader is `up`, which makes no queue call, and the driver makes exactly
one `AddToQueue` call, on `toQueue` with the first field of the message body as the whole
body; when it succeeds the source message is deleted after it, and when it fails the source
message is not deleted.  In every case the adapter is left in the state reached by exactly
these calls and the removal of the scratch directory. -/
theorem processBook_done {σ : Type} (conn : Pipeliner σ) (host : Host σ)
    (engine : Engine σ) (msg : Qmsg) (process : Transform σ) (matchRe : Str → Bool)
    (fromQueue toQueue : Str) (st st1 st2 st3 : σ) (objs : List Str) (out : EngineOut σ)
    (aerr : Option Err)
    (hmk : host.MkdirAll (filepathJoin [host.TempDir, processBookName msg]) st = (none, st1))
    (hls : conn.ListObjects conn.WIPStorageId (processBookName msg) st1 = ((objs, none), st2))
    (hjob : engine (uploaderFor conn toQueue (processBookName msg) (processBookTraining msg))
      process (objs.filter matchRe) (filepathJoin [host.TempDir, processBookName msg]) msg
      fromQueue st2 = out)
    (hsel : out.sel = .done)
    (hadd : conn.AddToQueue toQueue ((Split msg.Body ' ').headD []) out.st = (aerr, st3)) :
    (toQueue = conn.OCRPageQueueId →
      uploaderFor conn toQueue (processBookName msg) (processBookTraining msg) =
        .upAndQueue toQueue (processBookName msg) (processBookTraining msg)) ∧
    (toQueue = conn.OCRPageQueueId ∨ toQueue = [] →
      addCalls (ProcessBook conn host engine msg process matchRe fromQueue toQueue
        ⟨st, []⟩).2.calls = [] ∧
      protocol (ProcessBook conn host engine msg process matchRe fromQueue toQueue
        ⟨st, []⟩).2.calls =
        [.selected .done,
          .delFromQueue fromQueue (out.msgc.getD msg).Handle
            (conn.DelFromQueue fromQueue (out.msgc.getD msg).Handle out.st).1.isNone] ∧
      (ProcessBook conn host engine msg process matchRe fromQueue toQueue ⟨st, []⟩).2.st =
        (host.RemoveAll (filepathJoin [host.TempDir, processBookName msg])
          (conn.DelFromQueue fromQueue (out.msgc.getD msg).Handle out.st).2).2) ∧
    (toQueue ≠ conn.OCRPageQueueId →
      uploaderFor conn toQueue (processBookName msg) (processBookTraining msg) =
          .up (processBookName msg) ∧
        (∀ c r, addCalls (up conn host (processBookName msg) c r).2.calls = addCalls r.calls) ∧
        ∀ (conn2 : Pipeliner σ) c r, conn2.Upload = conn.Upload →
          conn2.WIPStorageId = conn.WIPStorageId →
          up conn2 host (processBookName msg) c r = up conn host (processBookName msg) c r) ∧
    (toQueue ≠ [] → toQueue ≠ conn.OCRPageQueueId → aerr = none →
      protocol (ProcessBook conn host engine msg process matchRe fromQueue toQueue
          ⟨st, []⟩).2.calls =
        [.selected .done, .addToQueue toQueue ((Split msg.Body ' ').headD []) true,
          .delFromQueue fromQueue (out.msgc.getD msg).Handle
            (conn.DelFromQueue fromQueue (out.msgc.getD msg).Handle st3).1.isNone] ∧
      (ProcessBook conn host engine msg process matchRe fromQueue toQueue ⟨st, []⟩).2.st =
        (host.RemoveAll (filepathJoin [host.TempDir, processBookName msg])
          (conn.DelFromQueue fromQueue (out.msgc.getD msg).Handle st3).2).2) ∧
    (toQueue ≠ [] → toQueue ≠ conn.OCRPageQueueId → ∀ err, aerr = some err →
      (ProcessBook conn host engine msg process matchRe fromQueue toQueue ⟨st, []⟩).1 =
        some ("Error adding to queue ".toList ++ (Split msg.Body ' ').headD [] ++ ": ".toList
          ++ err) ∧
      protocol (ProcessBook conn host engine msg process matchRe fromQueue toQueue
          ⟨st, []⟩).2.calls =
        [.selected .done, .addToQueue toQueue ((Split msg.Body ' ').headD []) false] ∧
      (ProcessBook conn host engine msg process matchRe fromQueue toQueue ⟨st, []⟩).2.st =
        (host.RemoveAll (filepathJoin [host.TempDir, processBookName msg]) st3).2) := by
  refine ⟨fun hto => by simp [uploaderFor, hto], ?_,
    fun h2 => ⟨by simp [uploaderFor, h2], fun c r => up_addCalls conn host _ c r,
      fun conn2 c r hup hid => up_only_uploads conn conn2 host _ hup hid c r⟩, ?_, ?_⟩
  · intro hto
    have hcond : ¬ (toQueue ≠ [] ∧ toQueue ≠ conn.OCRPageQueueId) := by
      rcases hto with h | h
      · exact fun hc => hc.2 h
      · exact fun hc => hc.1 h
    unfold processBookName processBookTraining at *
    unfold ProcessBook
    simp only [Run.step, hmk, hls, hjob, hsel, if_neg hcond]
    obtain ⟨h1, h2, -⟩ := deleteAndCleanup_run conn host msg out.msgc fromQueue
      (filepathJoin [host.TempDir, (Split msg.Body ' ').headD []])
      ⟨out.st, [] ++ [.mkdirAll (filepathJoin [host.TempDir, (Split msg.Body ' ').headD []])
          (none : Option Err).isNone] ++
        [.started (uploaderFor conn toQueue ((Split msg.Body ' ').headD [])
            (if 1 < (Split msg.Body ' ').length then (Split msg.Body ' ').getD 1 [] else [])),
          .listObjects conn.WIPStorageId ((Split msg.Body ' ').headD [])
            (none : Option Err).isNone] ++
        [.selected .done]⟩
    refine ⟨?_, ?_, h1⟩
    · rw [h2]
      simp [addCalls_append, addCalls]
    · rw [h2]
      simp [protocol_append, protocol]
  · intro h1 h2 ha
    subst ha
    have hcond : toQueue ≠ [] ∧ toQueue ≠ conn.OCRPageQueueId := ⟨h1, h2⟩
    unfold processBookName processBookTraining at *
    unfold ProcessBook
    simp only [Run.step, hmk, hls, hjob, hsel, if_pos hcond, hadd]
    obtain ⟨h3, h4, -⟩ := deleteAndCleanup_run conn host msg out.msgc fromQueue
      (filepathJoin [host.TempDir, (Split msg.Body ' ').headD []])
      ⟨st3, [] ++ [.mkdirAll (filepathJoin [host.TempDir, (Split msg.Body ' ').headD []])
          (none : Option Err).isNone] ++
        [.started (uploaderFor conn toQueue ((Split msg.Body ' ').headD [])
            (if 1 < (Split msg.Body ' ').length then (Split msg.Body ' ').getD 1 [] else [])),
          .listObjects conn.WIPStorageId ((Split msg.Body ' ').headD [])
            (none : Option Err).isNone] ++
        [.selected .done] ++
        [.addToQueue toQueue ((Split msg.Body ' ').headD []) (none : Option Err).isNone]⟩
    refine ⟨?_, h3⟩
    rw [h4]
    simp [protocol_append, protocol]
  · intro h1 h2 err ha
    subst ha
    have hcond : toQueue ≠ [] ∧ toQueue ≠ conn.OCRPageQueueId := ⟨h1, h2⟩
    unfold processBookName processBookTraining at *
    unfold ProcessBook
    simp only [Run.step, hmk, hls, hjob, hsel, if_pos hcond, hadd]
    simp [protocol_append, protocol]

/-- C9 at two concrete jobs.  A wipe job bound for the ocr-page queue: the page is uploaded
and its message enqueued by `upAndQueue`, no book-level message is enqueued, and the wipe
message is deleted.  A job bound for the analyse queue: the book name alone is enqueued on
the analyse queue and the source message is deleted. -/
theorem processBook_done_witness :
    (ProcessBook memConn memHost (seqEngine memConn memHost)
        ⟨[], ("h1".toList), ("b eng".toList)⟩ (Wipe memHost)
        (fun k => HasSuffix k (".png".toList)) memConn.WipeQueueId memConn.OCRPageQueueId
        ⟨⟨[("b/p_0001.png".toList)], [], [], []⟩, []⟩).2.st =
      ⟨[("b/p_0001.png".toList), ("b/p_0001_bin0.0.png".toList)],
        [(memConn.OCRPageQueueId, ("b/p_0001_bin0.0.png eng".toList))],
        [(memConn.WipeQueueId, ("h1".toList))], []⟩ ∧
    (ProcessBook memConn memHost (seqEngine memConn memHost)
        ⟨[], ("h1".toList), ("b eng".toList)⟩ (Ocr memHost ("eng".toList))
        (fun k => HasSuffix k (".png".toList)) memConn.OCRPageQueueId memConn.AnalyseQueueId
        ⟨⟨[("b/p_bin0.1.png".toList)], [], [], []⟩, []⟩).2.st =
      ⟨[("b/p_bin0.1.png".toList), ("b/p_bin0.1.hocr".toList)],
        [(memConn.AnalyseQueueId, ['b'])], [(memConn.OCRPageQueueId, ("h1".toList))], []⟩ :=
  ⟨((processBook_done memConn memHost (seqEngine memConn memHost)
      ⟨[], ("h1".toList), ("b eng".toList)⟩ (Wipe memHost)
      (fun k => HasSuffix k (".png".toList)) memConn.WipeQueueId memConn.OCRPageQueueId
      ⟨[("b/p_0001.png".toList)], [], [], []⟩ ⟨[("b/p_0001.png".toList)], [], [], []⟩
      ⟨[("b/p_0001.png".toList)], [], [], []⟩ _ [("b/p_0001.png".toList)] _ _
      rfl (by decide) rfl (by decide) rfl).2.1 (Or.inl rfl)).2.2.trans (by decide),
   ((processBook_done memConn memHost (seqEngine memConn memHost)
      ⟨[], ("h1".toList), ("b eng".toList)⟩ (Ocr memHost ("eng".toList))
      (fun k => HasSuffix k (".png".toList)) memConn.OCRPageQueueId memConn.AnalyseQueueId
      ⟨[("b/p_bin0.1.png".toList)], [], [], []⟩ ⟨[("b/p_bin0.1.png".toList)], [], [], []⟩
      ⟨[("b/p_bin0.1.png".toList)], [], [], []⟩
      ⟨[("b/p_bin0.1.png".toList), ("b/p_bin0.1.hocr".toList)],
        [(memConn.AnalyseQueueId, ['b'])], [], [("/tmp/b/p_bin0.1.png".toList)]⟩
      [("b/p_bin0.1.png".toList)] _ none
      rfl (by decide) rfl (by decide) (by decide)).2.2.2.1 (by decide) (by decide) rfl).2.trans
        (by decide)⟩

/-! ## Books whose names share a prefix -/

/-- C11 (the code departs from the claim): listing the bucket with the prefix `b` also
returns the keys of book `b2`.  With the objects `b/p_bin0.1.png`, `b/p_bin0.1.hocr` and
`b2/q_bin0.1.png`, `allOCRed` for `b` returns false on the listing and true on the listing
restricted to the keys that start with `b/`; with the objects `b/p_bin0.1.hocr` and
`b2/p_bin0.1.png` it returns true on the listing and false on the restricted one. -/
theorem allOCRed_prefix_listing :
    (memConn.ListObjects memConn.WIPStorageId ['b']
        ⟨[("b/p_bin0.1.png".toList), ("b/p_bin0.1.hocr".toList), ("b2/q_bin0.1.png".toList)],
          [], [], []⟩).1 =
      ([("b/p_bin0.1.png".toList), ("b/p_bin0.1.hocr".toList), ("b2/q_bin0.1.png".toList)], none) ∧
    (allOCRed memConn ['b']
        ⟨⟨[("b/p_bin0.1.png".toList), ("b/p_bin0.1.hocr".toList), ("b2/q_bin0.1.png".toList)],
          [], [], []⟩, []⟩).1 = false ∧
    allOCRedOf ['b']
        ([("b/p_bin0.1.png".toList), ("b/p_bin0.1.hocr".toList), ("b2/q_bin0.1.png".toList)].filter
          (fun k => HasPrefix k ['b', '/']), none) = true ∧
    (allOCRed memConn ['b']
        ⟨⟨[("b/p_bin0.1.hocr".toList), ("b2/p_bin0.1.png".toList)], [], [], []⟩, []⟩).1 = true ∧
    allOCRedOf ['b']
        ([("b/p_bin0.1.hocr".toList), ("b2/p_bin0.1.png".toList)].filter
          (fun k => HasPrefix k ['b', '/']), none) = false := by
  refine ⟨by decide, by decide, by decide, by decide, by decide⟩

/-! ## The names of the files written by `Ocr` and `Wipe` -/

/-- C12 (the code departs from the claim): for the input path `/tmp/b/a.png_bin0.1.png`,
which ends in `.png`, `Ocr` succeeds and emits `/tmp/b/a_bin0.1.png.hocr`: the first `.png`
of the path was removed, not the trailing one, so the path emitted is not
`/tmp/b/a.png_bin0.1.hocr`.  (For `/tmp/b/a_bin0.1.png` it emits `/tmp/b/a_bin0.1.hocr`.) -/
theorem ocr_removes_first_png :
    HasSuffix ("/tmp/b/a.png_bin0.1.png".toList) (".png".toList) = true ∧
    (Ocr memHost ("eng".toList) [("/tmp/b/a.png_bin0.1.png".toList)]
        ⟨⟨[], [], [], [("/tmp/b/a.png_bin0.1.png".toList)]⟩, []⟩).1 =
      ([("/tmp/b/a_bin0.1.png.hocr".toList)], none) ∧
    TrimSuffix ("/tmp/b/a.png_bin0.1.png".toList) (".png".toList) ++ (".hocr".toList) =
      ("/tmp/b/a.png_bin0.1.hocr".toList) ∧
    (Ocr memHost ("eng".toList) [("/tmp/b/a_bin0.1.png".toList)]
        ⟨⟨[], [], [], [("/tmp/b/a_bin0.1.png".toList)]⟩, []⟩).1 =
      ([("/tmp/b/a_bin0.1.hocr".toList)], none) := by
  refine ⟨by decide, by decide, by decide, by decide⟩

/-- C13 (the code departs from the claim): for the input path `/tmp/b/p.0001.png`, whose
extension is `.png`, `Wipe` writes to and emits `/tmp/b/p0001_bin0.0.png`: the parts of the
path between dots were joined with the empty string, so the dot inside the file name is
lost and the path emitted is not `/tmp/b/p.0001_bin0.0.png`.  (For `/tmp/b/p_0001.png` it
emits `/tmp/b/p_0001_bin0.0.png`.) -/
theorem wipe_drops_every_dot :
    (Wipe memHost [("/tmp/b/p.0001.png".toList)]
        ⟨⟨[], [], [], [("/tmp/b/p.0001.png".toList)]⟩, []⟩).1 =
      ([("/tmp/b/p0001_bin0.0.png".toList)], none) ∧
    (Wipe memHost [("/tmp/b/p.0001.png".toList)]
        ⟨⟨[], [], [], [("/tmp/b/p.0001.png".toList)]⟩, []⟩).2.calls =
      [.wipeFile ("/tmp/b/p.0001.png".toList) ("/tmp/b/p0001_bin0.0.png".toList) true] ∧
    (Wipe memHost [("/tmp/b/p_0001.png".toList)]
        ⟨⟨[], [], [], [("/tmp/b/p_0001.png".toList)]⟩, []⟩).1 =
      ([("/tmp/b/p_0001_bin0.0.png".toList)], none) := by
  refine ⟨by decide, by decide, by decide⟩

/-! ## The split of a file name at `_bin` -/

/-- Go `strings.Index`: `-1` when there is no occurrence, and otherwise the length of the
text before the first occurrence. -/
theorem index_spec (s sub : Str) :
    (Index s sub = -1 ∧ ¬ sub <:+: s) ∨
      ∃ pre suf, s = pre ++ sub ++ suf ∧ Index s sub = (pre.length : Int) ∧
        ∀ pre2 suf2, s = pre2 ++ sub ++ suf2 → pre.length ≤ pre2.length := by
  induction s with
  | nil =>
    rw [Index]
    by_cases hp : sub.isPrefixOf ([] : Str) = true
    · right
      rw [if_pos hp]
      have hsub : sub = [] := List.prefix_nil.1 (List.isPrefixOf_iff_prefix.1 hp)
      exact ⟨[], [], by simp [hsub], by simp, fun _ _ _ => Nat.zero_le _⟩
    · left
      rw [if_neg hp]
      refine ⟨rfl, fun h => hp ?_⟩
      rw [List.infix_nil] at h
      simp [h]
  | cons c cs ih =>
    rw [Index]
    by_cases hp : sub.isPrefixOf (c :: cs) = true
    · right
      rw [if_pos hp]
      obtain ⟨suf, hsuf⟩ := List.isPrefixOf_iff_prefix.1 hp
      exact ⟨[], suf, by simp [hsuf], by simp, fun _ _ _ => Nat.zero_le _⟩
    · rw [if_neg hp]
      have hnp : ¬ sub <+: c :: cs := fun h => hp (List.isPrefixOf_iff_prefix.2 h)
      rcases ih with ⟨hi, hno⟩ | ⟨pre, suf, hs, hi, hfirst⟩
      · left
        simp only [hi]
        refine ⟨by simp, fun h => ?_⟩
        rcases List.infix_cons_iff.1 h with h | h
        · exact hnp h
        · exact hno h
      · right
        simp only [hi]
        refine ⟨c :: pre, suf, by simp [hs], ?_, ?_⟩
        · have : ¬ ((pre.length : Int) < 0) := by omega
          simp [this]
        · intro pre2 suf2 h2
          cases pre2 with
          | nil =>
            exfalso
            exact hnp ⟨suf2, by simpa using h2.symm⟩
          | cons d pre2 =>
            simp only [List.cons_append, List.cons.injEq] at h2
            have := hfirst pre2 suf2 h2.2
            simp
            omega

theorem slice_take (s : Str) (n : Nat) (h : n ≤ s.length) :
    slice s 0 (n : Int) = some (s.take n) := by
  unfold slice
  rw [if_pos ⟨le_refl _, by omega, by omega⟩]
  simp

theorem slice_drop (s : Str) (n : Nat) (h : n ≤ s.length) :
    slice s (n : Int) (s.length : Int) = some (s.drop n) := by
  unfold slice
  rw [if_pos ⟨by omega, by omega, le_refl _⟩]
  simp

/-- For a path whose confidence is obtained and whose basename contains `_bin`, the entry
recorded is the basename cut at its first `_bin`. -/
theorem recordOf_split (GetAvgConf : Str → AvgConf) (path : Str) (avg : ℚ)
    (hG : GetAvgConf path = .ok avg) (hbin : ['_', 'b', 'i', 'n'] <:+: Base path) :
    ∃ name code, recordOf GetAvgConf path = some (name, ⟨path, code, avg⟩) ∧
      Base path = name ++ code ∧ ['_', 'b', 'i', 'n'] <+: code ∧
      ∀ pre suf, Base path = pre ++ ['_', 'b', 'i', 'n'] ++ suf → name.length ≤ pre.length := by
  rcases index_spec (Base path) ['_', 'b', 'i', 'n'] with ⟨-, hno⟩ | ⟨pre, suf, hs, hi, hfirst⟩
  · exact absurd hbin hno
  · have hlen : pre.length ≤ (Base path).length := by
      rw [hs]
      simp
    refine ⟨pre, ['_', 'b', 'i', 'n'] ++ suf, ?_, by rw [hs]; simp, ⟨suf, rfl⟩, hfirst⟩
    unfold recordOf
    simp only [hG, hi, slice_take _ _ hlen, slice_drop _ _ hlen]
    have h1 : (Base path).take pre.length = pre := by
      rw [hs]
      simp
    have h2 : (Base path).drop pre.length = ['_', 'b', 'i', 'n'] ++ suf := by
      rw [hs]
      simp
    rw [h1, h2]

/-- The first loop of `Analyse` in terms of `recordOf`: a path with an entry is recorded
with `mapAppend` and the loop goes on. -/
theorem readConfs_cons_record (GetAvgConf : Str → AvgConf) (path : Str) (e : Str × Conf)
    (he : recordOf GetAvgConf path = some e) (toanalyse : List Str)
    (confs : List (Str × List Conf)) :
    readConfs GetAvgConf (path :: toanalyse) confs =
      readConfs GetAvgConf toanalyse (mapAppend confs e.1 e.2) := by
  rw [readConfs]
  unfold recordOf at he
  cases hG : GetAvgConf path with
  | noWords => rw [hG] at he; exact absurd he (by simp)
  | failed err => rw [hG] at he; exact absurd he (by simp)
  | ok avg =>
    rw [hG] at he
    dsimp only at he ⊢
    cases h1 : slice (Base path) 0 (Index (Base path) ['_', 'b', 'i', 'n']) with
    | none => rw [h1] at he; exact absurd he (by simp)
    | some name =>
      cases h2 : slice (Base path) (Index (Base path) ['_', 'b', 'i', 'n'])
          (Base path).length with
      | none => rw [h1, h2] at he; exact absurd he (by simp)
      | some code =>
        rw [h1, h2] at he
        dsimp only at he ⊢
        simp only [Option.some.injEq] at he
        rw [← he]

theorem mem_mapAppend (confs : List (Str × List Conf)) (name : Str) (c : Conf) :
    ∃ vs, (name, vs ++ [c]) ∈ mapAppend confs name c := by
  induction confs with
  | nil => exact ⟨[], by simp [mapAppend]⟩
  | cons e rest ih =>
    obtain ⟨k, v⟩ := e
    by_cases hk : k = name
    · exact ⟨v, by simp [mapAppend, hk]⟩
    · obtain ⟨vs, hvs⟩ := ih
      exact ⟨vs, by simp [mapAppend, hk, hvs]⟩

/-- C14: for a path whose confidence is obtained (its hOCR has words) and whose basename
contains `_bin`, the first loop of `Analyse` records, and then goes on with the next path,
the variant with the path unchanged and the code `code` under the base `name`, where
`name ++ code` is the basename, `code` starts with `_bin` and no `_bin` starts earlier in
the basename.  Two such paths are recorded under the same base exactly when these parts
before the first `_bin` are equal. -/
theorem analyse_records_base_and_code (GetAvgConf : Str → AvgConf) (path : Str) (avg : ℚ)
    (hG : GetAvgConf path = .ok avg) (hbin : ['_', 'b', 'i', 'n'] <:+: Base path) :
    ∃ name code, Base path = name ++ code ∧ ['_', 'b', 'i', 'n'] <+: code ∧
      (∀ pre suf, Base path = pre ++ ['_', 'b', 'i', 'n'] ++ suf → name.length ≤ pre.length) ∧
      (∀ toanalyse confs, readConfs GetAvgConf (path :: toanalyse) confs =
        readConfs GetAvgConf toanalyse (mapAppend confs name ⟨path, code, avg⟩)) ∧
      (∀ confs, ∃ vs, (name, vs ++ [⟨path, code, avg⟩]) ∈
        mapAppend confs name ⟨path, code, avg⟩) ∧
      ∀ path2 avg2, GetAvgConf path2 = .ok avg2 → ['_', 'b', 'i', 'n'] <:+: Base path2 →
        ∃ name2 code2, Base path2 = name2 ++ code2 ∧ ['_', 'b', 'i', 'n'] <+: code2 ∧
          (∀ pre suf, Base path2 = pre ++ ['_', 'b', 'i', 'n'] ++ suf →
            name2.length ≤ pre.length) ∧
          readConfs GetAvgConf [path, path2] [] =
            .ok (if name = name2 then
                [(name, [⟨path, code, avg⟩, ⟨path2, code2, avg2⟩])]
              else [(name, [⟨path, code, avg⟩]), (name2, [⟨path2, code2, avg2⟩])]) := by
  obtain ⟨name, code, hrec, hbase, hcode, hfirst⟩ := recordOf_split GetAvgConf path avg hG hbin
  refine ⟨name, code, hbase, hcode, hfirst, ?_, fun confs => mem_mapAppend confs _ _, ?_⟩
  · intro toanalyse confs
    exact readConfs_cons_record GetAvgConf path _ hrec toanalyse confs
  · intro path2 avg2 hG2 hbin2
    obtain ⟨name2, code2, hrec2, hbase2, hcode2, hfirst2⟩ :=
      recordOf_split GetAvgConf path2 avg2 hG2 hbin2
    refine ⟨name2, code2, hbase2, hcode2, hfirst2, ?_⟩
    rw [readConfs_cons_record GetAvgConf path _ hrec, readConfs_cons_record GetAvgConf path2 _ hrec2]
    by_cases hn : name = name2
    · simp [readConfs, mapAppend, hn]
    · simp [readConfs, mapAppend, hn]

/-- C14 at a concrete path: `/tmp/b/p_0001_bin0.2.hocr` with confidence 81. -/
theorem analyse_records_base_and_code_witness :
    ∃ name code, Base ("/tmp/b/p_0001_bin0.2.hocr".toList) = name ++ code ∧
      ['_', 'b', 'i', 'n'] <+: code ∧
      (∀ pre suf, Base ("/tmp/b/p_0001_bin0.2.hocr".toList) = pre ++ ['_', 'b', 'i', 'n'] ++ suf →
        name.length ≤ pre.length) ∧
      (∀ toanalyse confs,
        readConfs (fun _ => .ok 81) (("/tmp/b/p_0001_bin0.2.hocr".toList) :: toanalyse) confs =
          readConfs (fun _ => .ok 81) toanalyse
            (mapAppend confs name ⟨("/tmp/b/p_0001_bin0.2.hocr".toList), code, 81⟩)) :=
  (analyse_records_base_and_code (fun _ => .ok 81) ("/tmp/b/p_0001_bin0.2.hocr".toList) 81 rfl
    ⟨("p_0001".toList), ("0.2.hocr".toList), by decide⟩).imp
    (fun _ h => h.imp (fun _ h2 => ⟨h2.1, h2.2.1, h2.2.2.1, h2.2.2.2.1⟩))

/-! ## Ties between variants -/

theorem lookup_mapAppend (m : List (Str × List Conf)) (name b : Str) (c : Conf) :
    (mapAppend m name c).lookup b =
      if name = b then some ((m.lookup b).getD [] ++ [c]) else m.lookup b := by
  induction m with
  | nil =>
    by_cases hb : name = b
    · subst hb
      simp [mapAppend, List.lookup]
    · have hb2 : (b == name) = false := by
        rw [beq_eq_false_iff_ne]
        exact fun h => hb h.symm
      simp [mapAppend, List.lookup, hb, hb2]
  | cons e rest ih =>
    obtain ⟨k, v⟩ := e
    by_cases hk : k = name
    · subst hk
      by_cases hb : k = b
      · subst hb
        simp [mapAppend, List.lookup]
      · have hb2 : (b == k) = false := by
          rw [beq_eq_false_iff_ne]
          exact fun h => hb h.symm
        simp [mapAppend, List.lookup, hb, hb2]
    · by_cases hbk : b = k
      · subst hbk
        have hnb : ¬ name = b := fun h => hk h.symm
        simp [mapAppend, List.lookup, hk, hnb]
      · have hb2 : (b == k) = false := by
          rw [beq_eq_false_iff_ne]
          exact hbk
        simp [mapAppend, List.lookup, hk, hb2, ih]

theorem lookup_of_mem_nodup (m : List (Str × List Conf)) (b : Str) (vs : List Conf)
    (hn : (m.map Prod.fst).Nodup) (h : (b, vs) ∈ m) : m.lookup b = some vs := by
  induction m with
  | nil => simp at h
  | cons e rest ih =>
    obtain ⟨k, v⟩ := e
    simp only [List.map_cons, List.nodup_cons] at hn
    rcases List.mem_cons.1 h with h | h
    · simp only [Prod.mk.injEq] at h
      simp [List.lookup, h.1, h.2]
    · have hbk : ¬ b = k := by
        intro hbk
        apply hn.1
        rw [← hbk]
        exact List.mem_map.2 ⟨(b, vs), h, rfl⟩
      have hb2 : (b == k) = false := by
        rw [beq_eq_false_iff_ne]
        exact hbk
      simp [List.lookup, hb2, ih hn.2 h]

theorem readConfs_cons_skip (GetAvgConf : Str → AvgConf) (path : Str)
    (he : recordOf GetAvgConf path = none) (toanalyse : List Str)
    (confs out : List (Str × List Conf))
    (h : readConfs GetAvgConf (path :: toanalyse) confs = .ok out) :
    readConfs GetAvgConf toanalyse confs = .ok out := by
  rw [readConfs] at h
  unfold recordOf at he
  split at h
  · exact h
  · exact absurd h (by simp)
  · rename_i avg hG
    simp only [hG] at he
    simp only at h he
    split at h
    · rename_i name code h1 h2
      simp [h1, h2] at he
    · exact absurd h (by simp)

/-- The map built by the first loop of `Analyse` holds, under every page base, the variants
recorded for that base in the order of their arrival. -/
theorem readConfs_lookup (GetAvgConf : Str → AvgConf) (toanalyse : List Str)
    (confs out : List (Str × List Conf))
    (h : readConfs GetAvgConf toanalyse confs = .ok out) (b : Str) :
    (out.lookup b).getD [] = (confs.lookup b).getD [] ++ arrivalsOf GetAvgConf b toanalyse := by
  induction toanalyse generalizing confs with
  | nil =>
    simp only [readConfs, Except.ok.injEq] at h
    simp [arrivalsOf, h]
  | cons path rest ih =>
    cases he : recordOf GetAvgConf path with
    | none =>
      have := ih confs (readConfs_cons_skip GetAvgConf path he rest confs out h)
      rw [this]
      simp [arrivalsOf, he]
    | some e =>
      rw [readConfs_cons_record GetAvgConf path e he] at h
      rw [ih _ h, lookup_mapAppend]
      by_cases hb : e.1 = b
      · simp [arrivalsOf, he, hb]
      · simp [arrivalsOf, he, hb]

theorem readConfs_arrivals (GetAvgConf : Str → AvgConf) (toanalyse : List Str)
    (out : List (Str × List Conf)) (h : readConfs GetAvgConf toanalyse [] = .ok out)
    (b : Str) (vs : List Conf) (hm : (b, vs) ∈ out) :
    vs = arrivalsOf GetAvgConf b toanalyse := by
  have h1 := readConfs_lookup GetAvgConf toanalyse [] out h b
  rw [lookup_of_mem_nodup out b vs (readConfs_nodup GetAvgConf toanalyse [] out (by simp) h) hm]
    at h1
  simpa using h1

/-- The inner selection loop, when all its writes succeed: either no variant exceeds the
running `best`, or the entry of the page is the first variant of greatest confidence. -/
theorem saveConfsPage_first {σ : Type} (host : Host σ) (fn base : Str) (conf : List Conf)
    (best : ℚ) (b b' : List (Str × Conf)) (r r' : Run σ)
    (h : saveConfsPage host fn base conf best b r = (.ok b', r')) :
    (b' = b ∧ ∀ v ∈ conf, v.Conf ≤ best) ∨
      ∃ pre c post, conf = pre ++ c :: post ∧ b' = mapSet b base c ∧ best < c.Conf ∧
        (∀ v ∈ pre, v.Conf < c.Conf) ∧ ∀ v ∈ post, v.Conf ≤ c.Conf := by
  induction conf generalizing best b r with
  | nil =>
    simp only [saveConfsPage, Prod.mk.injEq, Except.ok.injEq] at h
    exact Or.inl ⟨h.1.symm, by simp⟩
  | cons c conf ih =>
    rw [saveConfsPage] at h
    split at h
    · exact absurd h (by simp)
    · by_cases hc : c.Conf > best
      · simp only [if_pos hc] at h
        right
        rcases ih _ _ _ h with ⟨hb, hall⟩ | ⟨pre, c', post, hconf, hb, hlt, hpre, hpost⟩
        · exact ⟨[], c, conf, rfl, hb, hc, by simp, hall⟩
        · refine ⟨c :: pre, c', post, by rw [hconf]; rfl, ?_, lt_trans hc hlt, ?_, hpost⟩
          · rw [hb, mapSet_mapSet]
          · intro v hv
            rcases List.mem_cons.1 hv with rfl | hv
            · exact hlt
            · exact hpre v hv
      · simp only [if_neg hc] at h
        have hle : c.Conf ≤ best := not_lt.1 hc
        rcases ih _ _ _ h with ⟨hb, hall⟩ | ⟨pre, c', post, hconf, hb, hlt, hpre, hpost⟩
        · left
          refine ⟨hb, ?_⟩
          intro v hv
          rcases List.mem_cons.1 hv with rfl | hv
          · exact hle
          · exact hall v hv
        · right
          refine ⟨c :: pre, c', post, by rw [hconf]; rfl, hb, hlt, ?_, hpost⟩
          intro v hv
          rcases List.mem_cons.1 hv with rfl | hv
          · exact lt_of_le_of_lt hle hlt
          · exact hpre v hv

theorem saveConfs_first {σ : Type} (host : Host σ) (fn : Str)
    (entries : List (Str × List Conf)) (b b' : List (Str × Conf)) (r r' : Run σ)
    (h : saveConfs host fn entries b r = (.ok b', r')) (k : Str) (c : Conf)
    (hk : (k, c) ∈ b') :
    (k, c) ∈ b ∨ ∃ vs pre post, (k, vs) ∈ entries ∧ vs = pre ++ c :: post ∧
      (∀ v ∈ pre, v.Conf < c.Conf) ∧ ∀ v ∈ post, v.Conf ≤ c.Conf := by
  induction entries generalizing b r with
  | nil =>
    simp only [saveConfs, Prod.mk.injEq, Except.ok.injEq] at h
    exact Or.inl (h.1 ▸ hk)
  | cons e rest ih =>
    obtain ⟨base, conf⟩ := e
    rw [saveConfs] at h
    split at h
    · exact absurd h (by simp)
    · rename_i b1 r1 hpage
      rcases ih _ _ h with hin | ⟨vs, pre, post, hvs, hsplit, hpre, hpost⟩
      · rcases saveConfsPage_first host fn base conf 0 b b1 r r1 hpage with
          ⟨hb, -⟩ | ⟨pre, c', post, hconf, hb, -, hpre, hpost⟩
        · exact Or.inl (hb ▸ hin)
        · rw [hb] at hin
          rcases mem_mapSet _ _ _ _ _ hin with heq | hin
          · right
            simp only [Prod.mk.injEq] at heq
            exact ⟨conf, pre, post, heq.1 ▸ List.mem_cons_self _ _, heq.2 ▸ hconf,
              heq.2 ▸ hpre, heq.2 ▸ hpost⟩
          · exact Or.inl hin
      · exact Or.inr ⟨vs, pre, post, List.mem_cons_of_mem _ hvs, hsplit, hpre, hpost⟩

/-- C15, as stated, fails: two variants of the page `p_0001` arrive with the same
confidence 50, first `_bin0.1` and then `_bin0.2`; the variant selected is `_bin0.1`, the
one that arrived first, and the `best` manifest names it. -/
theorem analyse_tie_selects_first :
    arrivalsOf (fun _ => .ok 50) ("p_0001".toList)
        [("/tmp/b/p_0001_bin0.1.hocr".toList), ("/tmp/b/p_0001_bin0.2.hocr".toList)] =
      [⟨("/tmp/b/p_0001_bin0.1.hocr".toList), ("_bin0.1.hocr".toList), 50⟩,
       ⟨("/tmp/b/p_0001_bin0.2.hocr".toList), ("_bin0.2.hocr".toList), 50⟩] ∧
    (analyseManifests memHost (fun _ => .ok 50) id id
        [("/tmp/b/p_0001_bin0.1.hocr".toList), ("/tmp/b/p_0001_bin0.2.hocr".toList)]
        ⟨⟨[], [], [], []⟩, []⟩).bestconfs =
      [(("p_0001".toList),
        ⟨("/tmp/b/p_0001_bin0.1.hocr".toList), ("_bin0.1.hocr".toList), 50⟩)] ∧
    linesWritten ("/tmp/b/best".toList)
        (analyseManifests memHost (fun _ => .ok 50) id id
          [("/tmp/b/p_0001_bin0.1.hocr".toList), ("/tmp/b/p_0001_bin0.2.hocr".toList)]
          ⟨⟨[], [], [], []⟩, []⟩).run.calls = [("p_0001_bin0.1.hocr\n".toList)] := by
  refine ⟨by decide, by decide, by decide⟩

/-- C15, amended: the variant `c` that `Analyse` selects for a page base `b` is the first,
in the order of arrival on the input channel, of the variants of greatest confidence
recorded under `b`: every variant that arrived before it has a smaller confidence and none
that arrived after it has a greater one. -/
theorem analyse_selects_first_max {σ : Type} (host : Host σ) (GetAvgConf : Str → AvgConf)
    (rangeConfs : List (Str × List Conf) → List (Str × List Conf))
    (rangeBest : List (Str × Conf) → List (Str × Conf))
    (hrange : ∀ l, (rangeConfs l).Perm l) (toanalyse : List Str) (r : Run σ)
    (b : Str) (c : Conf)
    (h : (b, c) ∈ (analyseManifests host GetAvgConf rangeConfs rangeBest toanalyse r).bestconfs) :
    ∃ pre post, arrivalsOf GetAvgConf b toanalyse = pre ++ c :: post ∧
      (∀ v ∈ pre, v.Conf < c.Conf) ∧ ∀ v ∈ post, v.Conf ≤ c.Conf := by
  obtain ⟨confs, fn, r1, r2, hread, hsave⟩ :=
    analyseManifests_bestconfs host GetAvgConf rangeConfs rangeBest toanalyse r b c h
  rcases saveConfs_first host fn _ _ _ r1 r2 hsave b c h with
    hnil | ⟨vs, pre, post, hvs, hsplit, hpre, hpost⟩
  · exact absurd hnil (by simp)
  · have hmem : (b, vs) ∈ confs := (hrange confs).mem_iff.1 hvs
    refine ⟨pre, post, ?_, hpre, hpost⟩
    rw [← readConfs_arrivals GetAvgConf toanalyse confs hread b vs hmem, hsplit]

/-- C15, amended, at a concrete input: a tie between the first two of three variants. -/
theorem analyse_selects_first_max_witness :
    ∃ pre post,
      arrivalsOf (fun p => if p = ("/tmp/b/p_0001_bin0.3.hocr".toList) then .ok 40 else .ok 50)
          ("p_0001".toList)
          [("/tmp/b/p_0001_bin0.1.hocr".toList), ("/tmp/b/p_0001_bin0.2.hocr".toList),
            ("/tmp/b/p_0001_bin0.3.hocr".toList)] =
        pre ++ (⟨("/tmp/b/p_0001_bin0.1.hocr".toList), ("_bin0.1.hocr".toList), 50⟩ : Conf) :: post ∧
      (∀ v ∈ pre, v.Conf < 50) ∧ ∀ v ∈ post, v.Conf ≤ 50 :=
  analyse_selects_first_max memHost
    (fun p => if p = ("/tmp/b/p_0001_bin0.3.hocr".toList) then .ok 40 else .ok 50) id id
    (fun l => List.Perm.refl l)
    [("/tmp/b/p_0001_bin0.1.hocr".toList), ("/tmp/b/p_0001_bin0.2.hocr".toList),
      ("/tmp/b/p_0001_bin0.3.hocr".toList)]
    ⟨⟨[], [], [], []⟩, []⟩ ("p_0001".toList)
    ⟨("/tmp/b/p_0001_bin0.1.hocr".toList), ("_bin0.1.hocr".toList), 50⟩ (by decide)

/-! ## The body of an ocr-page message -/

theorem split_ne_nil (s : Str) (sep : Char) : Split s sep ≠ [] := by
  cases s with
  | nil => simp [Split]
  | cons c cs =>
    rw [Split]
    by_cases h : c = sep
    · simp [h]
    · rw [if_neg h]
      split <;> simp

theorem split_no_sep (s : Str) (sep : Char) (h : sep ∉ s) : Split s sep = [s] := by
  induction s with
  | nil => rfl
  | cons c cs ih =>
    have hc : ¬ c = sep := fun hc => h (hc ▸ List.mem_cons_self _ _)
    have hcs : sep ∉ cs := fun hm => h (List.mem_cons_of_mem _ hm)
    rw [Split, if_neg hc, ih hcs]

theorem split_append_sep (a b : Str) (sep : Char) (h : sep ∉ a) :
    Split (a ++ sep :: b) sep = a :: Split b sep := by
  induction a with
  | nil => simp [Split]
  | cons c cs ih =>
    have hc : ¬ c = sep := fun hc => h (hc ▸ List.mem_cons_self _ _)
    have hcs : sep ∉ cs := fun hm => h (List.mem_cons_of_mem _ hm)
    rw [List.cons_append, Split, if_neg hc, ih hcs]

theorem split_snoc_sep (s : Str) (sep : Char) : Split (s ++ [sep]) sep = Split s sep ++ [[]] := by
  induction s with
  | nil => simp [Split]
  | cons c cs ih =>
    rw [List.cons_append, Split]
    by_cases hc : c = sep
    · rw [if_pos hc, ih]
      simp [Split, hc]
    · rw [if_neg hc, ih]
      conv_rhs => rw [Split, if_neg hc]
      cases hs : Split cs sep with
      | nil => exact absurd hs (split_ne_nil cs sep)
      | cons x xs => simp

theorem lastElement_book_key (bookname file : Str) (hs : '/' ∉ file) :
    lastElement (bookname ++ ['/'] ++ file) = file := by
  unfold lastElement
  have hrev : (bookname ++ ['/'] ++ file).reverse = file.reverse ++ '/' :: bookname.reverse := by
    simp
  rw [hrev, List.takeWhile_append_of_pos]
  · simp [List.takeWhile]
  · intro x hx
    have : x ≠ '/' := fun h => hs (h ▸ (List.mem_reverse.1 hx))
    simpa using this

theorem clean_snoc_slash (b : Str) (hb : b ≠ []) : Clean (b ++ ['/']) = Clean b := by
  unfold Clean
  have h1 : b ++ ['/'] ≠ [] := by simp
  have h2 : (b ++ ['/']).head? = b.head? := by
    cases b with
    | nil => exact absurd rfl hb
    | cons c cs => rfl
  rw [if_neg h1, if_neg hb, split_snoc_sep, h2]
  simp [List.foldl_append, cleanStep]

theorem dir_book_key (bookname file : Str) (hb : bookname ≠ []) (hs : '/' ∉ file) :
    Dir (bookname ++ ['/'] ++ file) = Clean bookname := by
  unfold Dir
  rw [lastElement_book_key bookname file hs]
  have : (bookname ++ ['/'] ++ file).take ((bookname ++ ['/'] ++ file).length - file.length)
      = bookname ++ ['/'] := by
    have hl : (bookname ++ ['/'] ++ file).length - file.length = (bookname ++ ['/']).length := by
      simp only [List.length_append, List.length_singleton]
      omega
    rw [hl, List.take_left']
    rfl
  rw [this, clean_snoc_slash bookname hb]

/-- C16, as stated, fails: the image `my page.png`, whose name has a space, is uploaded by
`UploadImages` as `b/my page_0000.png`.  The wipe job of the book enqueues the body
`b/my page_0000_bin0.0.png eng` on the ocr-page queue, and `OcrPage` decodes it at the first
space: the key it downloads is `b/my`, not `b/my page_0000_bin0.0.png`, and the training is
`page_0000_bin0.0.png`, not `eng`; the job fails on the download. -/
theorem ocrPage_file_with_space :
    uploaded (UploadImages memConn (fun _ _ => ([⟨("my page.png".toList), false⟩], none))
        ("/d".toList) ['b'] ⟨⟨[], [], [], [("/d/my page.png".toList)]⟩, []⟩).2.calls =
      [(("b/my page_0000.png".toList), ("/d/my page.png".toList))] ∧
    wipeMatch ("b/my page_0000.png".toList) = true ∧
    (ProcessBook memConn memHost (seqEngine memConn memHost)
        ⟨[], ("h1".toList), ("b eng".toList)⟩ (Wipe memHost) wipeMatch
        memConn.WipeQueueId memConn.OCRPageQueueId
        ⟨⟨[("b/my page_0000.png".toList)], [], [], []⟩, []⟩).2.st.queue =
      [(memConn.OCRPageQueueId, ("b/my page_0000_bin0.0.png eng".toList))] ∧
    ocrPageKey ⟨[], ("h2".toList), ("b/my page_0000_bin0.0.png eng".toList)⟩ = ("b/my".toList) ∧
    ocrPageBook ⟨[], ("h2".toList), ("b/my page_0000_bin0.0.png eng".toList)⟩ = ['b'] ∧
    ocrPageTraining ⟨[], ("h2".toList), ("b/my page_0000_bin0.0.png eng".toList)⟩ =
      some ("page_0000_bin0.0.png".toList) ∧
    (OcrPage memConn memHost (seqEngine memConn memHost)
        ⟨[], ("h2".toList), ("b/my page_0000_bin0.0.png eng".toList)⟩
        (Ocr memHost ("eng".toList)) memConn.OCRPageQueueId memConn.AnalyseQueueId
        ⟨⟨[("b/my page_0000.png".toList), ("b/my page_0000_bin0.0.png".toList)],
          [(memConn.OCRPageQueueId, ("b/my page_0000_bin0.0.png eng".toList))], [], []⟩,
          []⟩).1 = some ("no such key".toList) := by
  refine ⟨by decide, by decide, by decide, by decide, by decide, by decide, by decide⟩

/-- The job of `OcrPage` in terms of the parts of the message. -/
theorem ocrPageJob_eq {σ : Type} (host : Host σ) (engine : Engine σ) (msg : Qmsg)
    (process : Transform σ) (fromQueue : Str) (st : σ) :
    ocrPageJob host engine msg process fromQueue st =
      engine (.up (ocrPageBook msg))
        (match ocrPageTraining msg with
          | some training => Ocr host training
          | none => process)
        [ocrPageKey msg] (filepathJoin [host.TempDir, ocrPageBook msg]) msg fromQueue
        (host.MkdirAll (filepathJoin [host.TempDir, ocrPageBook msg]) st).2 := by
  unfold ocrPageJob ocrPageTraining ocrPageKey ocrPageBook
  simp only
  split <;> rfl

/-- C16, amended: let the book name be a non-empty clean path without a space, the page
file name (a basename) be without a space and without a slash, and the training be without
a space.  The body that a successful `upAndQueue` enqueues for the page is decoded by
`OcrPage` into the same data: the key fed to the downloader is `bookname/<file>`, the book
name used is `bookname`, and the transform handed to the job is `Ocr` of the training when
the training is not empty and the transform of the caller when it is empty. -/
theorem ocrPage_decodes_upAndQueue_body {σ : Type} (conn : Pipeliner σ) (host : Host σ)
    (engine : Engine σ) (toQueue bookname training path : Str) (id handle : Str)
    (process : Transform σ) (fromQueue : Str) (st0 st : σ)
    (hne : bookname ≠ []) (hclean : Clean bookname = bookname) (hb : ' ' ∉ bookname)
    (hf : ' ' ∉ Base path) (hslash : '/' ∉ Base path) (ht : ' ' ∉ training)
    (hdone : (upAndQueue conn host toQueue bookname training [path] ⟨st0, []⟩).1 = .done) :
    ∃ body,
      enqueued (upAndQueue conn host toQueue bookname training [path] ⟨st0, []⟩).2.calls =
        [(toQueue, body)] ∧
      ocrPageKey ⟨id, handle, body⟩ = bookname ++ ['/'] ++ Base path ∧
      ocrPageBook ⟨id, handle, body⟩ = bookname ∧
      ocrPageTraining ⟨id, handle, body⟩ = (if training = [] then none else some training) ∧
      ocrPageJob host engine ⟨id, handle, body⟩ process fromQueue st =
        engine (.up bookname) (if training = [] then process else Ocr host training)
          [bookname ++ ['/'] ++ Base path] (filepathJoin [host.TempDir, bookname])
          ⟨id, handle, body⟩ fromQueue
          (host.MkdirAll (filepathJoin [host.TempDir, bookname]) st).2 := by
  have hkey : ' ' ∉ bookname ++ ['/'] ++ Base path := by
    simp only [List.mem_append, List.mem_singleton, not_or]
    exact ⟨⟨hb, by decide⟩, hf⟩
  have hsplit : Split (bookname ++ ['/'] ++ Base path ++ [' '] ++ training) ' ' =
      [bookname ++ ['/'] ++ Base path, training] := by
    have : bookname ++ ['/'] ++ Base path ++ [' '] ++ training =
        (bookname ++ ['/'] ++ Base path) ++ ' ' :: training := by simp
    rw [this, split_append_sep _ _ _ hkey, split_no_sep _ _ ht]
  have hk : ocrPageKey ⟨id, handle, bookname ++ ['/'] ++ Base path ++ [' '] ++ training⟩ =
      bookname ++ ['/'] ++ Base path := by
    show (Split (bookname ++ ['/'] ++ Base path ++ [' '] ++ training) ' ').headD [] = _
    rw [hsplit]
    rfl
  have hbk : ocrPageBook ⟨id, handle, bookname ++ ['/'] ++ Base path ++ [' '] ++ training⟩ =
      bookname := by
    have h1 : ocrPageBook ⟨id, handle, bookname ++ ['/'] ++ Base path ++ [' '] ++ training⟩ =
        Dir (bookname ++ ['/'] ++ Base path) := by
      show Dir ((Split (bookname ++ ['/'] ++ Base path ++ [' '] ++ training) ' ').headD []) = _
      rw [hsplit]
      rfl
    rw [h1, dir_book_key bookname (Base path) hne hslash, hclean]
  have htr : ocrPageTraining ⟨id, handle, bookname ++ ['/'] ++ Base path ++ [' '] ++ training⟩ =
      (if training = [] then none else some training) := by
    show (if 1 < (Split (bookname ++ ['/'] ++ Base path ++ [' '] ++ training) ' ').length ∧
        (Split (bookname ++ ['/'] ++ Base path ++ [' '] ++ training) ' ').getD 1 [] ≠ [] then
        some ((Split (bookname ++ ['/'] ++ Base path ++ [' '] ++ training) ' ').getD 1 [])
      else none) = _
    rw [hsplit]
    by_cases h0 : training = []
    · simp [h0]
    · simp [h0]
  refine ⟨bookname ++ ['/'] ++ Base path ++ [' '] ++ training, ?_, hk, hbk, htr, ?_⟩
  · rcases upAndQueue_trace conn host toQueue bookname training [path] ⟨st0, []⟩ with
      ⟨-, hc⟩ | ⟨pre, p, post, e, bad, -, he, -, -⟩
    · rw [hc]
      simp [stepCalls, enqueued]
    · rw [hdone] at he
      exact absurd he (by simp)
  · rw [ocrPageJob_eq, hk, hbk, htr]
    by_cases h0 : training = []
    · simp [h0]
    · simp [h0]

/-- C16, amended, at a concrete page: book `b`, file `p_bin0.1.png`, training `eng`. -/
theorem ocrPage_decodes_upAndQueue_body_witness :
    ∃ body,
      enqueued (upAndQueue memConn memHost memConn.OCRPageQueueId ['b'] ("eng".toList)
          [("/tmp/b/p_bin0.1.png".toList)]
          ⟨⟨[], [], [], [("/tmp/b/p_bin0.1.png".toList)]⟩, []⟩).2.calls =
        [(memConn.OCRPageQueueId, body)] ∧
      ocrPageKey ⟨[], ("h1".toList), body⟩ = ['b'] ++ ['/'] ++ Base ("/tmp/b/p_bin0.1.png".toList) ∧
      ocrPageBook ⟨[], ("h1".toList), body⟩ = ['b'] ∧
      ocrPageTraining ⟨[], ("h1".toList), body⟩ =
        (if ("eng".toList) = [] then none else some ("eng".toList)) :=
  (ocrPage_decodes_upAndQueue_body memConn memHost (seqEngine memConn memHost)
    memConn.OCRPageQueueId ['b'] ("eng".toList) ("/tmp/b/p_bin0.1.png".toList) []
    ("h1".toList) (Ocr memHost ("default".toList)) memConn.OCRPageQueueId
    ⟨[], [], [], [("/tmp/b/p_bin0.1.png".toList)]⟩ ⟨[], [], [], []⟩
    (by decide) (by decide) (by decide) (by decide) (by decide) (by decide) (by decide)).imp
    (fun _ h => ⟨h.1, h.2.1, h.2.2.1, h.2.2.2.1⟩)

/-! ## The graph at the end of `Analyse` -/

/-- The copy of `Graph` in `src/bookpipeline/graph.go` returns what the renderer returns or
panics: with a renderer that does not produce the text `Not enough valid confidences`, it
never returns that error. -/
theorem graph_never_not_enough (lib : GraphLib) (confs : List (Str × Conf)) (bookname : Str)
    (hR : ∀ chart, lib.Render chart ≠ some ("Not enough valid confidences".toList)) :
    Graph lib confs bookname ≠ .returned (some ("Not enough valid confidences".toList)) := by
  unfold Graph
  cases graphChart lib confs bookname with
  | none => simp
  | some chart =>
    intro h
    simp only [GraphResult.returned.injEq] at h
    exact hR chart h

/-- Lines 399-415 of `Analyse` for every result of the graph routine, once `graph.png` has
been created: when the routine returns the error `Not enough valid confidences`, no error is
sent on `errc` and `graph.png` is sent on `up`, as when the routine returns no error; when
it returns any other error, `Error rendering graph: ` followed by that error is sent on
`errc` and `graph.png` is not sent. -/
theorem analyse_graph_errors {σ : Type} (host : Host σ) (savedir : Str) (g : GraphResult)
    (r : Run σ)
    (hcreate : (host.Create (filepathJoin [savedir, "graph.png".toList]) r.st).1 = none) :
    (g = .returned (some ("Not enough valid confidences".toList)) →
      (analyseGraph host savedir g r).stop = none ∧
      (analyseGraph host savedir g r).emitted = [filepathJoin [savedir, "graph.png".toList]]) ∧
    (g = .returned none →
      (analyseGraph host savedir g r).stop = none ∧
      (analyseGraph host savedir g r).emitted = [filepathJoin [savedir, "graph.png".toList]]) ∧
    (∀ e, g = .returned (some e) → e ≠ ("Not enough valid confidences".toList) →
      (analyseGraph host savedir g r).stop =
        some (.errc (("Error rendering graph: ".toList) ++ e)) ∧
      (analyseGraph host savedir g r).emitted = []) := by
  have hstep : r.step (host.Create (filepathJoin [savedir, "graph.png".toList]))
      (.create (filepathJoin [savedir, "graph.png".toList])) =
      (none, (r.step (host.Create (filepathJoin [savedir, "graph.png".toList]))
        (.create (filepathJoin [savedir, "graph.png".toList]))).2) := by
    apply Prod.ext
    · exact hcreate
    · rfl
  refine ⟨?_, ?_, ?_⟩
  · intro hg
    subst hg
    unfold analyseGraph
    simp only
    rw [hstep]
    simp
  · intro hg
    subst hg
    unfold analyseGraph
    simp only
    rw [hstep]
    simp
  · intro e hg he
    subst hg
    unfold analyseGraph
    simp only
    rw [hstep]
    dsimp only
    rw [if_pos he]
    exact ⟨rfl, rfl⟩

/-! ## The graph routine -/

/-- C18 (the code departs from the claim): `Graph` has no test of the number of points.
For an empty map, and for a map whose only entry `notes.hocr` has no page number, there is
no usable point and the index `graphconf[0]` is out of range: the routine panics.  For a
map with one usable point, and for one with nine, both percentile indices are 0 and the
routine returns what the renderer returns, here no error, not
`Not enough valid confidences`. -/
theorem graph_with_few_points :
    Graph plainGraphLib [] ['b'] = .panic ∧
    graphPoints parseDigits [⟨("/tmp/b/notes.hocr".toList), [], 50⟩] = some [] ∧
    Graph plainGraphLib [(("notes".toList), ⟨("/tmp/b/notes.hocr".toList), [], 50⟩)] ['b'] =
      .panic ∧
    Graph plainGraphLib
      [(("0001".toList), ⟨("/tmp/b/0001_bin0.1.hocr".toList), ("_bin0.1.hocr".toList), 50⟩)]
      ['b'] = .returned none ∧
    (graphPoints parseDigits
      ((List.range 9).map (fun n =>
        (⟨'/' :: Nat.toDigits 10 n ++ ("_bin0.1.hocr".toList), ("_bin0.1.hocr".toList), 50⟩ :
          Conf)))).map List.length = some 9 ∧
    Graph plainGraphLib
      ((List.range 9).map (fun n => (Nat.toDigits 10 n,
        (⟨'/' :: Nat.toDigits 10 n ++ ("_bin0.1.hocr".toList), ("_bin0.1.hocr".toList), 50⟩ :
          Conf))))
      ['b'] = .returned none := by
  refine ⟨by decide, by decide, by decide, by decide, by decide, by decide⟩

theorem graphTicks_length (tickevery : Nat) (l : List GraphConf) (i : Nat) :
    (graphTicks tickevery l i).length =
      ((List.range l.length).filter (fun k => tickevery % (i + k + 1) = 0)).length := by
  induction l generalizing i with
  | nil => rfl
  | cons c cs ih =>
    rw [graphTicks, List.length_cons, List.range_succ_eq_map, List.filter_cons,
      List.filter_map]
    have hcomp : ((fun k => decide (tickevery % (i + k + 1) = 0)) ∘ Nat.succ) =
        (fun k => decide (tickevery % (i + 1 + k + 1) = 0)) := by
      funext k
      simp only [Function.comp, Nat.succ_eq_add_one]
      congr 3
      omega
    rw [hcomp]
    by_cases h : tickevery % (i + 1) = 0
    · simp [h, ih (i + 1)]
    · simp [h, ih (i + 1)]

set_option maxRecDepth 4000 in
theorem tick_positions_360 :
    ((List.range 360).filter (fun k => 360 % (0 + k + 1) = 0)).length = 24 := by
  decide

theorem tick_positions_7200 :
    ((List.range 7200).filter (fun k => (7200 / maxticks) % (0 + k + 1) = 0)).length = 24 := by
  have hq : 7200 / maxticks = 360 := by decide
  have h : (7200 : Nat) = 360 + 6840 := rfl
  rw [hq, h, List.range_add, List.filter_append, List.length_append, tick_positions_360]
  have hnil : ((List.map (fun x => 360 + x) (List.range 6840)).filter
      (fun k => 360 % (0 + k + 1) = 0)) = [] := by
    rw [List.filter_eq_nil_iff]
    intro a ha
    rw [List.mem_map] at ha
    obtain ⟨x, -, rfl⟩ := ha
    have hmod : 360 % (0 + (360 + x) + 1) = 360 := Nat.mod_eq_of_lt (by omega)
    simp only [decide_eq_true_eq]
    omega
  rw [hnil]
  rfl

/-- C19 (the code departs from the claim): for every 7200 usable points, in whatever order,
the list of ticks that `Graph` builds has 24 elements, more than `maxticks` = 20: with
`tickevery` = 7200 / 20 = 360, a tick is made at every position that divides 360. -/
theorem graph_ticks_exceed_maxticks (f : Fin 7200 → GraphConf) :
    (graphTicks ((List.ofFn f).length / maxticks) (List.ofFn f) 0).length = 24 ∧
      maxticks < 24 := by
  refine ⟨?_, by decide⟩
  rw [graphTicks_length, List.length_ofFn]
  exact tick_positions_7200

/-- C20 (the code departs from the claim): the entry with the path `/tmp/b/README`, whose
basename contains neither `_` nor `.`, is not skipped: both searches return `-1`, the slice
`name[0:-1]` is out of range and `Graph` panics.  (An entry `notes.hocr` is skipped and an
entry `0012_bin0.1.hocr` with confidence 81 contributes the point (12, 81).) -/
theorem graph_name_without_separator :
    graphNumend (Base ("/tmp/b/README".toList)) = -1 ∧
    graphPoint parseDigits ⟨("/tmp/b/README".toList), [], 50⟩ = none ∧
    Graph plainGraphLib [(("README".toList), ⟨("/tmp/b/README".toList), [], 50⟩)] ['b'] =
      .panic ∧
    Graph plainGraphLib
      [(("0012".toList), ⟨("/tmp/b/0012_bin0.1.hocr".toList), ("_bin0.1.hocr".toList), 81⟩),
       (("README".toList), ⟨("/tmp/b/README".toList), [], 50⟩)] ['b'] = .panic ∧
    graphPoints parseDigits
      [⟨("/tmp/b/notes.hocr".toList), [], 50⟩,
       ⟨("/tmp/b/0012_bin0.1.hocr".toList), ("_bin0.1.hocr".toList), 81⟩] =
      some [⟨12, 81⟩] := by
  refine ⟨by decide, by decide, by decide, by decide, by decide⟩

/-! ## The images fetched for the PDFs -/

/-- C21 (the code departs from the claim): the selected variant is
`/tmp/b/a.jpg_0001_bin0.1.hocr`, so X is `a.jpg_0001`, and the bucket holds
`b/a.jpg_0001_bin0.1.png` and `b/a.jpg_0001.png` but no `b/a.jpg_0001.jpg`.  `Analyse`
requests `b/a.jpg_0001_bin0.1.png`, then `b/a.jpg_0001.jpg`, which fails, and then as
fallback `b/a.png_0001.jpg` (the first `.jpg` of the name was replaced), which fails too:
`b/a.jpg_0001.png` is never requested and the page is left out of the colour PDF.  (For the
variant `/tmp/b/p_0001_bin0.1.hocr` the fallback requested is `b/p_0001.png`.) -/
theorem analyse_colour_fallback_first_jpg :
    pageImgs [("/tmp/b/a.jpg_0001_bin0.1.hocr".toList)] =
      ([⟨("a.jpg_0001_bin0.1.hocr".toList), ("a.jpg_0001_bin0.1.png".toList)⟩],
       [⟨("a.jpg_0001_bin0.1.hocr".toList), ("a.jpg_0001.jpg".toList)⟩]) ∧
    downloads (analysePdfs memConn memHost memPdf id ("/tmp/b".toList)
        [(("a.jpg_0001".toList),
          ⟨("/tmp/b/a.jpg_0001_bin0.1.hocr".toList), ("_bin0.1.hocr".toList), 81⟩)]
        ⟨⟨[("b/a.jpg_0001_bin0.1.png".toList), ("b/a.jpg_0001.png".toList)], [], [],
          [("/tmp/b/a.jpg_0001_bin0.1.hocr".toList)]⟩, []⟩).run.calls =
      [(("b/a.jpg_0001_bin0.1.png".toList), true), (("b/a.jpg_0001.jpg".toList), false),
       (("b/a.png_0001.jpg".toList), false)] ∧
    (analysePdfs memConn memHost memPdf id ("/tmp/b".toList)
        [(("a.jpg_0001".toList),
          ⟨("/tmp/b/a.jpg_0001_bin0.1.hocr".toList), ("_bin0.1.hocr".toList), 81⟩)]
        ⟨⟨[("b/a.jpg_0001_bin0.1.png".toList), ("b/a.jpg_0001.png".toList)], [], [],
          [("/tmp/b/a.jpg_0001_bin0.1.hocr".toList)]⟩, []⟩).emitted =
      [("/tmp/b/b.binarised.pdf".toList)] ∧
    downloads (analysePdfs memConn memHost memPdf id ("/tmp/b".toList)
        [(("p_0001".toList),
          ⟨("/tmp/b/p_0001_bin0.1.hocr".toList), ("_bin0.1.hocr".toList), 81⟩)]
        ⟨⟨[("b/p_0001_bin0.1.png".toList), ("b/p_0001.png".toList)], [], [],
          [("/tmp/b/p_0001_bin0.1.hocr".toList)]⟩, []⟩).run.calls =
      [(("b/p_0001_bin0.1.png".toList), true), (("b/p_0001.jpg".toList), false),
       (("b/p_0001.png".toList), true)] ∧
    (analysePdfs memConn memHost memPdf id ("/tmp/b".toList)
        [(("p_0001".toList),
          ⟨("/tmp/b/p_0001_bin0.1.hocr".toList), ("_bin0.1.hocr".toList), 81⟩)]
        ⟨⟨[("b/p_0001_bin0.1.png".toList), ("b/p_0001.png".toList)], [], [],
          [("/tmp/b/p_0001_bin0.1.hocr".toList)]⟩, []⟩).emitted =
      [("/tmp/b/b.binarised.pdf".toList), ("/tmp/b/b.colour.pdf".toList)] := by
  refine ⟨by decide, by decide, by decide, by decide, by decide⟩

/-! ## Dotfiles in `UploadImages` -/

/-- C22 (the code departs from the claim): for a directory `/d` with the files `.DS_Store`
and `a.png`, `UploadImages` uploads the dotfile under the key `b/_0000.DS_Store` and numbers
`a.png` as `b/a_0001.png`; `fileWalk.Walk`, which skips the names that start with `.`, is
not used by it.  (Without the dotfile, `a.png` is uploaded as `b/a_0000.png`.) -/
theorem uploadImages_uploads_dotfiles :
    (UploadImages memConn
        (fun _ _ => ([⟨(".DS_Store".toList), false⟩, ⟨("a.png".toList), false⟩], none))
        ("/d".toList) ['b']
        ⟨⟨[], [], [], [("/d/.DS_Store".toList), ("/d/a.png".toList)]⟩, []⟩).1 = none ∧
    uploaded (UploadImages memConn
        (fun _ _ => ([⟨(".DS_Store".toList), false⟩, ⟨("a.png".toList), false⟩], none))
        ("/d".toList) ['b']
        ⟨⟨[], [], [], [("/d/.DS_Store".toList), ("/d/a.png".toList)]⟩, []⟩).2.calls =
      [(("b/_0000.DS_Store".toList), ("/d/.DS_Store".toList)),
       (("b/a_0001.png".toList), ("/d/a.png".toList))] ∧
    walkSends ("/d/.DS_Store".toList) false = none ∧
    uploaded (UploadImages memConn
        (fun _ _ => ([⟨("a.png".toList), false⟩], none))
        ("/d".toList) ['b']
        ⟨⟨[], [], [], [("/d/a.png".toList)]⟩, []⟩).2.calls =
      [(("b/a_0000.png".toList), ("/d/a.png".toList))] := by
  refine ⟨by decide, by decide, by decide, by decide⟩

/-! ## Goroutines left blocked by an error -/

/-- Once the transform has stopped on an error, no step closes `up` or moves the uploader
out of its loops over `up`. -/
theorem fire_keeps_uploader_receiving {σ : Type} (conn : Pipeliner σ) (dir : Str)
    (work : ItemWork σ) (upload : Str → Run σ → Option Err × Run σ) (e : JobEvent)
    (j j1 : Job σ) (h : fire conn dir work upload e j = some j1)
    (hf : j.transformFailed = true) (hu : j.uploaderReceiving = true) :
    j1.transformFailed = true ∧ j1.uploaderReceiving = true := by
  obtain ⟨driver, downloader, transform, uploader, dlc, pc, uc, run⟩ := j
  simp only [Job.transformFailed, Job.uploaderReceiving, Bool.and_eq_true,
    Bool.not_eq_true'] at hf hu
  obtain ⟨huc, htr⟩ := hf
  subst huc
  cases e <;> simp only [fire] at h <;> (repeat' (split at h)) <;>
    (cases h; try simp_all [Job.transformFailed, Job.uploaderReceiving])

/-- Once the transform has stopped on an error, the uploader never returns, whatever the
schedule: it stays in one of its loops over `up`, which is never closed. -/
theorem fireAll_keeps_uploader_receiving {σ : Type} (conn : Pipeliner σ) (dir : Str)
    (work : ItemWork σ) (upload : Str → Run σ → Option Err × Run σ) (es : List JobEvent)
    (j j1 : Job σ) (h : fireAll conn dir work upload es j = some j1)
    (hf : j.transformFailed = true) (hu : j.uploaderReceiving = true) :
    j1.uploaderReceiving = true ∧ j1.upClosed = false ∧ j1.uploader ≠ .returned := by
  induction es generalizing j with
  | nil =>
    simp only [fireAll, Option.some.injEq] at h
    subst h
    refine ⟨hu, ?_, ?_⟩
    · simp only [Job.transformFailed, Bool.and_eq_true, Bool.not_eq_true'] at hf
      exact hf.1
    · intro hr
      simp [Job.uploaderReceiving, hr] at hu
  | cons e es ih =>
    rw [fireAll] at h
    cases hfire : fire conn dir work upload e j with
    | none => rw [hfire] at h; exact absurd h (by simp)
    | some j2 =>
      rw [hfire] at h
      obtain ⟨hf2, hu2⟩ := fire_keeps_uploader_receiving conn dir work upload e j j2 hfire hf hu
      exact ih j2 h hf2 hu2

/-- C23 (the code departs from the claim): a job of `OcrPage` for the key `b/p_bin0.1.png`.
When the OCR command fails, under every schedule the `select` receives the error of the
transform and the uploader has not returned: the transform returns without closing `up`, so
the uploader stays at its receive from `up` for ever.  When the download fails (the key is
not in the bucket), under every schedule a goroutine is left blocked: either the `select`
receives the error and the uploader stays at `done <- true`, or the `select` receives `done`
and `download` stays at `errc <- err`, so that `errc` delivers no error at all.  (When
nothing fails, the `select` receives `done` and the three goroutines have returned.) -/
theorem job_error_leaves_goroutine_blocked :
    (jobEnds memConn ("/tmp/b".toList) (ocrItem failingOcrHost ("eng".toList))
        (upItem memConn memHost ['b']) 12
        (startJob [("b/p_bin0.1.png".toList)]
          ⟨⟨[("b/p_bin0.1.png".toList)], [], [], []⟩, []⟩)).map List.dedup =
      some [(some (.errc ("Error ocring /tmp/b/p_bin0.1.png with training eng: exit status 1".toList)),
        [.uploader])] ∧
    (jobEnds memConn ("/tmp/b".toList) (ocrItem memHost ("eng".toList))
        (upItem memConn memHost ['b']) 12
        (startJob [("b/p_bin0.1.png".toList)] ⟨⟨[], [], [], []⟩, []⟩)).map List.dedup =
      some [(some .done, [.download]), (some (.errc ("no such key".toList)), [.uploader])] ∧
    (jobEnds memConn ("/tmp/b".toList) (ocrItem memHost ("eng".toList))
        (upItem memConn memHost ['b']) 12
        (startJob [("b/p_bin0.1.png".toList)]
          ⟨⟨[("b/p_bin0.1.png".toList)], [], [], []⟩, []⟩)).map List.dedup =
      some [(some .done, [])] := by
  refine ⟨by decide, by decide, by decide⟩

/-! ## The rotated message of the heartbeat -/

/-- While only ticks arrive, the heartbeat never stands at `msgc <- m`. -/
theorem heartbeatRun_ticks_not_sending {σ : Type}
    (QueueHeartbeat : Qmsg → Str → Nat → σ → Except Err Qmsg × σ) (queue : Str) (n : Nat)
    (beat : Beat) (st : σ) (h : selectMsgc beat = none) :
    selectMsgc (heartbeatRun QueueHeartbeat queue (List.replicate n .tick) beat st).1 = none := by
  induction n generalizing beat st with
  | zero => exact h
  | succ n ih =>
    rw [List.replicate_succ, heartbeatRun]
    apply ih
    cases beat with
    | ticking currentmsg =>
      rw [heartbeatStep]
      cases hq : QueueHeartbeat currentmsg queue (HeartbeatSeconds * 2) st with
      | mk res st1 =>
        cases res with
        | error e => rfl
        | ok m =>
          dsimp only
          by_cases hid : m.Id ≠ []
          · rw [if_pos hid]; rfl
          · rw [if_neg hid]; rfl
    | draining m => rfl
    | sending m => exact absurd h (by simp [selectMsgc])
    | exited => rfl

/-- After a rotated message, ticks no longer reach the adapter: the heartbeat stays at its
receive from `msgc`. -/
theorem heartbeatRun_ticks_draining {σ : Type}
    (QueueHeartbeat : Qmsg → Str → Nat → σ → Except Err Qmsg × σ) (queue : Str) (n : Nat)
    (m : Qmsg) (st : σ) :
    heartbeatRun QueueHeartbeat queue (List.replicate n .tick) (.draining m) st =
      (.draining m, st) := by
  induction n with
  | zero => rfl
  | succ n ih =>
    rw [List.replicate_succ, heartbeatRun]
    exact ih

/-- C24 (the code departs from the claim): in a job the heartbeat is the only goroutine that
sends on `msgc`, and nothing closes it.  For every adapter and every number of ticks the
heartbeat never comes to stand at `msgc <- m`, so the `select` of the driver finds no message
and the source message is deleted with the handle originally received.  Once a heartbeat
call has returned a rotated message `m`, the goroutine stands at `for range msgc` and stays
there for every later tick, without another heartbeat call.  At a concrete job: the first heartbeat
call returns a rotated message with the handle `h2`; after three ticks one call has been
made, and `OcrPage` deletes the message with the handle `h1`. -/
theorem heartbeat_never_forwards {σ : Type} (conn : Pipeliner σ) (host : Host σ)
    (QueueHeartbeat : Qmsg → Str → Nat → σ → Except Err Qmsg × σ) (queue : Str) (n : Nat)
    (msg m : Qmsg) (st : σ) (fromQueue d : Str) (r : Run σ) :
    selectMsgc (heartbeatRun QueueHeartbeat queue (List.replicate n .tick)
      (.ticking msg) st).1 = none ∧
    delCalls (deleteAndCleanup conn host msg
        (selectMsgc (heartbeatRun QueueHeartbeat queue (List.replicate n .tick)
          (.ticking msg) st).1) fromQueue d r).2.calls =
      delCalls r.calls ++ [(fromQueue, msg.Handle)] ∧
    heartbeatRun QueueHeartbeat queue (List.replicate n .tick) (.draining m) st =
      (.draining m, st) ∧
    heartbeatRun
        (fun cur _ _ (calls : Nat) => (.ok ⟨("id2".toList), ("h2".toList), cur.Body⟩, calls + 1))
        ("ocrpage".toList) [.tick, .tick, .tick]
        (.ticking ⟨[], ("h1".toList), ("b/p_bin0.1.png eng".toList)⟩) 0 =
      (.draining ⟨("id2".toList), ("h2".toList), ("b/p_bin0.1.png eng".toList)⟩, 1) ∧
    delCalls (OcrPage memConn memHost
        (beatEngine memConn memHost
          (fun cur _ _ m => (.ok ⟨("id2".toList), ("h2".toList), cur.Body⟩, m)) 3)
        ⟨[], ("h1".toList), ("b/p_bin0.1.png eng".toList)⟩ (Ocr memHost ("eng".toList))
        memConn.OCRPageQueueId memConn.AnalyseQueueId
        ⟨⟨[("b/p_bin0.1.png".toList)], [], [], []⟩, []⟩).2.calls =
      [(memConn.OCRPageQueueId, ("h1".toList))] := by
  have hnone := heartbeatRun_ticks_not_sending QueueHeartbeat queue n (.ticking msg) st rfl
  refine ⟨hnone, ?_, ?_, by decide, by decide⟩
  · rw [hnone]
    obtain ⟨okD, hp, -⟩ := deleteAndCleanup_protocol conn host msg none fromQueue d r
    rw [← delCalls_protocol, hp, delCalls_append, delCalls_protocol]
    rfl
  · exact heartbeatRun_ticks_draining QueueHeartbeat queue n m st

/-! ## The hOCR key written by `OcrPage` and the key looked up by `allOCRed` -/

/-- C25 (the code departs from the claim): for the book `b` and the file
`a.png_bin0.1.png`, which matches `_bin[0-9]\.[0-9]\.png$`, the page is downloaded to
`/tmp/b/a.png_bin0.1.png`, `Ocr` emits `/tmp/b/a_bin0.1.png.hocr` and `up` uploads it under
the key `b/a_bin0.1.png.hocr`, while `allOCRed` looks for `b/a.png_bin0.1.hocr`: after the
job `allOCRed` is false.  The same happens for the book `b.png` and the file
`p_bin0.1.png`: the key uploaded is `b.png/p_bin0.1.png.hocr`, the key looked up
`b.png/p_bin0.1.hocr`. -/
theorem ocrPage_hocr_key_differs :
    MatchString specVariantPattern ("a.png_bin0.1.png".toList) = true ∧
    filepathJoin [filepathJoin [memHost.TempDir, ['b']], Base ("b/a.png_bin0.1.png".toList)] =
      ("/tmp/b/a.png_bin0.1.png".toList) ∧
    uploaded (up memConn memHost ['b']
        (Ocr memHost ("eng".toList)
          (download memConn ("/tmp/b".toList) [("b/a.png_bin0.1.png".toList)]
            ⟨⟨[("b/a.png_bin0.1.png".toList)], [], [], []⟩, []⟩).1.1
          (download memConn ("/tmp/b".toList) [("b/a.png_bin0.1.png".toList)]
            ⟨⟨[("b/a.png_bin0.1.png".toList)], [], [], []⟩, []⟩).2).1.1
        (Ocr memHost ("eng".toList)
          (download memConn ("/tmp/b".toList) [("b/a.png_bin0.1.png".toList)]
            ⟨⟨[("b/a.png_bin0.1.png".toList)], [], [], []⟩, []⟩).1.1
          (download memConn ("/tmp/b".toList) [("b/a.png_bin0.1.png".toList)]
            ⟨⟨[("b/a.png_bin0.1.png".toList)], [], [], []⟩, []⟩).2).2).2.calls =
      [(("b/a_bin0.1.png.hocr".toList), ("/tmp/b/a_bin0.1.png.hocr".toList))] ∧
    ['b'] ++ ['/'] ++ TrimSuffix (Base ("b/a.png_bin0.1.png".toList)) ['.', 'p', 'n', 'g']
        ++ ['.', 'h', 'o', 'c', 'r'] = ("b/a.png_bin0.1.hocr".toList) ∧
    allOCRedOf ['b']
      ([("b/a.png_bin0.1.png".toList), ("b/a_bin0.1.png.hocr".toList)], none) = false ∧
    MatchString specVariantPattern ("p_bin0.1.png".toList) = true ∧
    uploaded (up memConn memHost ("b.png".toList)
        (Ocr memHost ("eng".toList) [("/tmp/b.png/p_bin0.1.png".toList)]
          ⟨⟨[], [], [], [("/tmp/b.png/p_bin0.1.png".toList)]⟩, []⟩).1.1
        (Ocr memHost ("eng".toList) [("/tmp/b.png/p_bin0.1.png".toList)]
          ⟨⟨[], [], [], [("/tmp/b.png/p_bin0.1.png".toList)]⟩, []⟩).2).2.calls =
      [(("b.png/p_bin0.1.png.hocr".toList), ("/tmp/b/p_bin0.1.png.hocr".toList))] ∧
    ("b.png".toList) ++ ['/'] ++
        TrimSuffix (Base ("b.png/p_bin0.1.png".toList)) ['.', 'p', 'n', 'g']
        ++ ['.', 'h', 'o', 'c', 'r'] = ("b.png/p_bin0.1.hocr".toList) := by
  refine ⟨by decide, by decide, by decide, by decide, by decide, by decide, by decide,
    by decide⟩

/-! ## A page name without `_bin` in the analyse stage -/

/-- C26 (the code departs from the claim): the key `b/notes.hocr` passes the filter `.hocr$`
of the analyse stage and is downloaded as `/tmp/b/notes.hocr`; its basename contains no
`_bin`, so `strings.Index` returns `-1` and the slice `base[0:-1]` is out of range: for a
file with words the first loop of `Analyse` panics. -/
theorem analyse_name_without_bin :
    [("b/notes.hocr".toList)].filter (MatchString ocredPattern) = [("b/notes.hocr".toList)] ∧
    (download memConn ("/tmp/b".toList) [("b/notes.hocr".toList)]
        ⟨⟨[("b/notes.hocr".toList)], [], [], []⟩, []⟩).1 =
      ([("/tmp/b/notes.hocr".toList)], none) ∧
    Index (Base ("/tmp/b/notes.hocr".toList)) ['_', 'b', 'i', 'n'] = -1 ∧
    slice (Base ("/tmp/b/notes.hocr".toList)) 0 (-1) = none ∧
    readConfs (fun _ => .ok 81) [("/tmp/b/notes.hocr".toList)] [] = .error .panic ∧
    (analyseManifests memHost (fun _ => .ok 81) id id [("/tmp/b/notes.hocr".toList)]
        ⟨⟨[], [], [], [("/tmp/b/notes.hocr".toList)]⟩, []⟩).stop = some .panic ∧
    (analyseManifests memHost (fun _ => .ok 81) id id [("/tmp/b/notes.hocr".toList)]
        ⟨⟨[], [], [], [("/tmp/b/notes.hocr".toList)]⟩, []⟩).emitted = [] := by
  refine ⟨by decide, by decide, by decide, by decide, rfl, by decide, by decide⟩

end Bookpipeline
